import Mathlib

/-!
The import list of the PE viewer (tools/peview/impprp.c).

A shallow embedding of the node store (hash index + ordered list), the column
comparators and the get-children sort, the search-box filter and the pending-node
drain of `impprp.c`, followed by the properties proved about them.

Conventions of the embedding:

* a `PPV_IMPORT_NODE` is an address; the nodes themselves live in `State.Memory`, so two
  distinct nodes may carry equal fields (and equal `UniqueId`s);
* the containers of phlib (`PPH_LIST`, `PPH_HASHTABLE`) hold addresses, as in the C code;
* machine integers are natural numbers; the casts written in the source are kept as
  explicit reductions modulo the width of the target type;
* calls into the window toolkit and the timer queue are recorded in `State.Log`.
-/

namespace PeView

/-! ## Strings (phlib) -/

/-- A counted string reference (PH_STRINGREF): the list of its characters. -/
abbrev PH_STRINGREF := List Char

/-- A nullable pointer to a string object (PPH_STRING); `none` is NULL. -/
abbrev PPH_STRING := Option PH_STRINGREF

/-- Modelled from the spec: `PhGetStringRef` of phlib: the
characters of a string object, and the empty reference for NULL. -/
def PhGetStringRef (String1 : PPH_STRING) : PH_STRINGREF :=
  match String1 with
  | none => []
  | some sr => sr

/-- Modelled from the spec: `PhIsNullOrEmptyString` of phlib: the pointer is NULL or the
string has length zero. -/
def PhIsNullOrEmptyString (String1 : PPH_STRING) : Bool :=
  match String1 with
  | none => true
  | some sr => sr.length == 0

/-- Modelled from the spec: `PhUpcaseUnicodeChar` of phlib, the case folding behind every
"case-insensitive" comparison. The folding table belongs to the operating system; the letters
a-z are folded here. -/
def PhUpcaseUnicodeChar (c : Char) : Char := c.toUpper

/-- Modelled from the spec: `PhStartsWithStringRef` of phlib: does `Text` begin with `Prefix1`,
character by character, after case folding when `IgnoreCase` is set. -/
def PhStartsWithStringRef : PH_STRINGREF → PH_STRINGREF → Bool → Bool
  | _, [], _ => true
  | [], _ :: _, _ => false
  | c :: cs, p :: ps, IgnoreCase =>
    (if IgnoreCase then PhUpcaseUnicodeChar c == PhUpcaseUnicodeChar p else c == p)
      && PhStartsWithStringRef cs ps IgnoreCase

/-- The scan of `PhFindStringInStringRef`: try every start position from left to right;
`i` is the position of the head of the text still to scan. -/
def PhFindStringInStringRef.scan : PH_STRINGREF → PH_STRINGREF → Bool → Nat → Option Nat
  | [], SubString, IgnoreCase, i =>
    if PhStartsWithStringRef [] SubString IgnoreCase then some i else none
  | c :: cs, SubString, IgnoreCase, i =>
    if PhStartsWithStringRef (c :: cs) SubString IgnoreCase then some i
    else PhFindStringInStringRef.scan cs SubString IgnoreCase (i + 1)

/-- Modelled from the spec: `PhFindStringInStringRef` of phlib: the index of the first
occurrence of `SubString` in `Text` (case-insensitively when `IgnoreCase`), `none` standing
for the "not found" value `SIZE_MAX`. -/
def PhFindStringInStringRef (Text SubString : PH_STRINGREF) (IgnoreCase : Bool) : Option Nat :=
  PhFindStringInStringRef.scan Text SubString IgnoreCase 0

/-- Modelled from the spec: `PhSplitStringRefAtChar` of phlib: split `Input` at the first
`Separator`. Returns (found, first part, second part); when the separator does not occur the
first part is the whole input and the second part is empty. -/
def PhSplitStringRefAtChar (Input : PH_STRINGREF) (Separator : Char) :
    Bool × PH_STRINGREF × PH_STRINGREF :=
  let first := Input.takeWhile (fun c => c != Separator)
  let rest := Input.dropWhile (fun c => c != Separator)
  match rest with
  | [] => (false, first, [])
  | _ :: second => (true, first, second)

/-- Modelled from the spec: `PhCompareStringRef` of phlib ("lexicographic compare for names"):
the difference of the first pair of characters that differ, else the difference of the
lengths. -/
def PhCompareStringRef : PH_STRINGREF → PH_STRINGREF → Bool → Int
  | [], s2, _ => - (s2.length : Int)
  | c1 :: s1, [], _ => ((c1 :: s1).length : Int)
  | c1 :: s1, c2 :: s2, IgnoreCase =>
    let d1 := if IgnoreCase then PhUpcaseUnicodeChar c1 else c1
    let d2 := if IgnoreCase then PhUpcaseUnicodeChar c2 else c2
    if d1 ≠ d2 then (d1.toNat : Int) - (d2.toNat : Int)
    else PhCompareStringRef s1 s2 IgnoreCase

/-- Modelled from the spec: `PhCompareStringWithNull` of phlib: NULL sorts before every string,
two NULLs are equal, two strings are compared by `PhCompareStringRef`. -/
def PhCompareStringWithNull (String1 String2 : PPH_STRING) (IgnoreCase : Bool) : Int :=
  match String1, String2 with
  | some s1, some s2 => PhCompareStringRef s1 s2 IgnoreCase
  | none, none => 0
  | none, some _ => -1
  | some _, none => 1

/-! ## Integers and sort order (phlib) -/

/-- The cast `(ULONG_PTR)x`: reduction to the pointer width, 64 bits on the x64 target
modelled here (on the 32-bit target the keys come from a 32-bit counter). -/
def ULONG_PTR (x : Nat) : Nat := x % 2 ^ 64

/-- Modelled from the spec: `uintptrcmp` of phlib ("pointer/address compare"), a three-way
comparison of two pointer-sized unsigned integers. -/
def uintptrcmp (value1 value2 : Nat) : Int :=
  if value1 > value2 then 1 else if value1 < value2 then -1 else 0

/-- Modelled from the spec: `uintcmp` of phlib ("numeric compare for counters"), a three-way
comparison of two unsigned integers. -/
def uintcmp (value1 value2 : Nat) : Int :=
  if value1 > value2 then 1 else if value1 < value2 then -1 else 0

/-- The sort order of a tree-new control (PH_SORT_ORDER). -/
inductive PH_SORT_ORDER where
  | NoSortOrder
  | AscendingSortOrder
  | DescendingSortOrder
  deriving DecidableEq, Repr

/-- Modelled from the spec: `PhModifySort` of phlib ("applying the overall direction"): the
result itself when ascending, its negation when descending, the result itself otherwise. -/
def PhModifySort (Result : Int) (Order : PH_SORT_ORDER) : Int :=
  if Order = PH_SORT_ORDER.AscendingSortOrder then Result
  else if Order = PH_SORT_ORDER.DescendingSortOrder then -Result
  else Result

/-! ## Nodes and the context -/

/-- The part of PH_TREENEW_NODE the import list reads or writes. -/
structure PH_TREENEW_NODE where
  Visible : Bool
  Selected : Bool
  Expanded : Bool
  deriving DecidableEq, Repr

/-- The columns of the import tree (PV_IMPORT_TREE_COLUMN_ITEM), by their numeric values. -/
def PV_IMPORT_TREE_COLUMN_ITEM_INDEX : Nat := 0
def PV_EXPORT_TREE_COLUMN_ITEM_RVA : Nat := 1
def PV_IMPORT_TREE_COLUMN_ITEM_DLL : Nat := 2
def PV_IMPORT_TREE_COLUMN_ITEM_NAME : Nat := 3
def PV_IMPORT_TREE_COLUMN_ITEM_HINT : Nat := 4
def PV_IMPORT_TREE_COLUMN_ITEM_MAXIMUM : Nat := 5

/-- One import entry (PV_IMPORT_NODE). -/
structure PV_IMPORT_NODE where
  Node : PH_TREENEW_NODE
  UniqueId : Nat
  Address : Nat
  Hint : Nat
  UniqueIdString : PPH_STRING
  AddressString : PPH_STRING
  DllString : PPH_STRING
  NameString : PPH_STRING
  HintString : PPH_STRING
  TextCache : List PH_STRINGREF
  deriving DecidableEq, Repr

/-- The fields of a node fit their C types: ULONG64 UniqueId, ULONG_PTR Address, ULONG Hint. -/
def PV_IMPORT_NODE.WellTyped (n : PV_IMPORT_NODE) : Prop :=
  n.UniqueId < 2 ^ 64 ∧ n.Address < 2 ^ 64 ∧ n.Hint < 2 ^ 32

instance (n : PV_IMPORT_NODE) : Decidable n.WellTyped := by
  unfold PV_IMPORT_NODE.WellTyped; infer_instance

/-- The address of a node (PPV_IMPORT_NODE). -/
abbrev PPV_IMPORT_NODE := Nat

/-- The filters registered with a filter support; the import page registers exactly one
callback, `PvImportTreeFilterCallback`. -/
inductive PH_TN_FILTER_ENTRY where
  | PvImportTreeFilterCallback
  deriving DecidableEq, Repr

/-- The filter support of the tree (PH_TN_FILTER_SUPPORT): the filter list (NULL until the
first filter is added) and whether the node list pointer has been set. -/
structure PH_TN_FILTER_SUPPORT where
  FilterList : Option (List PH_TN_FILTER_ENTRY)
  NodeList : Bool
  deriving DecidableEq, Repr

/-- The state of one import page (PV_IMPORT_CONTEXT); the window handles, the layout manager,
the column manager and the lock itself carry no data of the model and are left out. -/
structure PV_IMPORT_CONTEXT where
  UpdateTimerHandle : Option Nat
  SearchboxText : PPH_STRING
  SearchResultsAddIndex : Nat
  SearchResults : List PPV_IMPORT_NODE
  TreeNewSortColumn : Nat
  TreeNewSortOrder : PH_SORT_ORDER
  FilterSupport : PH_TN_FILTER_SUPPORT
  NodeHashtable : List PPV_IMPORT_NODE
  NodeList : List PPV_IMPORT_NODE
  deriving DecidableEq, Repr

/-- Calls that leave the import page: messages to the tree-new control and timer requests. -/
inductive EVENT where
  | TreeNew_SetRedraw (Redraw : Bool)
  | TreeNew_NodesStructured
  | TreeNew_SetEmptyText (Text : PH_STRINGREF)
  | RtlUpdateTimer (Timer : Nat) (DueTime : Nat)
  | RtlDeleteTimer (Timer : Nat)
  | PostMessage_WM_PV_SEARCH_FINISHED
  deriving DecidableEq, Repr

/-- The whole state: the heap of nodes, the context, the log of outgoing calls (oldest first)
and the addresses released with `PhFree`. -/
structure State where
  Memory : PPV_IMPORT_NODE → PV_IMPORT_NODE
  Context : PV_IMPORT_CONTEXT
  Log : List EVENT
  Freed : List PPV_IMPORT_NODE

/-- Store `n` at address `p`. -/
def State.write (s : State) (p : PPV_IMPORT_NODE) (n : PV_IMPORT_NODE) : State :=
  { s with Memory := fun q => if q = p then n else s.Memory q }

/-- Append an outgoing call to the log. -/
def State.emit (s : State) (e : EVENT) : State :=
  { s with Log := s.Log ++ [e] }

/-! ## Containers (phlib) -/

/-- Modelled from the spec: `PhAddItemList` of phlib: append at the end of the list. -/
def PhAddItemList (List1 : List PPV_IMPORT_NODE) (Item : PPV_IMPORT_NODE) : List PPV_IMPORT_NODE :=
  List1 ++ [Item]

/-- Modelled from the spec: `PhFindItemList` of phlib: the index of the first item that is the
same pointer as `Item`; `none` stands for the "not found" value `ULONG_MAX`. -/
def PhFindItemList (List1 : List PPV_IMPORT_NODE) (Item : PPV_IMPORT_NODE) : Option Nat :=
  if Item ∈ List1 then some (List1.indexOf Item) else none

/-- Modelled from the spec: `PhRemoveItemList` of phlib: remove the item at `Index`, moving the
items after it one place down. -/
def PhRemoveItemList (List1 : List PPV_IMPORT_NODE) (Index : Nat) : List PPV_IMPORT_NODE :=
  List1.eraseIdx Index

/-- Modelled from the spec: `PhClearList` of phlib: remove every item. -/
def PhClearList (_List1 : List PPV_IMPORT_NODE) : List PPV_IMPORT_NODE := []

/-- Modelled from the spec: `PhAddEntryHashtable` of phlib ("fails if key already present"):
when an entry equal to `Entry` under the table's equality function is stored, the table is left
alone and NULL (`false`) is returned; otherwise the entry is stored. The table is kept as the
list of its entries; the bucket layout is not observable through the calls modelled here. -/
def PhAddEntryHashtable (EqualFunction : PPV_IMPORT_NODE → PPV_IMPORT_NODE → Bool)
    (Hashtable : List PPV_IMPORT_NODE) (Entry : PPV_IMPORT_NODE) : List PPV_IMPORT_NODE × Bool :=
  if Hashtable.any (fun e => EqualFunction e Entry) then (Hashtable, false)
  else (Hashtable ++ [Entry], true)

/-- Modelled from the spec: `PhFindEntryHashtable` of phlib: the stored entry equal to `Entry`
under the table's equality function, if there is one. -/
def PhFindEntryHashtable (EqualFunction : PPV_IMPORT_NODE → PPV_IMPORT_NODE → Bool)
    (Hashtable : List PPV_IMPORT_NODE) (Entry : PPV_IMPORT_NODE) : Option PPV_IMPORT_NODE :=
  Hashtable.find? (fun e => EqualFunction e Entry)

/-- Modelled from the spec: `PhRemoveEntryHashtable` of phlib: remove the stored entry equal to
`Entry` under the table's equality function; returns whether one was removed. -/
def PhRemoveEntryHashtable (EqualFunction : PPV_IMPORT_NODE → PPV_IMPORT_NODE → Bool)
    (Hashtable : List PPV_IMPORT_NODE) (Entry : PPV_IMPORT_NODE) : List PPV_IMPORT_NODE × Bool :=
  (Hashtable.eraseP (fun e => EqualFunction e Entry), Hashtable.any (fun e => EqualFunction e Entry))

/-- Modelled from the spec: `PhClearHashtable` of phlib: remove every entry. -/
def PhClearHashtable (_Hashtable : List PPV_IMPORT_NODE) : List PPV_IMPORT_NODE := []

/-- Modelled from the spec: `PhInitializeTreeNewNode` of phlib: zero the node header, then mark
it visible and expanded. -/
def PhInitializeTreeNewNode : PH_TREENEW_NODE :=
  { Visible := true, Selected := false, Expanded := true }

/-- Modelled from the spec: the CRT's `qsort_s`: sort the items in place into an order in
which `compare a b ≤ 0` for every item `a` placed before an item `b`. The algorithm of the
model is insertion sort. -/
def qsort_s (Items : List PPV_IMPORT_NODE) (compare : PPV_IMPORT_NODE → PPV_IMPORT_NODE → Int) :
    List PPV_IMPORT_NODE :=
  Items.insertionSort (fun a b => compare a b ≤ 0)

/-! ## The filter (impprp.c, PvImportWordMatchStringRef and PvImportTreeFilterCallback) -/

/-- The loop `while (remainingPart.Length)` of `PvImportWordMatchStringRef`; every test of the
loop condition uses one unit of fuel, and `none` means the fuel ran out. -/
def PvImportWordMatchStringRef.loop (Text : PH_STRINGREF) : Nat → PH_STRINGREF → Option Bool
  | 0, _ => none
  | fuel + 1, remainingPart =>
    if remainingPart.length ≠ 0 then
      let split := PhSplitStringRefAtChar remainingPart '|'
      let part := split.2.1
      let remainingPart := split.2.2
      if part.length ≠ 0 ∧ PhFindStringInStringRef Text part true ≠ none then some true
      else PvImportWordMatchStringRef.loop Text fuel remainingPart
    else some false

/-- Function `PvImportWordMatchStringRef`: does some term of the search box text occur in
`Text`. The loop is run with one unit of fuel more than the length of the search text, which
is always enough (every iteration shortens the remaining part). -/
def PvImportWordMatchStringRef (Context : PV_IMPORT_CONTEXT) (Text : PH_STRINGREF) : Bool :=
  let remainingPart := PhGetStringRef Context.SearchboxText
  match PvImportWordMatchStringRef.loop Text (remainingPart.length + 1) remainingPart with
  | some result => result
  | none => false

/-- The literal the filter uses for a node without a name. -/
def ImportNameSr : PH_STRINGREF := "(unnamed)".toList

/-- Function `PvImportTreeFilterCallback`: is the node shown under the current search text. -/
def PvImportTreeFilterCallback (node : PV_IMPORT_NODE) (context : PV_IMPORT_CONTEXT) : Bool :=
  if PhIsNullOrEmptyString context.SearchboxText then true
  else if !PhIsNullOrEmptyString node.AddressString
      && PvImportWordMatchStringRef context (PhGetStringRef node.AddressString) then true
  else if !PhIsNullOrEmptyString node.DllString
      && PvImportWordMatchStringRef context (PhGetStringRef node.DllString) then true
  else if (if !PhIsNullOrEmptyString node.NameString
      then PvImportWordMatchStringRef context (PhGetStringRef node.NameString)
      else PvImportWordMatchStringRef context ImportNameSr) then true
  else if !PhIsNullOrEmptyString node.HintString
      && PvImportWordMatchStringRef context (PhGetStringRef node.HintString) then true
  else if !PhIsNullOrEmptyString node.UniqueIdString
      && PvImportWordMatchStringRef context (PhGetStringRef node.UniqueIdString) then true
  else false

/-- Modelled from the spec: `PhApplyTreeNewFiltersToNode` of phlib: a node is shown when every
registered filter accepts it (and when no filter list exists). Each filter is called with the
context it was registered with, here the import context. -/
def PhApplyTreeNewFiltersToNode (Support : PH_TN_FILTER_SUPPORT) (Node : PV_IMPORT_NODE)
    (Context : PV_IMPORT_CONTEXT) : Bool :=
  match Support.FilterList with
  | none => true
  | some filters =>
    filters.all (fun entry =>
      match entry with
      | PH_TN_FILTER_ENTRY.PvImportTreeFilterCallback => PvImportTreeFilterCallback Node Context)

/-- The text of a cell (message TreeNewGetCellText of `PvImportTreeNewCallback`); `none` when
the column id is unknown and the callback returns FALSE. -/
def PvImportTreeNewCallback.TreeNewGetCellText (node : PV_IMPORT_NODE) (Id : Nat) :
    Option PH_STRINGREF :=
  if Id = PV_IMPORT_TREE_COLUMN_ITEM_INDEX then some (PhGetStringRef node.UniqueIdString)
  else if Id = PV_EXPORT_TREE_COLUMN_ITEM_RVA then some (PhGetStringRef node.AddressString)
  else if Id = PV_IMPORT_TREE_COLUMN_ITEM_DLL then some (PhGetStringRef node.DllString)
  else if Id = PV_IMPORT_TREE_COLUMN_ITEM_NAME then
    (match node.NameString with
     | some sr => some sr
     | none => some "(unnamed)".toList)
  else if Id = PV_IMPORT_TREE_COLUMN_ITEM_HINT then some (PhGetStringRef node.HintString)
  else none

/-! ## The node store (impprp.c) -/

/-- Function `PvImportNodeHashtableCompareFunction`: two entries are equal when the nodes they
point to carry the same UniqueId. -/
def PvImportNodeHashtableCompareFunction (Memory : PPV_IMPORT_NODE → PV_IMPORT_NODE)
    (Entry1 Entry2 : PPV_IMPORT_NODE) : Bool :=
  let windowNode1 := Memory Entry1
  let windowNode2 := Memory Entry2
  windowNode1.UniqueId == windowNode2.UniqueId

/-- Function `PvImportNodeHashtableHashFunction`; the mixing function `PhHashInt64` of phlib is
a parameter. -/
def PvImportNodeHashtableHashFunction (PhHashInt64 : Nat → Nat)
    (Memory : PPV_IMPORT_NODE → PV_IMPORT_NODE) (Entry : PPV_IMPORT_NODE) : Nat :=
  PhHashInt64 (ULONG_PTR (Memory Entry).UniqueId)

/-- Function `PvDestroyImportNode`: the node is released with `PhFree`. -/
def PvDestroyImportNode (s : State) (Node : PPV_IMPORT_NODE) : State :=
  { s with Freed := Node :: s.Freed }

/-- Function `PvImportAddTreeNode`. -/
def PvImportAddTreeNode (s : State) (Entry : PPV_IMPORT_NODE) : State :=
  -- PhInitializeTreeNewNode(&Entry->Node); memset(Entry->TextCache, 0, ...)
  let s1 := s.write Entry
    { s.Memory Entry with
      Node := PhInitializeTreeNewNode
      TextCache := List.replicate PV_IMPORT_TREE_COLUMN_ITEM_MAXIMUM [] }
  let added := PhAddEntryHashtable (PvImportNodeHashtableCompareFunction s1.Memory)
    s1.Context.NodeHashtable Entry
  let s2 := { s1 with Context := { s1.Context with NodeHashtable := added.1 } }
  if added.2 then
    let s3 := { s2 with
      Context := { s2.Context with NodeList := PhAddItemList s2.Context.NodeList Entry } }
    if s3.Context.FilterSupport.NodeList then
      s3.write Entry
        { s3.Memory Entry with
          Node := { (s3.Memory Entry).Node with
            Visible := PhApplyTreeNewFiltersToNode s3.Context.FilterSupport
              (s3.Memory Entry) s3.Context } }
    else s3
  else s2

/-- Function `PvRemoveImportNode`. -/
def PvRemoveImportNode (s : State) (Node : PPV_IMPORT_NODE) : State :=
  let removed := PhRemoveEntryHashtable (PvImportNodeHashtableCompareFunction s.Memory)
    s.Context.NodeHashtable Node
  let s1 := { s with Context := { s.Context with NodeHashtable := removed.1 } }
  let s2 :=
    match PhFindItemList s1.Context.NodeList Node with
    | some index =>
      { s1 with
        Context := { s1.Context with NodeList := PhRemoveItemList s1.Context.NodeList index } }
    | none => s1
  PvDestroyImportNode s2 Node

/-- Function `PvImportClearTree`: release every node of the list, then empty both indices. -/
def PvImportClearTree (s : State) : State :=
  let s1 := s.Context.NodeList.foldl PvDestroyImportNode s
  { s1 with
    Context := { s1.Context with
      NodeHashtable := PhClearHashtable s1.Context.NodeHashtable
      NodeList := PhClearList s1.Context.NodeList } }

/-- The store part of `PvInitializeImportTree`: a fresh hashtable and a fresh list, the filter
support bound to the list (no filter registered yet). -/
def PvInitializeImportTree (s : State) : State :=
  { s with
    Context := { s.Context with
      NodeHashtable := []
      NodeList := []
      FilterSupport := { FilterList := none, NodeList := true } } }

/-! ## The column comparators and the get-children sort (impprp.c) -/

/-- The tail shared by the five comparators (macro END_SORT_FUNCTION): break a tie of the
column comparison by UniqueId, then apply the sort order of the context. -/
def END_SORT_FUNCTION (sortResult : Int) (node1 node2 : PV_IMPORT_NODE)
    (_context : PV_IMPORT_CONTEXT) : Int :=
  let sortResult :=
    if sortResult = 0 then uintptrcmp (ULONG_PTR node1.UniqueId) (ULONG_PTR node2.UniqueId)
    else sortResult
  PhModifySort sortResult _context.TreeNewSortOrder

/-- Comparator of column Index: BEGIN_SORT_FUNCTION(Index) ... END_SORT_FUNCTION. -/
def PvImportTreeNewCompareIndex (Memory : PPV_IMPORT_NODE → PV_IMPORT_NODE)
    (_context : PV_IMPORT_CONTEXT) (_elem1 _elem2 : PPV_IMPORT_NODE) : Int :=
  let node1 := Memory _elem1
  let node2 := Memory _elem2
  let sortResult := uintptrcmp (ULONG_PTR node1.UniqueId) (ULONG_PTR node2.UniqueId)
  END_SORT_FUNCTION sortResult node1 node2 _context

/-- Comparator of column Rva. -/
def PvImportTreeNewCompareRva (Memory : PPV_IMPORT_NODE → PV_IMPORT_NODE)
    (_context : PV_IMPORT_CONTEXT) (_elem1 _elem2 : PPV_IMPORT_NODE) : Int :=
  let node1 := Memory _elem1
  let node2 := Memory _elem2
  let sortResult := uintptrcmp (ULONG_PTR node1.Address) (ULONG_PTR node2.Address)
  END_SORT_FUNCTION sortResult node1 node2 _context

/-- Comparator of column Dll. -/
def PvImportTreeNewCompareDll (Memory : PPV_IMPORT_NODE → PV_IMPORT_NODE)
    (_context : PV_IMPORT_CONTEXT) (_elem1 _elem2 : PPV_IMPORT_NODE) : Int :=
  let node1 := Memory _elem1
  let node2 := Memory _elem2
  let sortResult := PhCompareStringWithNull node1.DllString node2.DllString false
  END_SORT_FUNCTION sortResult node1 node2 _context

/-- Comparator of column Name. -/
def PvImportTreeNewCompareName (Memory : PPV_IMPORT_NODE → PV_IMPORT_NODE)
    (_context : PV_IMPORT_CONTEXT) (_elem1 _elem2 : PPV_IMPORT_NODE) : Int :=
  let node1 := Memory _elem1
  let node2 := Memory _elem2
  let sortResult := PhCompareStringWithNull node1.NameString node2.NameString false
  END_SORT_FUNCTION sortResult node1 node2 _context

/-- Comparator of column Hint. -/
def PvImportTreeNewCompareHint (Memory : PPV_IMPORT_NODE → PV_IMPORT_NODE)
    (_context : PV_IMPORT_CONTEXT) (_elem1 _elem2 : PPV_IMPORT_NODE) : Int :=
  let node1 := Memory _elem1
  let node2 := Memory _elem2
  let sortResult := uintcmp node1.Hint node2.Hint
  END_SORT_FUNCTION sortResult node1 node2 _context

/-- Function `PvImportTreeNewPostSortFunction`, the post-sort hook given to the column
manager. -/
def PvImportTreeNewPostSortFunction (Result : Int) (Node1 Node2 : PV_IMPORT_NODE)
    (SortOrder : PH_SORT_ORDER) : Int :=
  let Result :=
    if Result = 0 then uintptrcmp (ULONG_PTR Node1.UniqueId) (ULONG_PTR Node2.UniqueId)
    else Result
  PhModifySort Result SortOrder

/-- The table `sortFunctions` of the get-children handler, indexed by column. -/
def sortFunctions : List ((PPV_IMPORT_NODE → PV_IMPORT_NODE) → PV_IMPORT_CONTEXT →
    PPV_IMPORT_NODE → PPV_IMPORT_NODE → Int) :=
  [PvImportTreeNewCompareIndex, PvImportTreeNewCompareRva, PvImportTreeNewCompareDll,
   PvImportTreeNewCompareName, PvImportTreeNewCompareHint]

/-- Message TreeNewGetChildren of `PvImportTreeNewCallback`. `getChildrenNode` is the node
whose children are asked for (`none` for the root). For the root the node list is sorted in
place with the comparator of the current sort column and then handed out as the children;
for any other node nothing is written. Returns the new state and the children handed out. -/
def PvImportTreeNewCallback.TreeNewGetChildren (s : State)
    (getChildrenNode : Option PPV_IMPORT_NODE) : State × Option (List PPV_IMPORT_NODE) :=
  match getChildrenNode with
  | some _ => (s, none)
  | none =>
    let sortFunction :=
      if s.Context.TreeNewSortColumn < PV_IMPORT_TREE_COLUMN_ITEM_MAXIMUM
      then sortFunctions[s.Context.TreeNewSortColumn]?
      else none
    let s1 :=
      match sortFunction with
      | some f =>
        { s with
          Context := { s.Context with
            NodeList := qsort_s s.Context.NodeList (f s.Memory s.Context) } }
      | none => s
    (s1, some s1.Context.NodeList)

/-! ## The pending-node drain and the timer (impprp.c) -/

/-- The loop of `PvAddPendingImportNodes`,
`for (i = SearchResultsAddIndex; i < SearchResults->Count; i++)`, carrying the state, `i` and
`needsFullUpdate`. Every test of the loop condition uses one unit of fuel; `none` means the
fuel ran out (or an index outside the buffer was read). -/
def PvAddPendingImportNodes.loop : Nat → State → Nat → Bool → Option (State × Nat × Bool)
  | 0, _, _, _ => none
  | fuel + 1, s, i, needsFullUpdate =>
    if i < s.Context.SearchResults.length then
      match s.Context.SearchResults[i]? with
      | some item => PvAddPendingImportNodes.loop fuel (PvImportAddTreeNode s item) (i + 1) true
      | none => none
    else some (s, i, needsFullUpdate)

/-- Function `PvAddPendingImportNodes`: one drain of the buffer `SearchResults` into the store.
The loop gets one unit of fuel per buffered item past the watermark, plus one for the test that
ends it. (`i` stays below the ULONG count of the list, so `i++` does not wrap.) -/
def PvAddPendingImportNodes (s : State) : Option State :=
  let s1 := s.emit (EVENT.TreeNew_SetRedraw false)
  -- PhAcquireQueuedLockExclusive(&Context->SearchResultsLock)
  match PvAddPendingImportNodes.loop
      (s1.Context.SearchResults.length - s1.Context.SearchResultsAddIndex + 1)
      s1 s1.Context.SearchResultsAddIndex false with
  | none => none
  | some (s2, i, needsFullUpdate) =>
    let s3 := { s2 with Context := { s2.Context with SearchResultsAddIndex := i } }
    -- PhReleaseQueuedLockExclusive(&Context->SearchResultsLock)
    let s4 := if needsFullUpdate then s3.emit EVENT.TreeNew_NodesStructured else s3
    some (s4.emit (EVENT.TreeNew_SetRedraw true))

/-- Function `PvImportTreeUpdateCallback`, the timer callback. -/
def PvImportTreeUpdateCallback (s : State) : Option State :=
  match s.Context.UpdateTimerHandle with
  | none => some s
  | some timer =>
    match PvAddPendingImportNodes s with
    | none => none
    | some s1 => some (s1.emit (EVENT.RtlUpdateTimer timer 1000))

/-! ## Notions used in the statements -/

/-- The key of the node at address `p`: its UniqueId. -/
def State.key (s : State) (p : PPV_IMPORT_NODE) : Nat := (s.Memory p).UniqueId

/-- The store is consistent: the hash index and the node list hold the same nodes, each of them
once, and no two nodes of the store share a UniqueId. -/
def StoreConsistent (s : State) : Prop :=
  s.Context.NodeHashtable.Perm s.Context.NodeList ∧ (s.Context.NodeList.map s.key).Nodup

/-- The stores that arise from an empty store by adding any node, removing a node of the
store, clearing, sorting for a get-children query, and by the creation of a node at an
address that is not in the store. -/
inductive Reachable : State → Prop where
  | empty (s : State) (hTable : s.Context.NodeHashtable = []) (hList : s.Context.NodeList = []) :
      Reachable s
  | add (s : State) (Entry : PPV_IMPORT_NODE) (h : Reachable s) :
      Reachable (PvImportAddTreeNode s Entry)
  | remove (s : State) (Node : PPV_IMPORT_NODE) (h : Reachable s)
      (hNode : Node ∈ s.Context.NodeList) : Reachable (PvRemoveImportNode s Node)
  | clear (s : State) (h : Reachable s) : Reachable (PvImportClearTree s)
  | getChildren (s : State) (getChildrenNode : Option PPV_IMPORT_NODE) (h : Reachable s) :
      Reachable (PvImportTreeNewCallback.TreeNewGetChildren s getChildrenNode).1
  | create (s : State) (p : PPV_IMPORT_NODE) (n : PV_IMPORT_NODE) (h : Reachable s)
      (hTable : p ∉ s.Context.NodeHashtable) (hList : p ∉ s.Context.NodeList) :
      Reachable (s.write p n)

/-! ## Concrete nodes and states for the examples -/

/-- A node with the given key and name, every other text absent. -/
def exampleNode (UniqueId : Nat) (Name : PPH_STRING) : PV_IMPORT_NODE :=
  { Node := { Visible := false, Selected := false, Expanded := false }
    UniqueId := UniqueId
    Address := 0
    Hint := 0
    UniqueIdString := none
    AddressString := none
    DllString := none
    NameString := Name
    HintString := none
    TextCache := [] }

/-- A context with an empty store, an empty buffer, no search text, sorted by the first column
in ascending order, with the filter callback registered. -/
def exampleContext : PV_IMPORT_CONTEXT :=
  { UpdateTimerHandle := some 1
    SearchboxText := some []
    SearchResultsAddIndex := 0
    SearchResults := []
    TreeNewSortColumn := PV_IMPORT_TREE_COLUMN_ITEM_INDEX
    TreeNewSortOrder := PH_SORT_ORDER.AscendingSortOrder
    FilterSupport :=
      { FilterList := some [PH_TN_FILTER_ENTRY.PvImportTreeFilterCallback], NodeList := true }
    NodeHashtable := []
    NodeList := [] }

/-- A state over the given heap and context, with nothing logged and nothing released. -/
def exampleState (Memory : PPV_IMPORT_NODE → PV_IMPORT_NODE) (Context : PV_IMPORT_CONTEXT) :
    State :=
  { Memory := Memory, Context := Context, Log := [], Freed := [] }

/-- A heap in which the addresses 100 and 101 both hold a node with key 7, and every other
address `p` holds a node with key `p`. -/
def aliasMemory : PPV_IMPORT_NODE → PV_IMPORT_NODE :=
  fun p => if p = 100 ∨ p = 101 then exampleNode 7 none else exampleNode p none

/-- The store holds the node at address 100 (key 7); the node at address 101 carries the same
key. -/
def duplicateKeyState : State :=
  exampleState aliasMemory { exampleContext with NodeHashtable := [100], NodeList := [100] }

/-- A store built by adding the addresses 100, 101 (same key as 100) and 5, sorting, then
removing 100. -/
def reachableExample : State :=
  PvRemoveImportNode
    (PvImportTreeNewCallback.TreeNewGetChildren
      (PvImportAddTreeNode
        (PvImportAddTreeNode
          (PvImportAddTreeNode (exampleState aliasMemory exampleContext) 100) 101) 5) none).1
    100

/-- A consistent store with the nodes 1, 2, 3 (keys 1, 2, 3) in this order. -/
def threeNodeState : State :=
  exampleState aliasMemory { exampleContext with NodeHashtable := [3, 1, 2], NodeList := [1, 2, 3] }

/-- The ascending three-way comparison of two numbers: -1, 0 or 1. -/
def threeWay (x y : Nat) : Int :=
  if x < y then -1 else if x = y then 0 else 1

/-- The primary three-way comparison of a column, in the words of the spec: numeric on the
UniqueId for Index, on the address for Rva, on the hint for Hint, lexicographic (NULL first) on
the DLL text for Dll and on the name text for Name. -/
def primaryComparison (Column : Nat) (a b : PV_IMPORT_NODE) : Int :=
  if Column = PV_IMPORT_TREE_COLUMN_ITEM_INDEX then threeWay a.UniqueId b.UniqueId
  else if Column = PV_EXPORT_TREE_COLUMN_ITEM_RVA then threeWay a.Address b.Address
  else if Column = PV_IMPORT_TREE_COLUMN_ITEM_DLL then
    PhCompareStringWithNull a.DllString b.DllString false
  else if Column = PV_IMPORT_TREE_COLUMN_ITEM_NAME then
    PhCompareStringWithNull a.NameString b.NameString false
  else threeWay a.Hint b.Hint

/-- The tie-break of the spec: a non-zero primary result stands, a zero one is replaced by the
ascending comparison of the UniqueIds. -/
def withTieBreak (c : Int) (a b : PV_IMPORT_NODE) : Int :=
  if c ≠ 0 then c else threeWay a.UniqueId b.UniqueId

/-- The direction of the spec applied to a combined result: negated when descending, kept
otherwise. -/
def applyDirection (Order : PH_SORT_ORDER) (c : Int) : Int :=
  match Order with
  | PH_SORT_ORDER.DescendingSortOrder => -c
  | _ => c

/-- The comparison the spec prescribes for a column and a direction: the primary comparison of
the column, the tie-break by UniqueId, then the direction. -/
def columnComparison (Column : Nat) (Order : PH_SORT_ORDER) (a b : PV_IMPORT_NODE) : Int :=
  applyDirection Order (withTieBreak (primaryComparison Column a b) a b)

/-- A node as the comparators read it: UniqueId and Address after the cast to ULONG_PTR. -/
def castToPointerWidth (n : PV_IMPORT_NODE) : PV_IMPORT_NODE :=
  { n with UniqueId := ULONG_PTR n.UniqueId, Address := ULONG_PTR n.Address }

/-- A three-way comparison that orders its arguments: swapping the arguments negates the
result, and "not greater" is transitive. -/
structure IsThreeWayOrder {α : Type} (c : α → α → Int) : Prop where
  swap : ∀ a b, c b a = - c a b
  trans : ∀ a b d, c a b ≤ 0 → c b d ≤ 0 → c a d ≤ 0

/-- A store over `aliasMemory` holding the given nodes in the given order, to be sorted by the
given column in the given direction. None of the nodes of `aliasMemory` has a name, a DLL, an
address or a hint, so every column but Index ties on all of them. -/
def sortExampleState (Column : Nat) (Order : PH_SORT_ORDER) (Nodes : List PPV_IMPORT_NODE) :
    State :=
  exampleState aliasMemory
    { exampleContext with
      TreeNewSortColumn := Column
      TreeNewSortOrder := Order
      NodeHashtable := Nodes
      NodeList := Nodes }

/-- Two nodes carry the same value in a column: the same UniqueId for Index, the same address
for Rva, the same DLL text for Dll, the same name text for Name, the same hint for Hint. -/
def sameColumnValue (Column : Nat) (a b : PV_IMPORT_NODE) : Prop :=
  if Column = PV_IMPORT_TREE_COLUMN_ITEM_INDEX then a.UniqueId = b.UniqueId
  else if Column = PV_EXPORT_TREE_COLUMN_ITEM_RVA then a.Address = b.Address
  else if Column = PV_IMPORT_TREE_COLUMN_ITEM_DLL then a.DllString = b.DllString
  else if Column = PV_IMPORT_TREE_COLUMN_ITEM_NAME then a.NameString = b.NameString
  else a.Hint = b.Hint

instance (Column : Nat) (a b : PV_IMPORT_NODE) : Decidable (sameColumnValue Column a b) := by
  unfold sameColumnValue; infer_instance

/-- A heap with the nodes of the end-to-end scenario of the spec: the addresses 10, 11, 12 hold
the keys 10, 11, 12 named "alpha", "beta", "gamma"; every other address holds a nameless
node. -/
def scenarioMemory : PPV_IMPORT_NODE → PV_IMPORT_NODE :=
  fun p =>
    if p = 10 then exampleNode 10 (some "alpha".toList)
    else if p = 11 then exampleNode 11 (some "beta".toList)
    else if p = 12 then exampleNode 12 (some "gamma".toList)
    else exampleNode p none

/-- The store of the scenario, holding the three nodes in the order 12, 10, 11, to be sorted
by Name in ascending order. -/
def scenarioState : State :=
  exampleState scenarioMemory
    { exampleContext with
      TreeNewSortColumn := PV_IMPORT_TREE_COLUMN_ITEM_NAME
      TreeNewSortOrder := PH_SORT_ORDER.AscendingSortOrder
      NodeHashtable := [12, 10, 11]
      NodeList := [12, 10, 11] }

/-- The terms of a filter text in the words of the spec: the pieces between the delimiters
'|', in order. -/
def filterTerms (filterText : PH_STRINGREF) : List PH_STRINGREF :=
  filterText.splitOn '|'

/-- A term occurs in a text as a case-insensitive substring. -/
def occursIgnoringCase (term text : PH_STRINGREF) : Prop :=
  (term.map PhUpcaseUnicodeChar) <:+: (text.map PhUpcaseUnicodeChar)

instance (term text : PH_STRINGREF) : Decidable (occursIgnoringCase term text) := by
  unfold occursIgnoringCase; infer_instance

/-- The textual columns of a node: address, DLL, name, hint and unique-id text. -/
def textualColumns (n : PV_IMPORT_NODE) : List PH_STRINGREF :=
  [PhGetStringRef n.AddressString, PhGetStringRef n.DllString, PhGetStringRef n.NameString,
   PhGetStringRef n.HintString, PhGetStringRef n.UniqueIdString]

/-- The textual columns as the filter reads them: those of `textualColumns`, with the literal
"(unnamed)" in the place of a name that is NULL or of length zero. -/
def filterColumns (n : PV_IMPORT_NODE) : List PH_STRINGREF :=
  [PhGetStringRef n.AddressString, PhGetStringRef n.DllString,
   if PhIsNullOrEmptyString n.NameString then "(unnamed)".toList
   else PhGetStringRef n.NameString,
   PhGetStringRef n.HintString, PhGetStringRef n.UniqueIdString]

/-- A node whose name has length zero; every other text is absent. -/
def emptyNameNode : PV_IMPORT_NODE := exampleNode 1 (some [])

/-- A node without a name (NULL); every other text is absent. -/
def nullNameNode : PV_IMPORT_NODE := exampleNode 2 none

/-- The example context with the given text in the search box. -/
def searchContext (Text : String) : PV_IMPORT_CONTEXT :=
  { exampleContext with SearchboxText := some Text.toList }

/-- A pipeline state over `aliasMemory`: an empty store, the given buffer and watermark. -/
def pipelineState (SearchResults : List PPV_IMPORT_NODE) (SearchResultsAddIndex : Nat) : State :=
  exampleState aliasMemory
    { exampleContext with
      SearchResults := SearchResults
      SearchResultsAddIndex := SearchResultsAddIndex }

/-! ## The selection queries (impprp.c) -/

/-- The loop of `PvGetSelectedImportNode` over the items of NodeList still to visit: the first
node whose Selected flag is set is returned, NULL (`none`) when the items run out. -/
def PvGetSelectedImportNode.loop (Memory : PPV_IMPORT_NODE → PV_IMPORT_NODE) :
    List PPV_IMPORT_NODE → Option PPV_IMPORT_NODE
  | [] => none
  | windowNode :: rest =>
    if (Memory windowNode).Node.Selected then some windowNode
    else PvGetSelectedImportNode.loop Memory rest

/-- Function `PvGetSelectedImportNode`; returns the state it leaves and the node found. -/
def PvGetSelectedImportNode (s : State) : State × Option PPV_IMPORT_NODE :=
  (s, PvGetSelectedImportNode.loop s.Memory s.Context.NodeList)

/-- The loop of `PvGetSelectedImportNodes` over the items of NodeList still to visit; `list` is
the temporary list the selected nodes are added to. -/
def PvGetSelectedImportNodes.loop (Memory : PPV_IMPORT_NODE → PV_IMPORT_NODE) :
    List PPV_IMPORT_NODE → List PPV_IMPORT_NODE → List PPV_IMPORT_NODE
  | [], list => list
  | node :: rest, list =>
    PvGetSelectedImportNodes.loop Memory rest
      (if (Memory node).Node.Selected then PhAddItemList list node else list)

/-- Function `PvGetSelectedImportNodes`; returns the state it leaves, the copy of the items of
the temporary list (`*Windows`) and their number (`*NumberOfWindows`). -/
def PvGetSelectedImportNodes (s : State) : State × List PPV_IMPORT_NODE × Nat :=
  let list := PvGetSelectedImportNodes.loop s.Memory s.Context.NodeList []
  (s, list, list.length)

/-! ## The worker, completion and teardown (impprp.c) -/

/-- The text shown by an empty tree once the enumeration has finished. -/
def EmptyImportsText : PH_STRINGREF := "There are no imports to display.".toList

/-- The text shown by an empty tree while the enumeration runs. -/
def LoadingImportsText : PH_STRINGREF := "Loading imports from image...".toList

/-- The critical section at the end of the loop body of `PvpProcessImports`: under the lock,
the new node is appended to the buffer `SearchResults`. -/
def PvpProcessImports.append (s : State) (importNode : PPV_IMPORT_NODE) : State :=
  { s with
    Context := { s.Context with
      SearchResults := PhAddItemList s.Context.SearchResults importNode } }

/-- Function `PvDeleteImportTree`: every node of the list is released; the two container
objects are dereferenced, the fields of the context keep their last values. -/
def PvDeleteImportTree (s : State) : State :=
  s.Context.NodeList.foldl PvDestroyImportNode s

/-- The timer part shared by the handlers of WM_DESTROY and WM_PV_SEARCH_FINISHED: a timer that
is still set is deleted and its handle cleared. -/
def PvpPeImportsDlgProc.deleteTimer (s : State) : State :=
  match s.Context.UpdateTimerHandle with
  | some timer =>
    let s1 := s.emit (EVENT.RtlDeleteTimer timer)
    { s1 with Context := { s1.Context with UpdateTimerHandle := none } }
  | none => s

/-- The handler of WM_DESTROY in `PvpPeImportsDlgProc` (saving the settings left out). -/
def PvpPeImportsDlgProc.WM_DESTROY (s : State) : State :=
  PvDeleteImportTree (PvpPeImportsDlgProc.deleteTimer s)

/-- The handler of WM_PV_SEARCH_FINISHED in `PvpPeImportsDlgProc`: the timer is deleted, the
buffer is drained once more and the empty text is changed. -/
def PvpPeImportsDlgProc.WM_PV_SEARCH_FINISHED (s : State) : Option State :=
  match PvAddPendingImportNodes (PvpPeImportsDlgProc.deleteTimer s) with
  | none => none
  | some s1 => some (s1.emit (EVENT.TreeNew_SetEmptyText EmptyImportsText))

/-- One atomic step of the population pipeline: the worker creates a node at a new address and
appends it to the buffer, or the timer fires and runs `PvImportTreeUpdateCallback`. -/
inductive PIPELINE_STEP where
  | WorkerAppend (importNode : PPV_IMPORT_NODE) (node : PV_IMPORT_NODE)
  | TimerDrain

/-- The effect of one step of the pipeline. -/
def pipelineStep (s : State) : PIPELINE_STEP → Option State
  | PIPELINE_STEP.WorkerAppend importNode node =>
    some (PvpProcessImports.append (s.write importNode node) importNode)
  | PIPELINE_STEP.TimerDrain => PvImportTreeUpdateCallback s

/-- The effect of a sequence of steps, one after the other. -/
def pipelineRun : State → List PIPELINE_STEP → Option State
  | s, [] => some s
  | s, step :: rest =>
    match pipelineStep s step with
    | none => none
    | some s1 => pipelineRun s1 rest

/-- The nodes appended by a sequence of steps, in the order of their appending, each with its
address. -/
def appendedNodes : List PIPELINE_STEP → List (PPV_IMPORT_NODE × PV_IMPORT_NODE)
  | [] => []
  | PIPELINE_STEP.WorkerAppend importNode node :: rest => (importNode, node) :: appendedNodes rest
  | PIPELINE_STEP.TimerDrain :: rest => appendedNodes rest

/-- The pipeline and the store are empty: nothing buffered, watermark 0, both indices empty. -/
def PipelineEmpty (s : State) : Prop :=
  s.Context.SearchResults = [] ∧ s.Context.SearchResultsAddIndex = 0 ∧
    s.Context.NodeHashtable = [] ∧ s.Context.NodeList = []

instance (s : State) : Decidable (PipelineEmpty s) := by
  unfold PipelineEmpty; infer_instance

/-- The pipeline after the worker has appended the nodes at the addresses 1, 2, 3 (the records
A, B, C, with the keys 1, 2, 3) to an empty buffer, before any drain. -/
def threeAppendedState : State :=
  PvpProcessImports.append
    (PvpProcessImports.append
      (PvpProcessImports.append (exampleState aliasMemory exampleContext) 1) 2) 3

/-- Two nodes carry the same record: they agree on every field but the tree-new header and the
text cache, which belong to the view. -/
def samePayload (a b : PV_IMPORT_NODE) : Prop :=
  a.UniqueId = b.UniqueId ∧ a.Address = b.Address ∧ a.Hint = b.Hint ∧
    a.UniqueIdString = b.UniqueIdString ∧ a.AddressString = b.AddressString ∧
    a.DllString = b.DllString ∧ a.NameString = b.NameString ∧ a.HintString = b.HintString

instance (a b : PV_IMPORT_NODE) : Decidable (samePayload a b) := by
  unfold samePayload; infer_instance

/-- The state of the pipeline matches the nodes appended so far: the buffer holds their
addresses in the order of appending, the watermark does not pass the end of the buffer, both
indices hold the buffered nodes before the watermark, and the heap still holds the record of
every appended node. -/
def PipelineInvariant (s : State) (appended : List (PPV_IMPORT_NODE × PV_IMPORT_NODE)) : Prop :=
  s.Context.SearchResults = appended.map Prod.fst ∧
  s.Context.SearchResultsAddIndex ≤ s.Context.SearchResults.length ∧
  s.Context.NodeList = s.Context.SearchResults.take s.Context.SearchResultsAddIndex ∧
  s.Context.NodeHashtable = s.Context.SearchResults.take s.Context.SearchResultsAddIndex ∧
  ∀ a ∈ appended, samePayload (s.Memory a.1) a.2

/-- An interleaving: two appends, a timer drain, an append, a timer drain that finds nothing
new, and a last append that no timer drain sees. -/
def exampleInterleaving : List PIPELINE_STEP :=
  [PIPELINE_STEP.WorkerAppend 10 (exampleNode 1 (some "alpha".toList)),
   PIPELINE_STEP.WorkerAppend 20 (exampleNode 2 (some "beta".toList)),
   PIPELINE_STEP.TimerDrain,
   PIPELINE_STEP.WorkerAppend 30 (exampleNode 3 none),
   PIPELINE_STEP.TimerDrain,
   PIPELINE_STEP.TimerDrain,
   PIPELINE_STEP.WorkerAppend 40 (exampleNode 4 none)]


/-- A state in which the store holds the node at address 100 (key 7), the buffer holds the
addresses 100 and 101 (both with key 7) and the watermark is 1: the one buffered node past the
watermark carries a key that is in the store already. -/
def rejectedBufferState : State :=
  exampleState aliasMemory
    { exampleContext with
      SearchResults := [100, 101]
      SearchResultsAddIndex := 1
      NodeHashtable := [100]
      NodeList := [100] }

/-- A request to the store by the consumer: add a node, or ask for the children of the root
(which sorts). -/
inductive STORE_REQUEST where
  | Add (Entry : PPV_IMPORT_NODE)
  | GetChildren
  deriving DecidableEq, Repr

/-- The effect of one request on the state. -/
def storeRequest (s : State) : STORE_REQUEST → State
  | STORE_REQUEST.Add Entry => PvImportAddTreeNode s Entry
  | STORE_REQUEST.GetChildren => (PvImportTreeNewCallback.TreeNewGetChildren s none).1

/-- The effect of a sequence of requests, one after the other. -/
def storeRun (s : State) (requests : List STORE_REQUEST) : State :=
  requests.foldl storeRequest s

/-- The nodes a sequence of requests adds, in the order of the requests. -/
def addedNodes : List STORE_REQUEST → List PPV_IMPORT_NODE
  | [] => []
  | STORE_REQUEST.Add Entry :: rest => Entry :: addedNodes rest
  | STORE_REQUEST.GetChildren :: rest => addedNodes rest

/-- A heap for the selection and visibility examples: the node at address 1 is visible, the
nodes at the addresses 2 and 4 are selected, every other node is neither; the node at address
`p` has the key `p`. -/
def flagMemory : PPV_IMPORT_NODE → PV_IMPORT_NODE :=
  fun p =>
    { exampleNode p none with
      Node := { Visible := decide (p = 1), Selected := decide (p = 2 ∨ p = 4), Expanded := true } }

/-- A store over `flagMemory` holding the nodes 3, 4, 1, 2 in this order, sorted by the first
column in ascending order. -/
def flagState : State :=
  exampleState flagMemory { exampleContext with NodeHashtable := [3, 4, 1, 2], NodeList := [3, 4, 1, 2] }

/-- A running pipeline: the timer is set, the store holds the node 1, the buffer holds the
nodes 1, 2, 3 and the watermark is 1. -/
def runningState : State :=
  exampleState aliasMemory
    { exampleContext with
      UpdateTimerHandle := some 1
      SearchResults := [1, 2, 3]
      SearchResultsAddIndex := 1
      NodeHashtable := [1]
      NodeList := [1] }

/-- The loop of `PvImportWordMatchStringRef` once more, with a count of the executions of its
body: the result of the loop and the number of iterations made, `none` when the fuel ran out. -/
def PvImportWordMatchStringRef.loopCount (Text : PH_STRINGREF) :
    Nat → PH_STRINGREF → Option (Bool × Nat)
  | 0, _ => none
  | fuel + 1, remainingPart =>
    if remainingPart.length ≠ 0 then
      let split := PhSplitStringRefAtChar remainingPart '|'
      let part := split.2.1
      let remainingPart := split.2.2
      if part.length ≠ 0 ∧ PhFindStringInStringRef Text part true ≠ none then some (true, 1)
      else
        match PvImportWordMatchStringRef.loopCount Text fuel remainingPart with
        | some (result, iterations) => some (result, iterations + 1)
        | none => none
    else some (false, 0)

/-! ## The worker (impprp.c, PvpProcessImports and PvpPeImportsEnumerateThread) -/

/-- One import entry as `PhGetMappedImageImportEntry` reports it (PH_MAPPED_IMAGE_IMPORT_ENTRY):
the name (NULL for an import by ordinal), the name hint and the ordinal. -/
structure PH_MAPPED_IMAGE_IMPORT_ENTRY where
  Name : Option PH_STRINGREF
  NameHint : Nat
  Ordinal : Nat
  deriving DecidableEq, Repr

/-- One imported DLL as `PhGetMappedImageImportDll` reports it (PH_MAPPED_IMAGE_IMPORT_DLL): its
name, whether the image is a 32-bit one, the RVA of its thunk table in the import descriptor
and in the delay descriptor, and for every index below NumberOfEntries what
`PhGetMappedImageImportEntry` answers (`none` for a failure status). -/
structure PH_MAPPED_IMAGE_IMPORT_DLL where
  Name : PH_STRINGREF
  Magic32 : Bool
  FirstThunk : Nat
  ImportAddressTableRVA : Nat
  Entries : List (Option PH_MAPPED_IMAGE_IMPORT_ENTRY)
  deriving DecidableEq, Repr

/-- The imports of an image (PH_MAPPED_IMAGE_IMPORTS): for every index below NumberOfDlls what
`PhGetMappedImageImportDll` answers (`none` for a failure status). -/
structure PH_MAPPED_IMAGE_IMPORTS where
  Dlls : List (Option PH_MAPPED_IMAGE_IMPORT_DLL)
  deriving DecidableEq, Repr

/-- The outcome of the source enumeration, as the worker meets it: what
`PhGetMappedImageImports` and `PhGetMappedImageDelayImports` answer for the image (`none` for a
failure status), what the symbol provider answers when asked to undecorate a name, and the
export name found for a DLL name and an ordinal (the search for the DLL file followed by
`PvpQueryModuleOrdinalName`, both reading the file system). -/
structure SOURCE_ENUMERATION where
  Imports : Option PH_MAPPED_IMAGE_IMPORTS
  DelayImports : Option PH_MAPPED_IMAGE_IMPORTS
  PhUndecorateSymbolName : PH_STRINGREF → Option PH_STRINGREF
  ExportOrdinalName : PH_STRINGREF → Nat → Option PH_STRINGREF

/-- Modelled from the spec: `PhFormatUInt64` of phlib without digit grouping: the decimal
digits of the value. -/
def PhFormatUInt64 (Value : Nat) : PH_STRINGREF := Nat.toDigits 10 Value

/-- Modelled from the spec: `PhPrintPointer` of phlib: "0x" followed by the hexadecimal digits
of the value. -/
def PhPrintPointer (Pointer : Nat) : PH_STRINGREF := "0x".toList ++ Nat.toDigits 16 Pointer

/-- The value `++(*Count)` leaves in the ULONG counter. -/
def incrementCount (Count : Nat) : Nat := (Count + 1) % 2 ^ 32

/-- The node `PvpProcessImports` creates for the entry at index `j` of a DLL, with the UniqueId
taken from the counter: the body of its inner loop up to the appending. -/
def PvpProcessImports.importNode (source : SOURCE_ENUMERATION) (DelayImports : Bool)
    (importDll : PH_MAPPED_IMAGE_IMPORT_DLL) (j : Nat)
    (importEntry : PH_MAPPED_IMAGE_IMPORT_ENTRY) (UniqueId : Nat) : PV_IMPORT_NODE :=
  let thunkSize := if importDll.Magic32 then 4 else 8
  let rva :=
    if DelayImports then (importDll.ImportAddressTableRVA + j * thunkSize) % 2 ^ 32
    else (importDll.FirstThunk + j * thunkSize) % 2 ^ 32
  { Node := { Visible := false, Selected := false, Expanded := false }
    UniqueId := UniqueId
    UniqueIdString := some (PhFormatUInt64 UniqueId)
    Hint := if importEntry.Name.isSome then importEntry.NameHint else 0
    HintString :=
      if importEntry.Name.isSome then some (PhFormatUInt64 importEntry.NameHint) else none
    DllString :=
      if DelayImports then some (importDll.Name ++ " (Delay)".toList) else some importDll.Name
    NameString :=
      match importEntry.Name with
      | some importName =>
        if importName.head? = some '?' then
          match source.PhUndecorateSymbolName importName with
          | some undecoratedName => some undecoratedName
          | none => some importName
        else some importName
      | none =>
        match source.ExportOrdinalName importDll.Name importEntry.Ordinal with
        | some exportOrdinalName =>
          some (exportOrdinalName ++ " (Ordinal ".toList
            ++ Nat.toDigits 10 importEntry.Ordinal ++ ")".toList)
        | none =>
          some ("(Ordinal ".toList ++ Nat.toDigits 10 importEntry.Ordinal ++ ")".toList)
    Address := rva
    AddressString := some (PhPrintPointer rva)
    TextCache := List.replicate PV_IMPORT_TREE_COLUMN_ITEM_MAXIMUM [] }

/-- The inner loop of `PvpProcessImports` over the entries of one DLL from index `j` on:
the nodes it creates and appends to the buffer, in order, and the value it leaves in `*Count`.
An entry whose query fails is passed over without touching the counter. -/
def PvpProcessImports.entries (source : SOURCE_ENUMERATION) (DelayImports : Bool)
    (importDll : PH_MAPPED_IMAGE_IMPORT_DLL) :
    List (Option PH_MAPPED_IMAGE_IMPORT_ENTRY) → Nat → Nat → List PV_IMPORT_NODE × Nat
  | [], _, Count => ([], Count)
  | none :: rest, j, Count =>
    PvpProcessImports.entries source DelayImports importDll rest (j + 1) Count
  | some importEntry :: rest, j, Count =>
    let Count := incrementCount Count
    let importNode :=
      PvpProcessImports.importNode source DelayImports importDll j importEntry Count
    let later := PvpProcessImports.entries source DelayImports importDll rest (j + 1) Count
    (importNode :: later.1, later.2)

/-- The outer loop of `PvpProcessImports` over the DLLs still to visit. -/
def PvpProcessImports.dlls (source : SOURCE_ENUMERATION) (DelayImports : Bool) :
    List (Option PH_MAPPED_IMAGE_IMPORT_DLL) → Nat → List PV_IMPORT_NODE × Nat
  | [], Count => ([], Count)
  | none :: rest, Count => PvpProcessImports.dlls source DelayImports rest Count
  | some importDll :: rest, Count =>
    let first :=
      PvpProcessImports.entries source DelayImports importDll importDll.Entries 0 Count
    let later := PvpProcessImports.dlls source DelayImports rest first.2
    (first.1 ++ later.1, later.2)

/-- Function `PvpProcessImports`, as the sequence of the nodes it creates and appends to the
buffer, in the order of their appending, together with the value it leaves in `*Count`. Each
node is appended by `PvpProcessImports.append` at the address the allocator gave it. -/
def PvpProcessImports (source : SOURCE_ENUMERATION) (Imports : PH_MAPPED_IMAGE_IMPORTS)
    (DelayImports : Bool) (Count : Nat) : List PV_IMPORT_NODE × Nat :=
  PvpProcessImports.dlls source DelayImports Imports.Dlls Count

/-- Function `PvpPeImportsEnumerateThread`, as the sequence of the nodes the worker appends: the
pass over the imports, then the pass over the delay imports with the same counter (after them
the completion message is posted). -/
def PvpPeImportsEnumerateThread (source : SOURCE_ENUMERATION) : List PV_IMPORT_NODE :=
  let count := 0
  let normal :=
    match source.Imports with
    | some imports => PvpProcessImports source imports false count
    | none => ([], count)
  let count := normal.2
  let delay :=
    match source.DelayImports with
    | some imports => PvpProcessImports source imports true count
    | none => ([], count)
  normal.1 ++ delay.1

/-- The steps of the worker: the nodes of the enumeration appended one by one at the given
addresses. -/
def workerAppends (addresses : List PPV_IMPORT_NODE) (nodes : List PV_IMPORT_NODE) :
    List (PPV_IMPORT_NODE × PV_IMPORT_NODE) :=
  addresses.zip nodes

/-- A source for the examples: two imported DLLs (the first with a named entry, an entry whose
query fails and an entry by ordinal; the second with one named entry), a DLL whose query fails
between them, and one delay-imported DLL with one named entry. -/
def exampleSource : SOURCE_ENUMERATION :=
  { Imports := some
      { Dlls :=
          [some { Name := "kernel32.dll".toList, Magic32 := false, FirstThunk := 4096,
                  ImportAddressTableRVA := 0,
                  Entries :=
                    [some { Name := some "CreateFileW".toList, NameHint := 7, Ordinal := 0 },
                     none,
                     some { Name := none, NameHint := 0, Ordinal := 12 }] },
           none,
           some { Name := "user32.dll".toList, Magic32 := false, FirstThunk := 8192,
                  ImportAddressTableRVA := 0,
                  Entries :=
                    [some { Name := some "MessageBoxW".toList, NameHint := 3, Ordinal := 0 }] }] }
    DelayImports := some
      { Dlls :=
          [some { Name := "shell32.dll".toList, Magic32 := false, FirstThunk := 0,
                  ImportAddressTableRVA := 12288,
                  Entries :=
                    [some { Name := some "ShellExecuteW".toList, NameHint := 1,
                            Ordinal := 0 }] }] }
    PhUndecorateSymbolName := fun _ => none
    ExportOrdinalName := fun _ _ => none }

/-- The worker's appends of the example source at the addresses 10, 20, 30, 40, with a timer
drain after the second and after the third. -/
def exampleWorkerRun : List PIPELINE_STEP :=
  [PIPELINE_STEP.WorkerAppend 10 ((PvpPeImportsEnumerateThread exampleSource).getD 0 nullNameNode),
   PIPELINE_STEP.WorkerAppend 20 ((PvpPeImportsEnumerateThread exampleSource).getD 1 nullNameNode),
   PIPELINE_STEP.TimerDrain,
   PIPELINE_STEP.WorkerAppend 30 ((PvpPeImportsEnumerateThread exampleSource).getD 2 nullNameNode),
   PIPELINE_STEP.TimerDrain,
   PIPELINE_STEP.WorkerAppend 40 ((PvpPeImportsEnumerateThread exampleSource).getD 3 nullNameNode)]

/-! ## The states the pipeline reaches -/

/-- The states the program reaches from an empty pipeline and store. The worker creates a node
at an address that is not buffered yet, with a UniqueId that no buffered node carries (it
numbers its nodes 1, 2, 3, ... with `++(*Count)`), and appends it to the buffer; the timer runs
`PvImportTreeUpdateCallback`; the tree asks for the children of a node, which sorts the node
list when the node is the root; the completion handler of WM_PV_SEARCH_FINISHED runs.
(`PvRemoveImportNode` and `PvImportClearTree` have no caller.) -/
inductive PipelineReached : State → Prop where
  | empty (s : State) (hEmpty : PipelineEmpty s) : PipelineReached s
  | append (s : State) (importNode : PPV_IMPORT_NODE) (node : PV_IMPORT_NODE)
      (h : PipelineReached s)
      (hAddress : importNode ∉ s.Context.SearchResults)
      (hKey : node.UniqueId ∉ s.Context.SearchResults.map s.key) :
      PipelineReached (PvpProcessImports.append (s.write importNode node) importNode)
  | timer (s s' : State) (h : PipelineReached s)
      (hs : PvImportTreeUpdateCallback s = some s') : PipelineReached s'
  | getChildren (s : State) (getChildrenNode : Option PPV_IMPORT_NODE)
      (h : PipelineReached s) :
      PipelineReached (PvImportTreeNewCallback.TreeNewGetChildren s getChildrenNode).1
  | finished (s s' : State) (h : PipelineReached s)
      (hs : PvpPeImportsDlgProc.WM_PV_SEARCH_FINISHED s = some s') : PipelineReached s'

/-- The buffer and the store fit together: the watermark does not pass the end of the buffer,
the buffered nodes carry pairwise distinct keys, and the hash index and the node list each
hold the buffered nodes before the watermark, in some order. -/
def PipelineConsistent (s : State) : Prop :=
  s.Context.SearchResultsAddIndex ≤ s.Context.SearchResults.length ∧
  (s.Context.SearchResults.map s.key).Nodup ∧
  s.Context.NodeHashtable.Perm
    (s.Context.SearchResults.take s.Context.SearchResultsAddIndex) ∧
  s.Context.NodeList.Perm
    (s.Context.SearchResults.take s.Context.SearchResultsAddIndex)

@[simp] theorem State.write_Context (s : State) (p : PPV_IMPORT_NODE) (n : PV_IMPORT_NODE) :
    (s.write p n).Context = s.Context := rfl

@[simp] theorem State.write_Log (s : State) (p : PPV_IMPORT_NODE) (n : PV_IMPORT_NODE) :
    (s.write p n).Log = s.Log := rfl

@[simp] theorem State.write_Freed (s : State) (p : PPV_IMPORT_NODE) (n : PV_IMPORT_NODE) :
    (s.write p n).Freed = s.Freed := rfl

theorem State.write_Memory (s : State) (p q : PPV_IMPORT_NODE) (n : PV_IMPORT_NODE) :
    (s.write p n).Memory q = if q = p then n else s.Memory q := rfl

/-- What `PvImportAddTreeNode` does to the heap: only the node header and the text cache of
`Entry` are written. -/
theorem PvImportAddTreeNode_Memory (s : State) (Entry p : PPV_IMPORT_NODE) :
    (p ≠ Entry → (PvImportAddTreeNode s Entry).Memory p = s.Memory p) ∧
    ((PvImportAddTreeNode s Entry).Memory p).UniqueId = (s.Memory p).UniqueId := by
  unfold PvImportAddTreeNode
  constructor
  · intro hp
    simp only []
    split_ifs <;> simp [State.write_Memory, hp]
  · simp only []
    split_ifs <;> by_cases hp : p = Entry <;> simp [State.write_Memory, hp]

theorem PvImportAddTreeNode_key (s : State) (Entry : PPV_IMPORT_NODE) :
    (PvImportAddTreeNode s Entry).key = s.key := by
  funext p
  exact (PvImportAddTreeNode_Memory s Entry p).2

theorem compare_write_header (s : State) (Entry : PPV_IMPORT_NODE) (h : PH_TREENEW_NODE)
    (c : List PH_STRINGREF) :
    PvImportNodeHashtableCompareFunction
      (s.write Entry { s.Memory Entry with Node := h, TextCache := c }).Memory
      = PvImportNodeHashtableCompareFunction s.Memory := by
  funext a b
  simp only [PvImportNodeHashtableCompareFunction, State.write_Memory]
  by_cases ha : a = Entry <;> by_cases hb : b = Entry <;> simp [ha, hb]

/-- The outcome of `PvImportAddTreeNode` on the two indices. -/
theorem PvImportAddTreeNode_Context (s : State) (Entry : PPV_IMPORT_NODE) :
    (PvImportAddTreeNode s Entry).Context =
      if s.Context.NodeHashtable.any (fun e => s.key e == s.key Entry) then s.Context
      else { s.Context with
        NodeHashtable := s.Context.NodeHashtable ++ [Entry]
        NodeList := s.Context.NodeList ++ [Entry] } := by
  unfold PvImportAddTreeNode
  simp only [compare_write_header, State.write_Context, PhAddEntryHashtable]
  have : (fun e => PvImportNodeHashtableCompareFunction s.Memory e Entry)
      = (fun e => s.key e == s.key Entry) := rfl
  rw [this]
  by_cases h : s.Context.NodeHashtable.any (fun e => s.key e == s.key Entry) = true
  · simp [h]
  · simp only [h]
    simp [PhAddItemList]
    split_ifs <;> simp


/-- C1. Adding a node whose UniqueId equals that of a node already in the store (in its hash
index) leaves the store unchanged: the context, hence the hash index and NodeList, is the same
as before; no node other than `Entry` is written and no key changes; every lookup in the hash
index gives what it gave before, and the lookup of the key of `Entry` still finds a node that
was in the store before the call. -/
theorem PvImportAddTreeNode_existing_key (s : State) (Entry q : PPV_IMPORT_NODE)
    (hq : q ∈ s.Context.NodeHashtable)
    (hkey : (s.Memory q).UniqueId = (s.Memory Entry).UniqueId) :
    (PvImportAddTreeNode s Entry).Context = s.Context ∧
    (∀ p, p ≠ Entry → (PvImportAddTreeNode s Entry).Memory p = s.Memory p) ∧
    (∀ p, ((PvImportAddTreeNode s Entry).Memory p).UniqueId = (s.Memory p).UniqueId) ∧
    (∀ probe,
      PhFindEntryHashtable
          (PvImportNodeHashtableCompareFunction (PvImportAddTreeNode s Entry).Memory)
          (PvImportAddTreeNode s Entry).Context.NodeHashtable probe
        = PhFindEntryHashtable (PvImportNodeHashtableCompareFunction s.Memory)
          s.Context.NodeHashtable probe) ∧
    (∃ first,
      PhFindEntryHashtable
          (PvImportNodeHashtableCompareFunction (PvImportAddTreeNode s Entry).Memory)
          (PvImportAddTreeNode s Entry).Context.NodeHashtable Entry = some first ∧
      first ∈ s.Context.NodeHashtable ∧
      (s.Memory first).UniqueId = (s.Memory Entry).UniqueId) := by
  have hany : s.Context.NodeHashtable.any (fun e => s.key e == s.key Entry) = true := by
    rw [List.any_eq_true]
    exact ⟨q, hq, by simpa [State.key] using hkey⟩
  have hctx : (PvImportAddTreeNode s Entry).Context = s.Context := by
    rw [PvImportAddTreeNode_Context, if_pos hany]
  have hcmp : PvImportNodeHashtableCompareFunction (PvImportAddTreeNode s Entry).Memory
      = PvImportNodeHashtableCompareFunction s.Memory := by
    funext a b
    simp only [PvImportNodeHashtableCompareFunction, (PvImportAddTreeNode_Memory s Entry _).2]
  refine ⟨hctx, fun p hp => (PvImportAddTreeNode_Memory s Entry p).1 hp,
    fun p => (PvImportAddTreeNode_Memory s Entry p).2, ?_, ?_⟩
  · intro probe
    rw [hctx, hcmp]
  · rw [hctx, hcmp]
    unfold PhFindEntryHashtable
    cases hfind : s.Context.NodeHashtable.find?
        (fun e => PvImportNodeHashtableCompareFunction s.Memory e Entry) with
    | none =>
      rw [List.find?_eq_none] at hfind
      exact absurd (by simpa [PvImportNodeHashtableCompareFunction] using hkey) (hfind q hq)
    | some first =>
      refine ⟨first, rfl, List.mem_of_find?_eq_some hfind, ?_⟩
      simpa [PvImportNodeHashtableCompareFunction] using List.find?_some hfind

/-- C1 at a concrete store: address 100 (key 7) is stored, address 101 (key 7) is added. -/
theorem PvImportAddTreeNode_existing_key_witness :
    (100 ∈ duplicateKeyState.Context.NodeHashtable ∧
      (duplicateKeyState.Memory 100).UniqueId = (duplicateKeyState.Memory 101).UniqueId) ∧
    (PvImportAddTreeNode duplicateKeyState 101).Context = duplicateKeyState.Context :=
  ⟨⟨by decide, by decide⟩,
   (PvImportAddTreeNode_existing_key duplicateKeyState 101 100 (by decide) (by decide)).1⟩

/-! ## The store under the other operations -/

theorem PvDestroyImportNode_foldl (l : List PPV_IMPORT_NODE) (s : State) :
    (l.foldl PvDestroyImportNode s).Memory = s.Memory ∧
    (l.foldl PvDestroyImportNode s).Context = s.Context ∧
    (l.foldl PvDestroyImportNode s).Log = s.Log := by
  induction l generalizing s with
  | nil => exact ⟨rfl, rfl, rfl⟩
  | cons a l ih =>
    simp only [List.foldl_cons]
    obtain ⟨h1, h2, h3⟩ := ih (PvDestroyImportNode s a)
    exact ⟨h1, h2, h3⟩

theorem PvRemoveImportNode_Memory (s : State) (Node : PPV_IMPORT_NODE) :
    (PvRemoveImportNode s Node).Memory = s.Memory := by
  unfold PvRemoveImportNode PvDestroyImportNode
  simp only []
  split <;> rfl

theorem PvRemoveImportNode_NodeHashtable (s : State) (Node : PPV_IMPORT_NODE) :
    (PvRemoveImportNode s Node).Context.NodeHashtable
      = s.Context.NodeHashtable.eraseP (fun e => s.key e == s.key Node) := by
  unfold PvRemoveImportNode PvDestroyImportNode PhRemoveEntryHashtable
  simp only []
  split <;> rfl

theorem eraseIdx_indexOf (l : List PPV_IMPORT_NODE) (a : PPV_IMPORT_NODE) :
    l.eraseIdx (l.indexOf a) = l.erase a := by
  induction l with
  | nil => rfl
  | cons b l ih =>
    by_cases h : b = a
    · subst h; simp
    · rw [List.indexOf_cons_ne _ h, List.eraseIdx_cons_succ, ih, List.erase_cons_tail]
      simpa using h

theorem PvRemoveImportNode_NodeList (s : State) (Node : PPV_IMPORT_NODE) :
    (PvRemoveImportNode s Node).Context.NodeList = s.Context.NodeList.erase Node := by
  unfold PvRemoveImportNode PvDestroyImportNode PhFindItemList PhRemoveItemList
  simp only []
  by_cases h : Node ∈ s.Context.NodeList
  · simp only [h, if_true, eraseIdx_indexOf]
  · simp only [h, if_false, List.erase_of_not_mem h]

/-- In a list whose keys are pairwise distinct, erasing the first node with the key of a member
erases that member. -/
theorem eraseP_key_eq_erase (key : PPV_IMPORT_NODE → Nat) (l : List PPV_IMPORT_NODE)
    (a : PPV_IMPORT_NODE) (hnd : (l.map key).Nodup) (ha : a ∈ l) :
    l.eraseP (fun e => key e == key a) = l.erase a := by
  induction l with
  | nil => cases ha
  | cons b l ih =>
    rw [List.map_cons, List.nodup_cons] at hnd
    by_cases h : b = a
    · subst h; simp
    · have hal : a ∈ l := by
        rcases List.mem_cons.1 ha with h1 | h1
        · exact absurd h1.symm h
        · exact h1
      have hk : key b ≠ key a := fun hk => hnd.1 (hk ▸ List.mem_map_of_mem key hal)
      rw [List.eraseP_cons_of_neg (by simpa using hk), ih hnd.2 hal, List.erase_cons_tail]
      simpa using h

theorem StoreConsistent_nodup (s : State) (h : StoreConsistent s) :
    s.Context.NodeList.Nodup ∧ s.Context.NodeHashtable.Nodup ∧
      (s.Context.NodeHashtable.map s.key).Nodup := by
  have h1 : s.Context.NodeList.Nodup := List.Nodup.of_map _ h.2
  exact ⟨h1, h.1.nodup_iff.2 h1, (h.1.map s.key).nodup_iff.2 h.2⟩

theorem StoreConsistent_add (s : State) (Entry : PPV_IMPORT_NODE) (h : StoreConsistent s) :
    StoreConsistent (PvImportAddTreeNode s Entry) := by
  unfold StoreConsistent
  rw [PvImportAddTreeNode_key, PvImportAddTreeNode_Context]
  by_cases hany : s.Context.NodeHashtable.any (fun e => s.key e == s.key Entry) = true
  · rw [if_pos hany]; exact h
  · rw [if_neg hany]
    refine ⟨List.Perm.append_right _ h.1, ?_⟩
    simp only [List.map_append, List.map_cons, List.map_nil]
    rw [List.nodup_append]
    refine ⟨h.2, List.nodup_singleton _, ?_⟩
    intro k hk hk2
    rw [List.mem_singleton] at hk2
    subst hk2
    obtain ⟨p, hp, hpk⟩ := List.mem_map.1 hk
    apply hany
    rw [List.any_eq_true]
    exact ⟨p, h.1.mem_iff.2 hp, by simpa using hpk⟩

theorem StoreConsistent_remove (s : State) (Node : PPV_IMPORT_NODE) (h : StoreConsistent s)
    (hNode : Node ∈ s.Context.NodeList) : StoreConsistent (PvRemoveImportNode s Node) := by
  have hnd := StoreConsistent_nodup s h
  unfold StoreConsistent
  rw [PvRemoveImportNode_NodeHashtable, PvRemoveImportNode_NodeList]
  have hkey : (PvRemoveImportNode s Node).key = s.key := by
    funext p; simp only [State.key, PvRemoveImportNode_Memory]
  rw [hkey, eraseP_key_eq_erase s.key _ Node hnd.2.2 (h.1.mem_iff.2 hNode)]
  exact ⟨h.1.erase Node, h.2.sublist ((List.erase_sublist Node _).map s.key)⟩

theorem StoreConsistent_clear (s : State) : StoreConsistent (PvImportClearTree s) := by
  unfold StoreConsistent PvImportClearTree PhClearHashtable PhClearList
  exact ⟨List.Perm.refl _, List.nodup_nil⟩

theorem TreeNewGetChildren_Memory (s : State) (n : Option PPV_IMPORT_NODE) :
    (PvImportTreeNewCallback.TreeNewGetChildren s n).1.Memory = s.Memory := by
  unfold PvImportTreeNewCallback.TreeNewGetChildren
  cases n with
  | some _ => rfl
  | none => simp only []; split <;> rfl

theorem TreeNewGetChildren_NodeHashtable (s : State) (n : Option PPV_IMPORT_NODE) :
    (PvImportTreeNewCallback.TreeNewGetChildren s n).1.Context.NodeHashtable
      = s.Context.NodeHashtable := by
  unfold PvImportTreeNewCallback.TreeNewGetChildren
  cases n with
  | some _ => rfl
  | none => simp only []; split <;> rfl

theorem TreeNewGetChildren_NodeList_perm (s : State) (n : Option PPV_IMPORT_NODE) :
    (PvImportTreeNewCallback.TreeNewGetChildren s n).1.Context.NodeList.Perm
      s.Context.NodeList := by
  unfold PvImportTreeNewCallback.TreeNewGetChildren
  cases n with
  | some _ => exact List.Perm.refl _
  | none =>
    simp only []
    split
    · exact List.perm_insertionSort _ _
    · exact List.Perm.refl _

theorem StoreConsistent_getChildren (s : State) (n : Option PPV_IMPORT_NODE)
    (h : StoreConsistent s) :
    StoreConsistent (PvImportTreeNewCallback.TreeNewGetChildren s n).1 := by
  unfold StoreConsistent
  have hkey : (PvImportTreeNewCallback.TreeNewGetChildren s n).1.key = s.key := by
    funext p; simp only [State.key, TreeNewGetChildren_Memory]
  rw [hkey, TreeNewGetChildren_NodeHashtable]
  have hp := TreeNewGetChildren_NodeList_perm s n
  exact ⟨h.1.trans hp.symm, (hp.map s.key).nodup_iff.2 h.2⟩

theorem StoreConsistent_create (s : State) (p : PPV_IMPORT_NODE) (n : PV_IMPORT_NODE)
    (h : StoreConsistent s) (hList : p ∉ s.Context.NodeList) :
    StoreConsistent (s.write p n) := by
  unfold StoreConsistent
  refine ⟨h.1, ?_⟩
  have : (s.write p n).Context.NodeList.map (s.write p n).key
      = s.Context.NodeList.map s.key := by
    apply List.map_congr_left
    intro a ha
    have hap : a ≠ p := fun hap => hList (hap ▸ ha)
    simp [State.key, State.write_Memory, hap]
  rw [this]
  exact h.2

theorem Reachable_StoreConsistent (s : State) (h : Reachable s) : StoreConsistent s := by
  induction h with
  | empty s hTable hList =>
    unfold StoreConsistent
    rw [hTable, hList]
    exact ⟨List.Perm.refl _, List.nodup_nil⟩
  | add s Entry _ ih => exact StoreConsistent_add s Entry ih
  | remove s Node _ hNode ih => exact StoreConsistent_remove s Node ih hNode
  | clear s _ _ => exact StoreConsistent_clear s
  | getChildren s n _ ih => exact StoreConsistent_getChildren s n ih
  | create s p n _ _ hList ih => exact StoreConsistent_create s p n ih hList


/-- C2. Dual-index consistency is an invariant of the reachable stores: a key is carried by an
entry of the hash index exactly when it occurs exactly once among the keys of NodeList, a
lookup in the hash index succeeds exactly in that case, and no two nodes of NodeList (or of the
hash index) share a UniqueId. -/
theorem Reachable_dual_index_consistency (s : State) (h : Reachable s) :
    (∀ k, (∃ p ∈ s.Context.NodeHashtable, (s.Memory p).UniqueId = k) ↔
      (s.Context.NodeList.map (fun p => (s.Memory p).UniqueId)).count k = 1) ∧
    (∀ probe,
      (PhFindEntryHashtable (PvImportNodeHashtableCompareFunction s.Memory)
        s.Context.NodeHashtable probe).isSome = true ↔
      (s.Context.NodeList.map (fun p => (s.Memory p).UniqueId)).count
        (s.Memory probe).UniqueId = 1) ∧
    (s.Context.NodeList.map (fun p => (s.Memory p).UniqueId)).Nodup ∧
    (s.Context.NodeHashtable.map (fun p => (s.Memory p).UniqueId)).Nodup ∧
    s.Context.NodeHashtable.Perm s.Context.NodeList := by
  have hc := Reachable_StoreConsistent s h
  have hnd := StoreConsistent_nodup s hc
  have hkeys : ∀ k, (∃ p ∈ s.Context.NodeHashtable, (s.Memory p).UniqueId = k) ↔
      (s.Context.NodeList.map (fun p => (s.Memory p).UniqueId)).count k = 1 := by
    intro k
    constructor
    · rintro ⟨p, hp, hk⟩
      exact List.count_eq_one_of_mem hc.2
        (List.mem_map.2 ⟨p, hc.1.mem_iff.1 hp, hk⟩)
    · intro hk
      have hmem : k ∈ s.Context.NodeList.map (fun p => (s.Memory p).UniqueId) :=
        List.count_pos_iff.1 (by omega)
      obtain ⟨p, hp, hpk⟩ := List.mem_map.1 hmem
      exact ⟨p, hc.1.mem_iff.2 hp, hpk⟩
  refine ⟨hkeys, ?_, hc.2, hnd.2.2, hc.1⟩
  intro probe
  rw [← hkeys]
  unfold PhFindEntryHashtable
  rw [List.find?_isSome]
  simp only [PvImportNodeHashtableCompareFunction, beq_iff_eq]

/-- C2 at a concrete store. -/
theorem Reachable_dual_index_consistency_witness :
    Reachable reachableExample ∧
    (reachableExample.Context.NodeList.map (fun p => (reachableExample.Memory p).UniqueId)).Nodup ∧
    reachableExample.Context.NodeList = [5] ∧ reachableExample.Context.NodeHashtable = [5] :=
  ⟨Reachable.remove _ 100
      (Reachable.getChildren _ none
        (Reachable.add _ 5 (Reachable.add _ 101 (Reachable.add _ 100
          (Reachable.empty _ rfl rfl))))) (by decide),
   (Reachable_dual_index_consistency reachableExample
      (Reachable.remove _ 100
        (Reachable.getChildren _ none
          (Reachable.add _ 5 (Reachable.add _ 101 (Reachable.add _ 100
            (Reachable.empty _ rfl rfl))))) (by decide))).2.2.1,
   by decide, by decide⟩

/-- In a list whose keys are pairwise distinct, erasing a member is the same as dropping the
nodes that carry its key. -/
theorem erase_eq_filter_key (key : PPV_IMPORT_NODE → Nat) (l : List PPV_IMPORT_NODE)
    (a : PPV_IMPORT_NODE) (hnd : (l.map key).Nodup) (ha : a ∈ l) :
    l.erase a = l.filter (fun p => key p != key a) := by
  rw [List.Nodup.erase_eq_filter (List.Nodup.of_map _ hnd)]
  apply List.filter_congr
  intro p hp
  by_cases h : p = a
  · subst h; rw [bne_self_eq_false, bne_self_eq_false]
  · have hk : key p ≠ key a := fun hk => h (List.inj_on_of_nodup_map hnd hp ha hk)
    rw [bne_iff_ne.2 h, bne_iff_ne.2 hk]

/-- C3. In a consistent store, removing the stored node with key k (or any node whose key k is
carried by no node of the store) leaves, in the node list and in the hash index alike, exactly
the nodes whose key differs from k, in their previous order; the heap is not written; and when
k is carried by no node of the store, the context (both indices included) is unchanged. -/
theorem PvRemoveImportNode_by_key (s : State) (Node : PPV_IMPORT_NODE)
    (hc : StoreConsistent s)
    (hNode : Node ∈ s.Context.NodeList ∨
      ∀ p ∈ s.Context.NodeList, (s.Memory p).UniqueId ≠ (s.Memory Node).UniqueId) :
    (PvRemoveImportNode s Node).Context.NodeList
      = s.Context.NodeList.filter
          (fun p => (s.Memory p).UniqueId != (s.Memory Node).UniqueId) ∧
    (PvRemoveImportNode s Node).Context.NodeHashtable
      = s.Context.NodeHashtable.filter
          (fun p => (s.Memory p).UniqueId != (s.Memory Node).UniqueId) ∧
    (PvRemoveImportNode s Node).Memory = s.Memory ∧
    ((∀ p ∈ s.Context.NodeList, (s.Memory p).UniqueId ≠ (s.Memory Node).UniqueId) →
      (PvRemoveImportNode s Node).Context = s.Context) := by
  have hnd := StoreConsistent_nodup s hc
  have habsent : (∀ p ∈ s.Context.NodeList, (s.Memory p).UniqueId ≠ (s.Memory Node).UniqueId) →
      (PvRemoveImportNode s Node).Context.NodeList = s.Context.NodeList ∧
      (PvRemoveImportNode s Node).Context.NodeHashtable = s.Context.NodeHashtable := by
    intro h
    rw [PvRemoveImportNode_NodeList, PvRemoveImportNode_NodeHashtable]
    constructor
    · exact List.erase_of_not_mem (fun hmem => h Node hmem rfl)
    · apply List.eraseP_of_forall_not
      intro p hp
      simpa [State.key] using h p (hc.1.mem_iff.1 hp)
  refine ⟨?_, ?_, PvRemoveImportNode_Memory s Node, ?_⟩
  · rcases hNode with hmem | h
    · rw [PvRemoveImportNode_NodeList]
      exact erase_eq_filter_key s.key _ Node hc.2 hmem
    · rw [(habsent h).1, eq_comm, List.filter_eq_self]
      intro p hp
      simpa using h p hp
  · rcases hNode with hmem | h
    · rw [PvRemoveImportNode_NodeHashtable,
        eraseP_key_eq_erase s.key _ Node hnd.2.2 (hc.1.mem_iff.2 hmem)]
      exact erase_eq_filter_key s.key _ Node hnd.2.2 (hc.1.mem_iff.2 hmem)
    · rw [(habsent h).2, eq_comm, List.filter_eq_self]
      intro p hp
      simpa using h p (hc.1.mem_iff.1 hp)
  · intro h
    have h1 := (habsent h).1
    have h2 := (habsent h).2
    have hrest : (PvRemoveImportNode s Node).Context
        = { s.Context with
            NodeHashtable := (PvRemoveImportNode s Node).Context.NodeHashtable
            NodeList := (PvRemoveImportNode s Node).Context.NodeList } := by
      unfold PvRemoveImportNode PvDestroyImportNode
      simp only []
      split <;> rfl
    rw [hrest, h1, h2]

/-- C3 at a concrete store: the node with key 2 is removed from the nodes 1, 2, 3. -/
theorem PvRemoveImportNode_by_key_witness :
    (StoreConsistent threeNodeState ∧ 2 ∈ threeNodeState.Context.NodeList) ∧
    (PvRemoveImportNode threeNodeState 2).Context.NodeList = [1, 3] ∧
    (PvRemoveImportNode threeNodeState 2).Context.NodeHashtable = [3, 1] :=
  ⟨⟨⟨by decide, by decide⟩, by decide⟩,
   (PvRemoveImportNode_by_key threeNodeState 2 ⟨by decide, by decide⟩
      (Or.inl (by decide))).1.trans (by decide),
   (PvRemoveImportNode_by_key threeNodeState 2 ⟨by decide, by decide⟩
      (Or.inl (by decide))).2.1.trans (by decide)⟩

/-! ## The comparators -/

theorem uintptrcmp_eq_threeWay (x y : Nat) : uintptrcmp x y = threeWay x y := by
  unfold uintptrcmp threeWay
  split_ifs <;> first | rfl | omega

theorem uintcmp_eq_threeWay (x y : Nat) : uintcmp x y = threeWay x y := by
  unfold uintcmp threeWay
  split_ifs <;> first | rfl | omega

theorem ULONG_PTR_of_lt (x : Nat) (h : x < 2 ^ 64) : ULONG_PTR x = x :=
  Nat.mod_eq_of_lt h

theorem PhModifySort_eq_applyDirection (c : Int) (Order : PH_SORT_ORDER) :
    PhModifySort c Order = applyDirection Order c := by
  cases Order <;> rfl

theorem END_SORT_FUNCTION_eq (c : Int) (a b : PV_IMPORT_NODE) (ctx : PV_IMPORT_CONTEXT)
    (ha : a.WellTyped) (hb : b.WellTyped) :
    END_SORT_FUNCTION c a b ctx = applyDirection ctx.TreeNewSortOrder (withTieBreak c a b) := by
  unfold END_SORT_FUNCTION withTieBreak
  simp only [PhModifySort_eq_applyDirection, uintptrcmp_eq_threeWay,
    ULONG_PTR_of_lt _ ha.1, ULONG_PTR_of_lt _ hb.1]
  by_cases hc : c = 0 <;> simp [hc]

/-- C4. For each of the five columns the comparator registered for it returns the sort order
of the context applied to the tie-broken primary comparison of the two nodes (the primary
result if it is not zero, else the ascending comparison of the UniqueIds);
`PvImportTreeNewPostSortFunction` forms the same combination from a given primary result. -/
theorem column_comparator_eq (Column : Nat) (hColumn : Column < PV_IMPORT_TREE_COLUMN_ITEM_MAXIMUM)
    (Memory : PPV_IMPORT_NODE → PV_IMPORT_NODE) (ctx : PV_IMPORT_CONTEXT)
    (elem1 elem2 : PPV_IMPORT_NODE)
    (h1 : (Memory elem1).WellTyped) (h2 : (Memory elem2).WellTyped) :
    (∃ sortFunction, sortFunctions[Column]? = some sortFunction ∧
      sortFunction Memory ctx elem1 elem2
        = applyDirection ctx.TreeNewSortOrder
            (withTieBreak (primaryComparison Column (Memory elem1) (Memory elem2))
              (Memory elem1) (Memory elem2))) ∧
    (∀ (Result : Int) (SortOrder : PH_SORT_ORDER),
      PvImportTreeNewPostSortFunction Result (Memory elem1) (Memory elem2) SortOrder
        = applyDirection SortOrder (withTieBreak Result (Memory elem1) (Memory elem2))) := by
  constructor
  · have hcases : Column = 0 ∨ Column = 1 ∨ Column = 2 ∨ Column = 3 ∨ Column = 4 := by
      unfold PV_IMPORT_TREE_COLUMN_ITEM_MAXIMUM at hColumn; omega
    rcases hcases with h | h | h | h | h <;> subst h
    · refine ⟨PvImportTreeNewCompareIndex, rfl, ?_⟩
      simp only [PvImportTreeNewCompareIndex, END_SORT_FUNCTION_eq _ _ _ _ h1 h2,
        uintptrcmp_eq_threeWay, ULONG_PTR_of_lt _ h1.1, ULONG_PTR_of_lt _ h2.1]
      rfl
    · refine ⟨PvImportTreeNewCompareRva, rfl, ?_⟩
      simp only [PvImportTreeNewCompareRva, END_SORT_FUNCTION_eq _ _ _ _ h1 h2,
        uintptrcmp_eq_threeWay, ULONG_PTR_of_lt _ h1.2.1, ULONG_PTR_of_lt _ h2.2.1]
      rfl
    · refine ⟨PvImportTreeNewCompareDll, rfl, ?_⟩
      simp only [PvImportTreeNewCompareDll, END_SORT_FUNCTION_eq _ _ _ _ h1 h2]
      rfl
    · refine ⟨PvImportTreeNewCompareName, rfl, ?_⟩
      simp only [PvImportTreeNewCompareName, END_SORT_FUNCTION_eq _ _ _ _ h1 h2]
      rfl
    · refine ⟨PvImportTreeNewCompareHint, rfl, ?_⟩
      simp only [PvImportTreeNewCompareHint, END_SORT_FUNCTION_eq _ _ _ _ h1 h2,
        uintcmp_eq_threeWay]
      rfl
  · intro Result SortOrder
    unfold PvImportTreeNewPostSortFunction withTieBreak
    simp only [PhModifySort_eq_applyDirection, uintptrcmp_eq_threeWay,
      ULONG_PTR_of_lt _ h1.1, ULONG_PTR_of_lt _ h2.1]
    by_cases hc : Result = 0 <;> simp [hc]

/-- C4 at concrete nodes: two nodes without a name, keys 7 and 5, compared by Name in
descending order: the names tie, the keys give 1, the direction turns it into -1. -/
theorem column_comparator_eq_witness :
    (PV_IMPORT_TREE_COLUMN_ITEM_NAME < PV_IMPORT_TREE_COLUMN_ITEM_MAXIMUM ∧
      (aliasMemory 100).WellTyped ∧ (aliasMemory 5).WellTyped) ∧
    PvImportTreeNewCompareName aliasMemory
        { exampleContext with TreeNewSortOrder := PH_SORT_ORDER.DescendingSortOrder } 100 5 = -1 ∧
    ∀ (Result : Int) (SortOrder : PH_SORT_ORDER),
      PvImportTreeNewPostSortFunction Result (aliasMemory 100) (aliasMemory 5) SortOrder
        = applyDirection SortOrder (withTieBreak Result (aliasMemory 100) (aliasMemory 5)) :=
  ⟨⟨by decide, by decide, by decide⟩, by decide,
   (column_comparator_eq PV_IMPORT_TREE_COLUMN_ITEM_NAME (by decide) aliasMemory
      { exampleContext with TreeNewSortOrder := PH_SORT_ORDER.DescendingSortOrder } 100 5
      (by decide) (by decide)).2⟩

/-! ## The comparators order the nodes -/

theorem Char_toNat_injective (x y : Char) (h : x.toNat = y.toNat) : x = y := by
  apply Char.ext
  apply UInt32.ext
  exact h

theorem threeWay_swap (x y : Nat) : threeWay y x = - threeWay x y := by
  unfold threeWay
  split_ifs <;> first | rfl | omega

theorem threeWay_nonpos (x y : Nat) : threeWay x y ≤ 0 ↔ x ≤ y := by
  unfold threeWay
  split_ifs <;> omega

theorem threeWay_eq_zero (x y : Nat) : threeWay x y = 0 ↔ x = y := by
  constructor
  · intro h
    unfold threeWay at h
    by_contra hne
    rcases Nat.lt_or_gt_of_ne hne with h1 | h1
    · rw [if_pos h1] at h; exact absurd h (by decide)
    · rw [if_neg (by omega), if_neg hne] at h; exact absurd h (by decide)
  · intro h; subst h; simp [threeWay]

theorem PhCompareStringRef_cons (x y : Char) (a b : PH_STRINGREF) :
    PhCompareStringRef (x :: a) (y :: b) false
      = if x ≠ y then (x.toNat : Int) - (y.toNat : Int) else PhCompareStringRef a b false := by
  simp [PhCompareStringRef]

theorem PhCompareStringRef_cons_nonpos (x y : Char) (a b : PH_STRINGREF) :
    PhCompareStringRef (x :: a) (y :: b) false ≤ 0 ↔
      x.toNat < y.toNat ∨ (x = y ∧ PhCompareStringRef a b false ≤ 0) := by
  rw [PhCompareStringRef_cons]
  by_cases h : x = y
  · subst h; simp
  · have hne : x.toNat ≠ y.toNat := fun hxy => h (Char_toNat_injective x y hxy)
    simp only [ne_eq, h, not_false_eq_true, if_true, false_and, or_false]
    omega

theorem PhCompareStringRef_swap (a b : PH_STRINGREF) :
    PhCompareStringRef b a false = - PhCompareStringRef a b false := by
  induction a generalizing b with
  | nil =>
    cases b with
    | nil => simp [PhCompareStringRef]
    | cons y b => simp [PhCompareStringRef]
  | cons x a ih =>
    cases b with
    | nil => simp [PhCompareStringRef]
    | cons y b =>
      rw [PhCompareStringRef_cons, PhCompareStringRef_cons, ih b]
      by_cases h : x = y
      · subst h; simp
      · have h2 : ¬ y = x := fun h2 => h h2.symm
        simp only [ne_eq, h, h2, not_false_eq_true, if_true]
        omega

theorem PhCompareStringRef_trans (a b d : PH_STRINGREF)
    (hab : PhCompareStringRef a b false ≤ 0) (hbd : PhCompareStringRef b d false ≤ 0) :
    PhCompareStringRef a d false ≤ 0 := by
  induction a generalizing b d with
  | nil =>
    cases d with
    | nil => simp [PhCompareStringRef]
    | cons z d => simp only [PhCompareStringRef]; omega
  | cons x a ih =>
    cases b with
    | nil => simp only [PhCompareStringRef, List.length_cons] at hab; omega
    | cons y b =>
      cases d with
      | nil => simp only [PhCompareStringRef, List.length_cons] at hbd; omega
      | cons z d =>
        rw [PhCompareStringRef_cons_nonpos] at hab hbd ⊢
        rcases hab with h1 | ⟨h1, h1'⟩ <;> rcases hbd with h2 | ⟨h2, h2'⟩
        · exact Or.inl (by omega)
        · subst h2; exact Or.inl h1
        · subst h1; exact Or.inl h2
        · subst h1; subst h2; exact Or.inr ⟨rfl, ih b d h1' h2'⟩

theorem PhCompareStringRef_isThreeWayOrder :
    IsThreeWayOrder (fun a b : PH_STRINGREF => PhCompareStringRef a b false) :=
  ⟨fun a b => PhCompareStringRef_swap a b, PhCompareStringRef_trans⟩

theorem PhCompareStringWithNull_isThreeWayOrder :
    IsThreeWayOrder (fun a b : PPH_STRING => PhCompareStringWithNull a b false) := by
  constructor
  · intro a b
    cases a <;> cases b <;> simp only [PhCompareStringWithNull] <;>
      first | rfl | exact PhCompareStringRef_swap _ _
  · intro a b d hab hbd
    cases a <;> cases b <;> cases d <;>
      simp only [PhCompareStringWithNull] at hab hbd ⊢ <;> try omega
    exact PhCompareStringRef_trans _ _ _ hab hbd

theorem threeWay_isThreeWayOrder : IsThreeWayOrder threeWay := by
  constructor
  · intro a b; exact threeWay_swap a b
  · intro a b d hab hbd
    rw [threeWay_nonpos] at hab hbd ⊢
    omega

/-- A three-way order read through a function is a three-way order. -/
theorem IsThreeWayOrder.comap {α β : Type} {c : β → β → Int} (h : IsThreeWayOrder c)
    (f : α → β) : IsThreeWayOrder (fun a b => c (f a) (f b)) :=
  ⟨fun a b => h.swap (f a) (f b), fun a b d => h.trans (f a) (f b) (f d)⟩

theorem IsThreeWayOrder.refl {α : Type} {c : α → α → Int} (h : IsThreeWayOrder c) (a : α) :
    c a a = 0 := by
  have := h.swap a a
  omega

/-- Breaking the ties of one three-way order by another gives a three-way order. -/
theorem IsThreeWayOrder.lex {α : Type} {c k : α → α → Int} (hc : IsThreeWayOrder c)
    (hk : IsThreeWayOrder k) :
    IsThreeWayOrder (fun a b => if c a b ≠ 0 then c a b else k a b) := by
  constructor
  · intro a b
    have hs := hc.swap a b
    have hks := hk.swap a b
    by_cases h : c a b = 0
    · have h2 : c b a = 0 := by omega
      simp [h, h2, hks]
    · have h2 : c b a ≠ 0 := by omega
      simp [h, h2, hs]
  · intro a b d hab hbd
    have sab := hc.swap a b
    have sbd := hc.swap b d
    have sad := hc.swap a d
    -- the primary results are themselves not greater
    have pab : c a b ≤ 0 := by
      by_cases h : c a b = 0
      · omega
      · simpa [h] using hab
    have pbd : c b d ≤ 0 := by
      by_cases h : c b d = 0
      · omega
      · simpa [h] using hbd
    have pad : c a d ≤ 0 := hc.trans a b d pab pbd
    by_cases had : c a d = 0
    · have pda : c d a ≤ 0 := by omega
      have hb0 : c a b = 0 := by
        have := hc.trans b d a pbd pda
        omega
      have hd0 : c b d = 0 := by
        have := hc.trans d a b pda pab
        omega
      simp only [hb0, hd0, had, ne_eq, not_true_eq_false, if_false] at hab hbd ⊢
      exact hk.trans a b d hab hbd
    · simpa [had] using pad

/-- Applying a sort direction to a three-way order gives a three-way order. -/
theorem IsThreeWayOrder.direction {α : Type} {c : α → α → Int} (hc : IsThreeWayOrder c)
    (Order : PH_SORT_ORDER) : IsThreeWayOrder (fun a b => applyDirection Order (c a b)) := by
  cases Order
  · exact hc
  · exact hc
  · constructor
    · intro a b
      have := hc.swap a b
      simp only [applyDirection]
      omega
    · intro a b d hab hbd
      simp only [applyDirection] at hab hbd ⊢
      have := hc.swap a b
      have := hc.swap b d
      have := hc.swap a d
      have := hc.trans d b a (by omega) (by omega)
      omega

theorem primaryComparison_isThreeWayOrder (Column : Nat) :
    IsThreeWayOrder (primaryComparison Column) := by
  unfold primaryComparison
  split_ifs
  · exact threeWay_isThreeWayOrder.comap PV_IMPORT_NODE.UniqueId
  · exact threeWay_isThreeWayOrder.comap PV_IMPORT_NODE.Address
  · exact PhCompareStringWithNull_isThreeWayOrder.comap PV_IMPORT_NODE.DllString
  · exact PhCompareStringWithNull_isThreeWayOrder.comap PV_IMPORT_NODE.NameString
  · exact threeWay_isThreeWayOrder.comap PV_IMPORT_NODE.Hint

theorem columnComparison_isThreeWayOrder (Column : Nat) (Order : PH_SORT_ORDER) :
    IsThreeWayOrder (columnComparison Column Order) :=
  ((primaryComparison_isThreeWayOrder Column).lex
    (threeWay_isThreeWayOrder.comap PV_IMPORT_NODE.UniqueId)).direction Order

theorem columnComparison_eq_zero (Column : Nat) (Order : PH_SORT_ORDER) (a b : PV_IMPORT_NODE)
    (h : columnComparison Column Order a b = 0) : a.UniqueId = b.UniqueId := by
  unfold columnComparison withTieBreak at h
  have h0 : (if primaryComparison Column a b ≠ 0 then primaryComparison Column a b
      else threeWay a.UniqueId b.UniqueId) = 0 := by
    cases Order <;> simp only [applyDirection] at h <;> first | exact h | omega
  by_cases hp : primaryComparison Column a b = 0
  · simp only [hp, ne_eq, not_true_eq_false, if_false] at h0
    exact (threeWay_eq_zero _ _).1 h0
  · rw [if_pos hp] at h0
    exact absurd h0 hp


theorem END_SORT_FUNCTION_cast (c : Int) (a b : PV_IMPORT_NODE) (ctx : PV_IMPORT_CONTEXT) :
    END_SORT_FUNCTION c a b ctx = applyDirection ctx.TreeNewSortOrder
      (withTieBreak c (castToPointerWidth a) (castToPointerWidth b)) := by
  unfold END_SORT_FUNCTION withTieBreak castToPointerWidth
  simp only [PhModifySort_eq_applyDirection, uintptrcmp_eq_threeWay]
  by_cases hc : c = 0 <;> simp [hc]

/-- Each comparator of the table is the comparison of the spec, read on the nodes after the
casts to ULONG_PTR. -/
theorem sortFunctions_eq_columnComparison (Column : Nat)
    (hColumn : Column < PV_IMPORT_TREE_COLUMN_ITEM_MAXIMUM) :
    ∃ sortFunction, sortFunctions[Column]? = some sortFunction ∧
      ∀ Memory ctx elem1 elem2, sortFunction Memory ctx elem1 elem2
        = columnComparison Column ctx.TreeNewSortOrder
            (castToPointerWidth (Memory elem1)) (castToPointerWidth (Memory elem2)) := by
  have hcases : Column = 0 ∨ Column = 1 ∨ Column = 2 ∨ Column = 3 ∨ Column = 4 := by
    unfold PV_IMPORT_TREE_COLUMN_ITEM_MAXIMUM at hColumn; omega
  rcases hcases with h | h | h | h | h <;> subst h
  · refine ⟨PvImportTreeNewCompareIndex, rfl, fun Memory ctx elem1 elem2 => ?_⟩
    simp only [PvImportTreeNewCompareIndex, END_SORT_FUNCTION_cast, uintptrcmp_eq_threeWay]
    rfl
  · refine ⟨PvImportTreeNewCompareRva, rfl, fun Memory ctx elem1 elem2 => ?_⟩
    simp only [PvImportTreeNewCompareRva, END_SORT_FUNCTION_cast, uintptrcmp_eq_threeWay]
    rfl
  · refine ⟨PvImportTreeNewCompareDll, rfl, fun Memory ctx elem1 elem2 => ?_⟩
    simp only [PvImportTreeNewCompareDll, END_SORT_FUNCTION_cast]
    rfl
  · refine ⟨PvImportTreeNewCompareName, rfl, fun Memory ctx elem1 elem2 => ?_⟩
    simp only [PvImportTreeNewCompareName, END_SORT_FUNCTION_cast]
    rfl
  · refine ⟨PvImportTreeNewCompareHint, rfl, fun Memory ctx elem1 elem2 => ?_⟩
    simp only [PvImportTreeNewCompareHint, END_SORT_FUNCTION_cast, uintcmp_eq_threeWay]
    rfl

theorem castToPointerWidth_of_wellTyped (n : PV_IMPORT_NODE) (h : n.WellTyped) :
    castToPointerWidth n = n := by
  unfold castToPointerWidth
  rw [ULONG_PTR_of_lt _ h.1, ULONG_PTR_of_lt _ h.2.1]

/-- The model of `qsort_s` sorts: its result is a rearrangement of the items in which no item
is greater than a later one, whenever the comparator is a three-way order. -/
theorem qsort_s_sorted {c : PPV_IMPORT_NODE → PPV_IMPORT_NODE → Int} (h : IsThreeWayOrder c)
    (l : List PPV_IMPORT_NODE) :
    (qsort_s l c).Pairwise (fun a b => c a b ≤ 0) ∧ (qsort_s l c).Perm l := by
  unfold qsort_s
  refine ⟨?_, List.perm_insertionSort _ _⟩
  have htotal : IsTotal PPV_IMPORT_NODE (fun a b => c a b ≤ 0) :=
    ⟨fun a b => by have := h.swap a b; omega⟩
  have htrans : IsTrans PPV_IMPORT_NODE (fun a b => c a b ≤ 0) :=
    ⟨fun a b d => h.trans a b d⟩
  exact List.sorted_insertionSort (fun a b => c a b ≤ 0) l

/-- What the get-children query for the root does when the sort column has a comparator. -/
theorem TreeNewGetChildren_root (s : State)
    (sortFunction : (PPV_IMPORT_NODE → PV_IMPORT_NODE) → PV_IMPORT_CONTEXT →
      PPV_IMPORT_NODE → PPV_IMPORT_NODE → Int)
    (hColumn : s.Context.TreeNewSortColumn < PV_IMPORT_TREE_COLUMN_ITEM_MAXIMUM)
    (hf : sortFunctions[s.Context.TreeNewSortColumn]? = some sortFunction) :
    (PvImportTreeNewCallback.TreeNewGetChildren s none).2
        = some (qsort_s s.Context.NodeList (sortFunction s.Memory s.Context)) ∧
    (PvImportTreeNewCallback.TreeNewGetChildren s none).1.Context.NodeList
        = qsort_s s.Context.NodeList (sortFunction s.Memory s.Context) := by
  unfold PvImportTreeNewCallback.TreeNewGetChildren
  simp only [hColumn, if_true, hf]
  exact ⟨trivial, trivial⟩

/-- C5. On records with pairwise distinct UniqueIds the comparator of each column, in each
direction, is a total order: it returns 0 only for a record compared with itself, it is
antisymmetric and transitive (and swapping the arguments negates the result). Hence an
arrangement of the records that is sorted by the comparator is unique, the model of `qsort_s`
returns the same sequence for any two arrangements of the same records, and so does the
get-children query, whatever the order of NodeList was. -/
theorem column_comparator_total_order (Column : Nat)
    (hColumn : Column < PV_IMPORT_TREE_COLUMN_ITEM_MAXIMUM) (Order : PH_SORT_ORDER)
    (Memory : PPV_IMPORT_NODE → PV_IMPORT_NODE) (records : List PPV_IMPORT_NODE)
    (hTyped : ∀ p ∈ records, (Memory p).WellTyped)
    (hDistinct : ∀ p ∈ records, ∀ q ∈ records,
      p ≠ q → (Memory p).UniqueId ≠ (Memory q).UniqueId) :
    ∃ sortFunction, sortFunctions[Column]? = some sortFunction ∧
      (∀ ctx : PV_IMPORT_CONTEXT, ctx.TreeNewSortOrder = Order →
        (∀ a ∈ records, ∀ b ∈ records, (sortFunction Memory ctx a b = 0 ↔ a = b)) ∧
        (∀ a b, sortFunction Memory ctx b a = - sortFunction Memory ctx a b) ∧
        (∀ a ∈ records, ∀ b ∈ records,
          sortFunction Memory ctx a b ≤ 0 → sortFunction Memory ctx b a ≤ 0 → a = b) ∧
        (∀ a b d, sortFunction Memory ctx a b ≤ 0 → sortFunction Memory ctx b d ≤ 0 →
          sortFunction Memory ctx a d ≤ 0) ∧
        (∀ l1 l2 : List PPV_IMPORT_NODE, l1.Perm records → l2.Perm records →
          l1.Pairwise (fun a b => sortFunction Memory ctx a b ≤ 0) →
          l2.Pairwise (fun a b => sortFunction Memory ctx a b ≤ 0) → l1 = l2) ∧
        (∀ l1 l2 : List PPV_IMPORT_NODE, l1.Perm records → l2.Perm records →
          qsort_s l1 (sortFunction Memory ctx) = qsort_s l2 (sortFunction Memory ctx))) ∧
      (∀ s1 s2 : State, s1.Memory = Memory → s2.Memory = Memory →
        s1.Context.TreeNewSortColumn = Column → s2.Context.TreeNewSortColumn = Column →
        s1.Context.TreeNewSortOrder = Order → s2.Context.TreeNewSortOrder = Order →
        s1.Context.NodeList.Perm records → s2.Context.NodeList.Perm records →
        (PvImportTreeNewCallback.TreeNewGetChildren s1 none).2
          = (PvImportTreeNewCallback.TreeNewGetChildren s2 none).2) := by
  obtain ⟨f, hf, hspec⟩ := sortFunctions_eq_columnComparison Column hColumn
  have horder : ∀ ctx : PV_IMPORT_CONTEXT, IsThreeWayOrder (f Memory ctx) := by
    intro ctx
    have h := (columnComparison_isThreeWayOrder Column ctx.TreeNewSortOrder).comap
      (fun p => castToPointerWidth (Memory p))
    have heq : f Memory ctx = fun a b => columnComparison Column ctx.TreeNewSortOrder
        (castToPointerWidth (Memory a)) (castToPointerWidth (Memory b)) := by
      funext a b; exact hspec Memory ctx a b
    rw [heq]; exact h
  have hzero : ∀ ctx : PV_IMPORT_CONTEXT, ∀ a ∈ records, ∀ b ∈ records,
      f Memory ctx a b = 0 → a = b := by
    intro ctx a ha b hb h0
    by_contra hne
    rw [hspec, castToPointerWidth_of_wellTyped _ (hTyped a ha),
      castToPointerWidth_of_wellTyped _ (hTyped b hb)] at h0
    exact hDistinct a ha b hb hne (columnComparison_eq_zero _ _ _ _ h0)
  have hanti : ∀ ctx : PV_IMPORT_CONTEXT, ∀ a ∈ records, ∀ b ∈ records,
      f Memory ctx a b ≤ 0 → f Memory ctx b a ≤ 0 → a = b := by
    intro ctx a ha b hb h1 h2
    have := (horder ctx).swap a b
    exact hzero ctx a ha b hb (by omega)
  have huniq : ∀ ctx : PV_IMPORT_CONTEXT, ∀ l1 l2 : List PPV_IMPORT_NODE,
      l1.Perm records → l2.Perm records →
      l1.Pairwise (fun a b => f Memory ctx a b ≤ 0) →
      l2.Pairwise (fun a b => f Memory ctx a b ≤ 0) → l1 = l2 := by
    intro ctx l1 l2 h1 h2 p1 p2
    refine List.Perm.eq_of_sorted ?_ p1 p2 (h1.trans h2.symm)
    intro a b ha hb hab hba
    exact hanti ctx a (h1.mem_iff.1 ha) b (h2.mem_iff.1 hb) hab hba
  have hsort : ∀ ctx : PV_IMPORT_CONTEXT, ∀ l1 l2 : List PPV_IMPORT_NODE,
      l1.Perm records → l2.Perm records →
      qsort_s l1 (f Memory ctx) = qsort_s l2 (f Memory ctx) := by
    intro ctx l1 l2 h1 h2
    have s1 := qsort_s_sorted (horder ctx) l1
    have s2 := qsort_s_sorted (horder ctx) l2
    exact huniq ctx _ _ (s1.2.trans h1) (s2.2.trans h2) s1.1 s2.1
  refine ⟨f, hf, ?_, ?_⟩
  · intro ctx _
    refine ⟨?_, (horder ctx).swap, hanti ctx, (horder ctx).trans, huniq ctx, hsort ctx⟩
    intro a ha b hb
    constructor
    · exact hzero ctx a ha b hb
    · intro hab
      subst hab
      exact (horder ctx).refl a
  · intro s1 s2 hm1 hm2 hc1 hc2 ho1 ho2 hp1 hp2
    have g1 := (TreeNewGetChildren_root s1 f (hc1 ▸ hColumn) (hc1 ▸ hf)).1
    have g2 := (TreeNewGetChildren_root s2 f (hc2 ▸ hColumn) (hc2 ▸ hf)).1
    rw [g1, g2, hm1, hm2]
    have e1 : f Memory s1.Context = f Memory s2.Context := by
      funext a b
      rw [hspec, hspec, ho1, ho2]
    rw [e1]
    exact congrArg some (hsort s2.Context _ _ hp1 hp2)


/-- C5 at concrete records: the nodes 1, 2, 3 (keys 1, 2, 3, no names) sorted by Name in
descending order give the same children from the arrangements 3, 1, 2 and 2, 3, 1. -/
theorem column_comparator_total_order_witness :
    (PV_IMPORT_TREE_COLUMN_ITEM_NAME < PV_IMPORT_TREE_COLUMN_ITEM_MAXIMUM ∧
      (∀ p ∈ [1, 2, 3], (aliasMemory p).WellTyped) ∧
      (∀ p ∈ [1, 2, 3], ∀ q ∈ [1, 2, 3],
        p ≠ q → (aliasMemory p).UniqueId ≠ (aliasMemory q).UniqueId)) ∧
    (PvImportTreeNewCallback.TreeNewGetChildren
        (sortExampleState PV_IMPORT_TREE_COLUMN_ITEM_NAME
          PH_SORT_ORDER.DescendingSortOrder [3, 1, 2]) none).2
      = (PvImportTreeNewCallback.TreeNewGetChildren
        (sortExampleState PV_IMPORT_TREE_COLUMN_ITEM_NAME
          PH_SORT_ORDER.DescendingSortOrder [2, 3, 1]) none).2 :=
  ⟨⟨by decide, by decide, by decide⟩,
   (column_comparator_total_order PV_IMPORT_TREE_COLUMN_ITEM_NAME (by decide)
      PH_SORT_ORDER.DescendingSortOrder aliasMemory [1, 2, 3] (by decide) (by decide)).elim
     (fun _ h => h.2.2
       (sortExampleState PV_IMPORT_TREE_COLUMN_ITEM_NAME
          PH_SORT_ORDER.DescendingSortOrder [3, 1, 2])
       (sortExampleState PV_IMPORT_TREE_COLUMN_ITEM_NAME
          PH_SORT_ORDER.DescendingSortOrder [2, 3, 1])
       rfl rfl rfl rfl rfl rfl (by decide) (by decide))⟩

/-! ## Sorting for the get-children query -/

theorem primaryComparison_of_sameColumnValue (Column : Nat) (a b : PV_IMPORT_NODE)
    (h : sameColumnValue Column a b) : primaryComparison Column a b = 0 := by
  unfold sameColumnValue at h
  unfold primaryComparison
  split_ifs at h ⊢
  · rw [h]; exact threeWay_isThreeWayOrder.refl _
  · rw [h]; exact threeWay_isThreeWayOrder.refl _
  · rw [h]; exact PhCompareStringWithNull_isThreeWayOrder.refl _
  · rw [h]; exact PhCompareStringWithNull_isThreeWayOrder.refl _
  · rw [h]; exact threeWay_isThreeWayOrder.refl _

/-- The children handed out for the root are a sorted rearrangement of NodeList. -/
theorem TreeNewGetChildren_sorted (s : State)
    (hColumn : s.Context.TreeNewSortColumn < PV_IMPORT_TREE_COLUMN_ITEM_MAXIMUM) :
    ∃ children, (PvImportTreeNewCallback.TreeNewGetChildren s none).2 = some children ∧
      (PvImportTreeNewCallback.TreeNewGetChildren s none).1.Context.NodeList = children ∧
      children.Perm s.Context.NodeList ∧
      children.Pairwise (fun a b =>
        columnComparison s.Context.TreeNewSortColumn s.Context.TreeNewSortOrder
          (castToPointerWidth (s.Memory a)) (castToPointerWidth (s.Memory b)) ≤ 0) := by
  obtain ⟨f, hf, hspec⟩ := sortFunctions_eq_columnComparison _ hColumn
  have hroot := TreeNewGetChildren_root s f hColumn hf
  have horder : IsThreeWayOrder (f s.Memory s.Context) := by
    have h := (columnComparison_isThreeWayOrder s.Context.TreeNewSortColumn
      s.Context.TreeNewSortOrder).comap (fun p => castToPointerWidth (s.Memory p))
    have heq : f s.Memory s.Context = fun a b =>
        columnComparison s.Context.TreeNewSortColumn s.Context.TreeNewSortOrder
          (castToPointerWidth (s.Memory a)) (castToPointerWidth (s.Memory b)) := by
      funext a b; exact hspec s.Memory s.Context a b
    rw [heq]; exact h
  have hs := qsort_s_sorted horder s.Context.NodeList
  refine ⟨_, hroot.1, hroot.2, hs.2, ?_⟩
  exact hs.1.imp (fun {a b} h => by rw [← hspec]; exact h)

/-- C6. When all the nodes of the store carry the same value in the sort column, the children
handed out by the get-children query are the nodes of NodeList in increasing UniqueId order
for the ascending direction and in decreasing UniqueId order for the descending direction
(strictly so when the UniqueIds of the store are pairwise distinct). -/
theorem TreeNewGetChildren_tied_column (s : State)
    (hColumn : s.Context.TreeNewSortColumn < PV_IMPORT_TREE_COLUMN_ITEM_MAXIMUM)
    (hTyped : ∀ p ∈ s.Context.NodeList, (s.Memory p).WellTyped)
    (hTied : ∀ p ∈ s.Context.NodeList, ∀ q ∈ s.Context.NodeList,
      sameColumnValue s.Context.TreeNewSortColumn (s.Memory p) (s.Memory q)) :
    ∃ children, (PvImportTreeNewCallback.TreeNewGetChildren s none).2 = some children ∧
      children.Perm s.Context.NodeList ∧
      (s.Context.TreeNewSortOrder = PH_SORT_ORDER.AscendingSortOrder →
        children.Pairwise (fun a b => (s.Memory a).UniqueId ≤ (s.Memory b).UniqueId) ∧
        ((s.Context.NodeList.map (fun p => (s.Memory p).UniqueId)).Nodup →
          children.Pairwise (fun a b => (s.Memory a).UniqueId < (s.Memory b).UniqueId))) ∧
      (s.Context.TreeNewSortOrder = PH_SORT_ORDER.DescendingSortOrder →
        children.Pairwise (fun a b => (s.Memory a).UniqueId ≥ (s.Memory b).UniqueId) ∧
        ((s.Context.NodeList.map (fun p => (s.Memory p).UniqueId)).Nodup →
          children.Pairwise (fun a b => (s.Memory a).UniqueId > (s.Memory b).UniqueId))) := by
  obtain ⟨children, hchildren, -, hperm, hsorted⟩ := TreeNewGetChildren_sorted s hColumn
  have hkey : ∀ a ∈ children, ∀ b ∈ children,
      columnComparison s.Context.TreeNewSortColumn s.Context.TreeNewSortOrder
          (castToPointerWidth (s.Memory a)) (castToPointerWidth (s.Memory b))
        = applyDirection s.Context.TreeNewSortOrder
          (threeWay (s.Memory a).UniqueId (s.Memory b).UniqueId) := by
    intro a ha b hb
    have ha' := hperm.mem_iff.1 ha
    have hb' := hperm.mem_iff.1 hb
    rw [castToPointerWidth_of_wellTyped _ (hTyped a ha'),
      castToPointerWidth_of_wellTyped _ (hTyped b hb')]
    unfold columnComparison withTieBreak
    rw [primaryComparison_of_sameColumnValue _ _ _ (hTied a ha' b hb')]
    simp
  have hstrict : (s.Context.NodeList.map (fun p => (s.Memory p).UniqueId)).Nodup →
      children.Pairwise (fun a b => (s.Memory a).UniqueId ≠ (s.Memory b).UniqueId) := by
    intro hnd
    have h2 : (children.map (fun p => (s.Memory p).UniqueId)).Nodup :=
      ((hperm.map _).nodup_iff).2 hnd
    exact List.pairwise_map.1 h2
  refine ⟨children, hchildren, hperm, ?_, ?_⟩
  · intro hasc
    have hle : children.Pairwise
        (fun a b => (s.Memory a).UniqueId ≤ (s.Memory b).UniqueId) := by
      refine hsorted.imp_of_mem ?_
      intro a b ha hb h
      rw [hkey a ha b hb, hasc] at h
      exact (threeWay_nonpos _ _).1 h
    refine ⟨hle, fun hnd => ?_⟩
    exact (hle.and (hstrict hnd)).imp (fun {a b} h => lt_of_le_of_ne h.1 h.2)
  · intro hdesc
    have hge : children.Pairwise
        (fun a b => (s.Memory a).UniqueId ≥ (s.Memory b).UniqueId) := by
      refine hsorted.imp_of_mem ?_
      intro a b ha hb h
      rw [hkey a ha b hb, hdesc] at h
      simp only [applyDirection] at h
      have hswap := threeWay_swap (s.Memory a).UniqueId (s.Memory b).UniqueId
      exact (threeWay_nonpos _ _).1 (by omega)
    refine ⟨hge, fun hnd => ?_⟩
    exact (hge.and (hstrict hnd)).imp (fun {a b} h => lt_of_le_of_ne h.1 (Ne.symm h.2))

/-- C6 at a concrete store: the nameless nodes with the keys 1, 2, 3, held in the order
3, 1, 2 and sorted by Name, are handed out as 1, 2, 3. -/
theorem TreeNewGetChildren_tied_column_witness :
    ((sortExampleState PV_IMPORT_TREE_COLUMN_ITEM_NAME
        PH_SORT_ORDER.AscendingSortOrder [3, 1, 2]).Context.TreeNewSortColumn
        < PV_IMPORT_TREE_COLUMN_ITEM_MAXIMUM ∧
      (∀ p ∈ [3, 1, 2], (aliasMemory p).WellTyped) ∧
      (∀ p ∈ [3, 1, 2], ∀ q ∈ [3, 1, 2],
        sameColumnValue PV_IMPORT_TREE_COLUMN_ITEM_NAME (aliasMemory p) (aliasMemory q))) ∧
    ∃ children,
      (PvImportTreeNewCallback.TreeNewGetChildren
        (sortExampleState PV_IMPORT_TREE_COLUMN_ITEM_NAME
          PH_SORT_ORDER.AscendingSortOrder [3, 1, 2]) none).2 = some children ∧
      children.Perm [3, 1, 2] ∧
      children.Pairwise (fun a b => (aliasMemory a).UniqueId ≤ (aliasMemory b).UniqueId) :=
  ⟨⟨by decide, by decide, by decide⟩,
   (TreeNewGetChildren_tied_column
      (sortExampleState PV_IMPORT_TREE_COLUMN_ITEM_NAME
        PH_SORT_ORDER.AscendingSortOrder [3, 1, 2])
      (by decide) (by decide) (by decide)).elim
     (fun children h => ⟨children, h.1, h.2.1, (h.2.2.1 rfl).1⟩)⟩

/-- The example of the spec for the tie-break: keys 1, 2, 3 with identical primary values are
handed out as 1, 2, 3 in ascending and as 3, 2, 1 in descending order, for each of the columns
Rva, Dll, Name and Hint and from any of the arrangements tried. -/
theorem tie_break_example_keys_1_2_3 :
    ∀ Column ∈ [PV_EXPORT_TREE_COLUMN_ITEM_RVA, PV_IMPORT_TREE_COLUMN_ITEM_DLL,
        PV_IMPORT_TREE_COLUMN_ITEM_NAME, PV_IMPORT_TREE_COLUMN_ITEM_HINT],
      ∀ Nodes ∈ [[1, 2, 3], [3, 1, 2], [2, 3, 1], [3, 2, 1]],
      (PvImportTreeNewCallback.TreeNewGetChildren
        (sortExampleState Column PH_SORT_ORDER.AscendingSortOrder Nodes) none).2
          = some [1, 2, 3] ∧
      (PvImportTreeNewCallback.TreeNewGetChildren
        (sortExampleState Column PH_SORT_ORDER.DescendingSortOrder Nodes) none).2
          = some [3, 2, 1] := by
  decide

/-- C7. The get-children query with sort column Name and ascending direction hands out a
rearrangement of the nodes of NodeList (the same nodes, the same number of them) in which
no node has a name greater than the name of a later node under `PhCompareStringWithNull`; in
particular each name is less than or equal to the next one. -/
theorem TreeNewGetChildren_by_name (s : State)
    (hColumn : s.Context.TreeNewSortColumn = PV_IMPORT_TREE_COLUMN_ITEM_NAME)
    (hOrder : s.Context.TreeNewSortOrder = PH_SORT_ORDER.AscendingSortOrder) :
    ∃ children, (PvImportTreeNewCallback.TreeNewGetChildren s none).2 = some children ∧
      children.Perm s.Context.NodeList ∧
      children.length = s.Context.NodeList.length ∧
      children.Pairwise (fun a b =>
        PhCompareStringWithNull (s.Memory a).NameString (s.Memory b).NameString false ≤ 0) ∧
      children.Chain' (fun a b =>
        PhCompareStringWithNull (s.Memory a).NameString (s.Memory b).NameString false ≤ 0) := by
  obtain ⟨children, hchildren, -, hperm, hsorted⟩ :=
    TreeNewGetChildren_sorted s (by rw [hColumn]; decide)
  have hnames : children.Pairwise (fun a b =>
      PhCompareStringWithNull (s.Memory a).NameString (s.Memory b).NameString false ≤ 0) := by
    refine hsorted.imp ?_
    intro a b h
    rw [hColumn, hOrder] at h
    simp only [columnComparison, applyDirection, withTieBreak] at h
    have hp : primaryComparison PV_IMPORT_TREE_COLUMN_ITEM_NAME
        (castToPointerWidth (s.Memory a)) (castToPointerWidth (s.Memory b))
        = PhCompareStringWithNull (s.Memory a).NameString (s.Memory b).NameString false := rfl
    rw [hp] at h
    by_cases h0 : PhCompareStringWithNull (s.Memory a).NameString (s.Memory b).NameString
        false = 0
    · omega
    · rw [if_pos h0] at h; exact h
  exact ⟨children, hchildren, hperm, hperm.length_eq, hnames, hnames.chain'⟩

/-- C7 at the scenario of the spec: the nodes with the keys 10, 11, 12 named "alpha", "beta",
"gamma", held in the order 12, 10, 11, are handed out in the order 10, 11, 12. -/
theorem TreeNewGetChildren_by_name_witness :
    (scenarioState.Context.TreeNewSortColumn = PV_IMPORT_TREE_COLUMN_ITEM_NAME ∧
      scenarioState.Context.TreeNewSortOrder = PH_SORT_ORDER.AscendingSortOrder) ∧
    (PvImportTreeNewCallback.TreeNewGetChildren scenarioState none).2 = some [10, 11, 12] ∧
    ∃ children,
      (PvImportTreeNewCallback.TreeNewGetChildren scenarioState none).2 = some children ∧
      children.Perm scenarioState.Context.NodeList ∧
      children.length = scenarioState.Context.NodeList.length :=
  ⟨⟨rfl, rfl⟩, by decide,
   (TreeNewGetChildren_by_name scenarioState rfl rfl).elim
     (fun children h => ⟨children, h.1, h.2.1, h.2.2.1⟩)⟩

/-! ## The filter -/

theorem PhStartsWithStringRef_iff (Text SubString : PH_STRINGREF) :
    PhStartsWithStringRef Text SubString true = true ↔
      (SubString.map PhUpcaseUnicodeChar) <+: (Text.map PhUpcaseUnicodeChar) := by
  induction SubString generalizing Text with
  | nil => simp [PhStartsWithStringRef]
  | cons p ps ih =>
    cases Text with
    | nil => simp [PhStartsWithStringRef]
    | cons c cs =>
      simp only [PhStartsWithStringRef, if_true, Bool.and_eq_true, beq_iff_eq, List.map_cons,
        List.cons_prefix_cons, ih cs]
      constructor
      · rintro ⟨h1, h2⟩; exact ⟨h1.symm, h2⟩
      · rintro ⟨h1, h2⟩; exact ⟨h1.symm, h2⟩

theorem PhFindStringInStringRef_scan_iff (Text SubString : PH_STRINGREF) (i : Nat) :
    PhFindStringInStringRef.scan Text SubString true i ≠ none ↔
      occursIgnoringCase SubString Text := by
  unfold occursIgnoringCase
  induction Text generalizing i with
  | nil =>
    simp only [PhFindStringInStringRef.scan, List.map_nil, List.infix_nil]
    rw [← List.prefix_nil, ← List.map_nil, ← PhStartsWithStringRef_iff]
    by_cases h : PhStartsWithStringRef [] SubString true = true <;> simp [h]
  | cons c cs ih =>
    simp only [PhFindStringInStringRef.scan, List.map_cons, List.infix_cons_iff]
    rw [← ih (i + 1), ← List.map_cons, ← PhStartsWithStringRef_iff]
    by_cases h : PhStartsWithStringRef (c :: cs) SubString true = true <;> simp [h]

/-- The model of `PhFindStringInStringRef` finds a substring exactly when it occurs
case-insensitively. -/
theorem PhFindStringInStringRef_iff (Text SubString : PH_STRINGREF) :
    PhFindStringInStringRef Text SubString true ≠ none ↔ occursIgnoringCase SubString Text :=
  PhFindStringInStringRef_scan_iff Text SubString 0

theorem PhSplitStringRefAtChar_length (Input : PH_STRINGREF) (Separator : Char)
    (h : Input ≠ []) : (PhSplitStringRefAtChar Input Separator).2.2.length < Input.length := by
  have hlen : (Input.takeWhile (fun c => c != Separator)).length
      + (Input.dropWhile (fun c => c != Separator)).length = Input.length := by
    rw [← List.length_append, List.takeWhile_append_dropWhile]
  unfold PhSplitStringRefAtChar
  simp only []
  cases hd : Input.dropWhile (fun c => c != Separator) with
  | nil =>
    simp only [List.length_nil]
    exact List.length_pos.2 h
  | cons x second =>
    rw [hd, List.length_cons] at hlen
    simp only []
    omega

/-- The terms of a text: the first part found by `PhSplitStringRefAtChar`, followed by the terms
of the second part when a delimiter was found. -/
theorem filterTerms_eq (Input : PH_STRINGREF) :
    filterTerms Input =
      (PhSplitStringRefAtChar Input '|').2.1 ::
        (if (PhSplitStringRefAtChar Input '|').1 then
          filterTerms (PhSplitStringRefAtChar Input '|').2.2 else []) := by
  have happ := List.takeWhile_append_dropWhile (fun c => c != '|') Input
  have htake : ∀ x ∈ Input.takeWhile (fun c => c != '|'), ¬ (x == '|') = true := by
    intro x hx
    have := List.mem_takeWhile_imp hx
    simpa using this
  unfold PhSplitStringRefAtChar filterTerms List.splitOn
  simp only []
  cases hd : Input.dropWhile (fun c => c != '|') with
  | nil =>
    simp only [Bool.false_eq_true, if_false]
    rw [hd, List.append_nil] at happ
    rw [happ] at htake ⊢
    exact List.splitOnP_eq_single _ _ htake
  | cons x second =>
    simp only [if_true]
    have hx : (x == '|') = true := by
      have h := List.head_dropWhile_not (fun c => c != '|') Input (by rw [hd]; simp)
      simp only [hd, List.head_cons] at h
      simpa using h
    rw [hd] at happ
    conv_lhs => rw [← happ]
    exact List.splitOnP_first _ _ htake x hx second

/-- The loop of `PvImportWordMatchStringRef` ends within one test per character of the
remaining text plus one, with the answer whether a non-empty term occurs in the text. -/
theorem PvImportWordMatchStringRef_loop_eq (Text : PH_STRINGREF) (fuel : Nat)
    (remainingPart : PH_STRINGREF) (hfuel : remainingPart.length < fuel) :
    PvImportWordMatchStringRef.loop Text fuel remainingPart
      = some (decide (∃ term ∈ filterTerms remainingPart,
          term ≠ [] ∧ occursIgnoringCase term Text)) := by
  induction fuel generalizing remainingPart with
  | zero => omega
  | succ fuel ih =>
    unfold PvImportWordMatchStringRef.loop
    by_cases hrem : remainingPart = []
    · subst hrem
      simp [filterTerms, List.splitOn, List.splitOnP_nil]
    · have hlen : remainingPart.length ≠ 0 := fun h => hrem (List.length_eq_zero.1 h)
      have hshort := PhSplitStringRefAtChar_length remainingPart '|' hrem
      have hterms := filterTerms_eq remainingPart
      simp only [hlen, ne_eq, not_false_eq_true, if_true, PhFindStringInStringRef_iff]
      by_cases hhit : (PhSplitStringRefAtChar remainingPart '|').2.1.length ≠ 0 ∧
          occursIgnoringCase (PhSplitStringRefAtChar remainingPart '|').2.1 Text
      · rw [if_pos (by simpa using hhit)]
        congr 1
        symm
        rw [decide_eq_true_iff]
        refine ⟨_, ?_, fun h => hhit.1 (by rw [h]; rfl), hhit.2⟩
        rw [hterms]
        exact List.mem_cons_self _ _
      · rw [if_neg (by simpa using hhit), ih _ (by omega)]
        congr 1
        rw [decide_eq_decide]
        have hfirst : ¬ ((PhSplitStringRefAtChar remainingPart '|').2.1 ≠ [] ∧
            occursIgnoringCase (PhSplitStringRefAtChar remainingPart '|').2.1 Text) := by
          rintro ⟨h1, h2⟩
          exact hhit ⟨fun h => h1 (List.length_eq_zero.1 h), h2⟩
        constructor
        · rintro ⟨term, hmem, hne, hocc⟩
          refine ⟨term, ?_, hne, hocc⟩
          rw [hterms]
          by_cases hfound : (PhSplitStringRefAtChar remainingPart '|').1 = true
          · rw [if_pos hfound]; exact List.mem_cons_of_mem _ hmem
          · -- no delimiter: the second part is empty and has the empty term only
            exfalso
            have h2 : (PhSplitStringRefAtChar remainingPart '|').2.2 = [] := by
              unfold PhSplitStringRefAtChar at hfound ⊢
              simp only [] at hfound ⊢
              cases hd : remainingPart.dropWhile (fun c => c != '|') with
              | nil => rfl
              | cons x second => rw [hd] at hfound; simp at hfound
            rw [h2] at hmem
            simp [filterTerms, List.splitOn, List.splitOnP_nil] at hmem
            exact hne hmem
        · rintro ⟨term, hmem, hne, hocc⟩
          rw [hterms, List.mem_cons] at hmem
          rcases hmem with hmem | hmem
          · subst hmem; exact absurd ⟨hne, hocc⟩ hfirst
          · by_cases hfound : (PhSplitStringRefAtChar remainingPart '|').1 = true
            · rw [if_pos hfound] at hmem; exact ⟨term, hmem, hne, hocc⟩
            · rw [if_neg hfound] at hmem; cases hmem

/-- Function `PvImportWordMatchStringRef` answers whether some non-empty term of the search
text occurs in the text, case-insensitively. -/
theorem PvImportWordMatchStringRef_iff (Context : PV_IMPORT_CONTEXT) (Text : PH_STRINGREF) :
    PvImportWordMatchStringRef Context Text = true ↔
      ∃ term ∈ filterTerms (PhGetStringRef Context.SearchboxText),
        term ≠ [] ∧ occursIgnoringCase term Text := by
  unfold PvImportWordMatchStringRef
  simp only [PvImportWordMatchStringRef_loop_eq Text _ _ (Nat.lt_succ_self _)]
  exact decide_eq_true_iff


theorem PhIsNullOrEmptyString_iff (String1 : PPH_STRING) :
    PhIsNullOrEmptyString String1 = true ↔ PhGetStringRef String1 = [] := by
  cases String1 with
  | none => simp [PhIsNullOrEmptyString, PhGetStringRef]
  | some sr => simp [PhIsNullOrEmptyString, PhGetStringRef, List.length_eq_zero]

theorem occursIgnoringCase_nil (term : PH_STRINGREF) :
    occursIgnoringCase term [] ↔ term = [] := by
  unfold occursIgnoringCase
  simp

theorem PvImportWordMatchStringRef_nil (Context : PV_IMPORT_CONTEXT) :
    PvImportWordMatchStringRef Context [] = false := by
  rw [← Bool.not_eq_true, PvImportWordMatchStringRef_iff]
  rintro ⟨term, -, hne, hocc⟩
  exact hne ((occursIgnoringCase_nil term).1 hocc)

/-- The guard `!PhIsNullOrEmptyString(column)` does not change the answer: nothing matches an
empty column. -/
theorem guarded_match (Context : PV_IMPORT_CONTEXT) (Column : PPH_STRING) :
    (!PhIsNullOrEmptyString Column && PvImportWordMatchStringRef Context (PhGetStringRef Column))
      = PvImportWordMatchStringRef Context (PhGetStringRef Column) := by
  by_cases h : PhIsNullOrEmptyString Column = true
  · rw [(PhIsNullOrEmptyString_iff Column).1 h, PvImportWordMatchStringRef_nil]
    simp
  · simp [h]

/-- The filter callback accepts a node exactly when the search text is empty or one of the
columns the filter reads is matched. -/
theorem PvImportTreeFilterCallback_columns (node : PV_IMPORT_NODE)
    (context : PV_IMPORT_CONTEXT) :
    PvImportTreeFilterCallback node context = true ↔
      PhGetStringRef context.SearchboxText = [] ∨
      ∃ column ∈ filterColumns node, PvImportWordMatchStringRef context column = true := by
  unfold PvImportTreeFilterCallback
  simp only [guarded_match]
  by_cases hempty : PhIsNullOrEmptyString context.SearchboxText = true
  · simp [hempty, (PhIsNullOrEmptyString_iff _).1 hempty]
  · have hne : ¬ PhGetStringRef context.SearchboxText = [] :=
      fun h => hempty ((PhIsNullOrEmptyString_iff _).2 h)
    simp only [hempty, hne, false_or, Bool.false_eq_true, if_false]
    by_cases hname : PhIsNullOrEmptyString node.NameString = true
    · simp only [filterColumns, hname, ImportNameSr, Bool.not_true, Bool.false_eq_true,
        if_false, if_true, List.mem_cons, List.mem_singleton, exists_eq_or_imp,
        exists_eq_left, List.not_mem_nil, false_and, exists_false, or_false]
      by_cases h1 : PvImportWordMatchStringRef context (PhGetStringRef node.AddressString) = true
      · simp [h1]
      by_cases h2 : PvImportWordMatchStringRef context (PhGetStringRef node.DllString) = true
      · simp [h2]
      by_cases h3 : PvImportWordMatchStringRef context "(unnamed)".toList = true
      · simp [h3]
      by_cases h4 : PvImportWordMatchStringRef context (PhGetStringRef node.HintString) = true
      · simp [h4]
      simp [h1, h2, h3, h4]
    · simp only [filterColumns, hname, Bool.not_false, Bool.false_eq_true,
        if_false, if_true, List.mem_cons, List.mem_singleton, exists_eq_or_imp,
        exists_eq_left, List.not_mem_nil, false_and, exists_false, or_false]
      by_cases h1 : PvImportWordMatchStringRef context (PhGetStringRef node.AddressString) = true
      · simp [h1]
      by_cases h2 : PvImportWordMatchStringRef context (PhGetStringRef node.DllString) = true
      · simp [h2]
      by_cases h3 : PvImportWordMatchStringRef context (PhGetStringRef node.NameString) = true
      · simp [h3]
      by_cases h4 : PvImportWordMatchStringRef context (PhGetStringRef node.HintString) = true
      · simp [h4]
      simp [h1, h2, h3, h4]

/-- C8, as stated, fails at a node whose name has length zero (every other text absent) under
the filter text "unnamed": the callback accepts the node, although the filter text is not empty
and its only term occurs in none of the node's textual columns; the Name cell of that node
shows the empty text. -/
theorem PvImportTreeFilterCallback_textualColumns_counterexample :
    PvImportTreeFilterCallback emptyNameNode (searchContext "unnamed") = true ∧
    ¬ (PhGetStringRef (searchContext "unnamed").SearchboxText = [] ∨
        ∃ term ∈ filterTerms (PhGetStringRef (searchContext "unnamed").SearchboxText),
          term ≠ [] ∧ ∃ column ∈ textualColumns emptyNameNode, occursIgnoringCase term column) ∧
    PvImportTreeNewCallback.TreeNewGetCellText emptyNameNode PV_IMPORT_TREE_COLUMN_ITEM_NAME
      = some [] := by
  decide

/-- C8, amended. The filter callback accepts a node if and only if the filter text is empty, or
some non-empty term obtained by splitting the filter text at '|' occurs as a case-insensitive
substring of one of the node's textual columns (address, DLL, name, hint, unique-id text),
where the name column of a node whose name is NULL or of length zero reads "(unnamed)". With
the filter text "foo|bar" a node named "foobaz" or "xbar" is accepted and a node named "qux"
is not. -/
theorem PvImportTreeFilterCallback_iff :
    (∀ (node : PV_IMPORT_NODE) (context : PV_IMPORT_CONTEXT),
      PvImportTreeFilterCallback node context = true ↔
        PhGetStringRef context.SearchboxText = [] ∨
        ∃ term ∈ filterTerms (PhGetStringRef context.SearchboxText),
          term ≠ [] ∧ ∃ column ∈ filterColumns node, occursIgnoringCase term column) ∧
    PvImportTreeFilterCallback (exampleNode 1 (some "foobaz".toList))
      (searchContext "foo|bar") = true ∧
    PvImportTreeFilterCallback (exampleNode 2 (some "xbar".toList))
      (searchContext "foo|bar") = true ∧
    PvImportTreeFilterCallback (exampleNode 3 (some "qux".toList))
      (searchContext "foo|bar") = false := by
  refine ⟨?_, by decide, by decide, by decide⟩
  intro node context
  rw [PvImportTreeFilterCallback_columns]
  apply or_congr Iff.rfl
  constructor
  · rintro ⟨column, hcol, hmatch⟩
    obtain ⟨term, hterm, hne, hocc⟩ := (PvImportWordMatchStringRef_iff context column).1 hmatch
    exact ⟨term, hterm, hne, column, hcol, hocc⟩
  · rintro ⟨term, hterm, hne, column, hcol, hocc⟩
    exact ⟨column, hcol, (PvImportWordMatchStringRef_iff context column).2 ⟨term, hterm, hne, hocc⟩⟩


theorem occursIgnoringCase_unnamed_no_delimiter (term : PH_STRINGREF)
    (hocc : occursIgnoringCase term "(unnamed)".toList) : ∀ c ∈ term, ¬ (c == '|') = true := by
  intro c hc hdelim
  have hceq : c = '|' := by simpa using hdelim
  subst hceq
  have hmem : PhUpcaseUnicodeChar '|' ∈ term.map PhUpcaseUnicodeChar :=
    List.mem_map_of_mem _ hc
  have hsub := List.IsInfix.subset hocc hmem
  revert hsub
  decide

/-- C9. A node whose name is NULL or of length zero is filtered as if its name were the literal
"(unnamed)": under every search text the callback answers as it does for the same node carrying
that name. Hence the node is accepted whenever a non-empty term of the search text occurs
case-insensitively in "(unnamed)", in particular when the search text is such a term. The
literal is the text the Name cell shows for a node without a name. -/
theorem PvImportTreeFilterCallback_unnamed (node : PV_IMPORT_NODE)
    (hName : PhIsNullOrEmptyString node.NameString = true) :
    (∀ context : PV_IMPORT_CONTEXT,
      PvImportTreeFilterCallback node context
        = PvImportTreeFilterCallback { node with NameString := some "(unnamed)".toList }
            context) ∧
    (∀ (context : PV_IMPORT_CONTEXT) (term : PH_STRINGREF),
      term ∈ filterTerms (PhGetStringRef context.SearchboxText) → term ≠ [] →
      occursIgnoringCase term "(unnamed)".toList →
      PvImportTreeFilterCallback node context = true) ∧
    (∀ (context : PV_IMPORT_CONTEXT) (term : PH_STRINGREF),
      context.SearchboxText = some term → term ≠ [] →
      occursIgnoringCase term "(unnamed)".toList →
      PvImportTreeFilterCallback node context = true) ∧
    (node.NameString = none →
      PvImportTreeNewCallback.TreeNewGetCellText node PV_IMPORT_TREE_COLUMN_ITEM_NAME
        = some "(unnamed)".toList) := by
  have hmain : ∀ (context : PV_IMPORT_CONTEXT) (term : PH_STRINGREF),
      term ∈ filterTerms (PhGetStringRef context.SearchboxText) → term ≠ [] →
      occursIgnoringCase term "(unnamed)".toList →
      PvImportTreeFilterCallback node context = true := by
    intro context term hterm hne hocc
    rw [PvImportTreeFilterCallback_columns]
    refine Or.inr ⟨"(unnamed)".toList, ?_,
      (PvImportWordMatchStringRef_iff context _).2 ⟨term, hterm, hne, hocc⟩⟩
    simp [filterColumns, hName]
  refine ⟨?_, hmain, ?_, ?_⟩
  · intro context
    rw [Bool.eq_iff_iff, PvImportTreeFilterCallback_columns, PvImportTreeFilterCallback_columns]
    have hcols : filterColumns node
        = filterColumns { node with NameString := some "(unnamed)".toList } := by
      simp only [filterColumns, hName, if_true]
      rfl
    rw [hcols]
  · intro context term htext hne hocc
    refine hmain context term ?_ hne hocc
    rw [htext]
    unfold filterTerms List.splitOn PhGetStringRef
    rw [List.splitOnP_eq_single _ _ (occursIgnoringCase_unnamed_no_delimiter term hocc)]
    exact List.mem_singleton_self _
  · intro hnull
    simp [PvImportTreeNewCallback.TreeNewGetCellText, hnull, PV_IMPORT_TREE_COLUMN_ITEM_NAME,
      PV_IMPORT_TREE_COLUMN_ITEM_INDEX, PV_EXPORT_TREE_COLUMN_ITEM_RVA,
      PV_IMPORT_TREE_COLUMN_ITEM_DLL]

/-- C9 at concrete nodes: a node with a name of length zero is accepted under the search text
"NAME", and the Name cell of a node without a name shows "(unnamed)". -/
theorem PvImportTreeFilterCallback_unnamed_witness :
    (PhIsNullOrEmptyString emptyNameNode.NameString = true ∧
      PhIsNullOrEmptyString nullNameNode.NameString = true) ∧
    PvImportTreeFilterCallback emptyNameNode (searchContext "NAME") = true ∧
    PvImportTreeNewCallback.TreeNewGetCellText nullNameNode PV_IMPORT_TREE_COLUMN_ITEM_NAME
      = some "(unnamed)".toList :=
  ⟨⟨by decide, by decide⟩,
   (PvImportTreeFilterCallback_unnamed emptyNameNode (by decide)).2.2.1
     (searchContext "NAME") "NAME".toList rfl (by decide) (by decide),
   (PvImportTreeFilterCallback_unnamed nullNameNode (by decide)).2.2.2 rfl⟩

/-! ## The drain -/

theorem State.emit_Context (s : State) (e : EVENT) : (s.emit e).Context = s.Context := rfl

theorem State.emit_Memory (s : State) (e : EVENT) : (s.emit e).Memory = s.Memory := rfl

/-- Function `PvImportAddTreeNode` writes no field of the context but the two indices. -/
theorem PvImportAddTreeNode_Context_rest (s : State) (Entry : PPV_IMPORT_NODE) :
    (PvImportAddTreeNode s Entry).Context =
      { s.Context with
        NodeHashtable := (PvImportAddTreeNode s Entry).Context.NodeHashtable
        NodeList := (PvImportAddTreeNode s Entry).Context.NodeList } := by
  rw [PvImportAddTreeNode_Context]
  split_ifs <;> rfl

theorem PvImportAddTreeNode_foldl_Context_rest (l : List PPV_IMPORT_NODE) (s : State) :
    (l.foldl PvImportAddTreeNode s).Context =
      { s.Context with
        NodeHashtable := (l.foldl PvImportAddTreeNode s).Context.NodeHashtable
        NodeList := (l.foldl PvImportAddTreeNode s).Context.NodeList } := by
  induction l generalizing s with
  | nil => rfl
  | cons a l ih =>
    rw [List.foldl_cons, ih (PvImportAddTreeNode s a)]
    conv_lhs => rw [PvImportAddTreeNode_Context_rest s a]

theorem PvImportAddTreeNode_foldl_key (l : List PPV_IMPORT_NODE) (s : State) :
    (l.foldl PvImportAddTreeNode s).key = s.key := by
  induction l generalizing s with
  | nil => rfl
  | cons a l ih => rw [List.foldl_cons, ih, PvImportAddTreeNode_key]

/-- The loop of the drain ends within its fuel: it adds the buffered items from position `i` on,
in buffer order, and leaves `i` at the length of the buffer. -/
theorem PvAddPendingImportNodes_loop_eq (fuel : Nat) (s : State) (i : Nat) (needsFullUpdate : Bool)
    (hi : i ≤ s.Context.SearchResults.length)
    (hfuel : s.Context.SearchResults.length - i < fuel) :
    PvAddPendingImportNodes.loop fuel s i needsFullUpdate
      = some ((s.Context.SearchResults.drop i).foldl PvImportAddTreeNode s,
          s.Context.SearchResults.length,
          needsFullUpdate || decide (i < s.Context.SearchResults.length)) := by
  induction fuel generalizing s i needsFullUpdate with
  | zero => omega
  | succ fuel ih =>
    unfold PvAddPendingImportNodes.loop
    by_cases hlt : i < s.Context.SearchResults.length
    · have hbuf : (PvImportAddTreeNode s s.Context.SearchResults[i]).Context.SearchResults
          = s.Context.SearchResults := by
        rw [PvImportAddTreeNode_Context_rest]
      rw [if_pos hlt, List.getElem?_eq_getElem hlt]
      simp only []
      rw [ih _ _ _ (by rw [hbuf]; omega) (by rw [hbuf]; omega), hbuf,
        List.drop_eq_getElem_cons hlt, List.foldl_cons]
      simp [hlt]
    · have heq : i = s.Context.SearchResults.length := by omega
      rw [if_neg hlt]
      subst heq
      simp

/-- Adding, one after the other, nodes whose keys are pairwise distinct and carried by no entry
of the hash index appends them to both indices. -/
theorem PvImportAddTreeNode_foldl_distinct (l : List PPV_IMPORT_NODE) (s : State)
    (hkeys : ((s.Context.NodeHashtable ++ l).map s.key).Nodup) :
    (l.foldl PvImportAddTreeNode s).Context.NodeHashtable = s.Context.NodeHashtable ++ l ∧
    (l.foldl PvImportAddTreeNode s).Context.NodeList = s.Context.NodeList ++ l := by
  induction l generalizing s with
  | nil => simp
  | cons a l ih =>
    have hnot : ¬ s.Context.NodeHashtable.any (fun e => s.key e == s.key a) = true := by
      rw [List.any_eq_true]
      rintro ⟨e, he, hk⟩
      rw [List.map_append, List.nodup_append] at hkeys
      exact hkeys.2.2 (List.mem_map_of_mem _ he)
        (by rw [beq_iff_eq] at hk; rw [hk]; exact List.mem_map_of_mem _ (List.mem_cons_self _ _))
    have hctx := PvImportAddTreeNode_Context s a
    rw [if_neg hnot] at hctx
    have h1 : (PvImportAddTreeNode s a).Context.NodeHashtable = s.Context.NodeHashtable ++ [a] := by
      rw [hctx]
    have h2 : (PvImportAddTreeNode s a).Context.NodeList = s.Context.NodeList ++ [a] := by
      rw [hctx]
    have hkeys' : (((PvImportAddTreeNode s a).Context.NodeHashtable ++ l).map
        (PvImportAddTreeNode s a).key).Nodup := by
      rw [PvImportAddTreeNode_key, h1, List.append_assoc]
      exact hkeys
    obtain ⟨i1, i2⟩ := ih (PvImportAddTreeNode s a) hkeys'
    rw [List.foldl_cons, i1, i2, h1, h2]
    simp

/-- What one drain does to the context, whatever the keys are: the buffered items from the
watermark on are added in buffer order, and the watermark moves to the length of the buffer. -/
theorem PvAddPendingImportNodes_eq (s : State)
    (hd : s.Context.SearchResultsAddIndex ≤ s.Context.SearchResults.length) :
    ∃ s', PvAddPendingImportNodes s = some s' ∧
      s'.Memory = ((s.Context.SearchResults.drop s.Context.SearchResultsAddIndex).foldl
          PvImportAddTreeNode (s.emit (EVENT.TreeNew_SetRedraw false))).Memory ∧
      s'.Context =
        { ((s.Context.SearchResults.drop s.Context.SearchResultsAddIndex).foldl
            PvImportAddTreeNode (s.emit (EVENT.TreeNew_SetRedraw false))).Context with
          SearchResultsAddIndex := s.Context.SearchResults.length } := by
  unfold PvAddPendingImportNodes
  simp only [State.emit_Context]
  rw [PvAddPendingImportNodes_loop_eq _ (s.emit (EVENT.TreeNew_SetRedraw false))
    s.Context.SearchResultsAddIndex false hd (by rw [State.emit_Context]; omega)]
  simp only [State.emit_Context]
  refine ⟨_, rfl, ?_, ?_⟩
  · split_ifs <;> rfl
  · split_ifs <;> rfl


/-- When the watermark d is at most the length n of the buffer and the keys of the entries of
the hash index and of the buffered nodes at the positions [d, n) are pairwise distinct, one
drain returns, appends the buffered nodes at the positions [d, n) to the node list and to the
hash index, after the nodes already there and in buffer order, leaves the buffer unchanged and
sets the watermark to n. -/
theorem PvAddPendingImportNodes_distinct (s : State)
    (hd : s.Context.SearchResultsAddIndex ≤ s.Context.SearchResults.length)
    (hkeys : ((s.Context.NodeHashtable
        ++ s.Context.SearchResults.drop s.Context.SearchResultsAddIndex).map
          (fun p => (s.Memory p).UniqueId)).Nodup) :
    ∃ s', PvAddPendingImportNodes s = some s' ∧
      s'.Context.NodeList = s.Context.NodeList
        ++ s.Context.SearchResults.drop s.Context.SearchResultsAddIndex ∧
      s'.Context.NodeHashtable = s.Context.NodeHashtable
        ++ s.Context.SearchResults.drop s.Context.SearchResultsAddIndex ∧
      s'.Context.SearchResults = s.Context.SearchResults ∧
      s'.Context.SearchResultsAddIndex = s.Context.SearchResults.length := by
  obtain ⟨s', hs', -, hctx⟩ := PvAddPendingImportNodes_eq s hd
  have hfold := PvImportAddTreeNode_foldl_distinct
    (s.Context.SearchResults.drop s.Context.SearchResultsAddIndex)
    (s.emit (EVENT.TreeNew_SetRedraw false)) hkeys
  have hrest := PvImportAddTreeNode_foldl_Context_rest
    (s.Context.SearchResults.drop s.Context.SearchResultsAddIndex)
    (s.emit (EVENT.TreeNew_SetRedraw false))
  refine ⟨s', hs', ?_, ?_, ?_, ?_⟩
  · rw [hctx]; exact hfold.2
  · rw [hctx]; exact hfold.1
  · rw [hctx, hrest]; rfl
  · rw [hctx]

/-! ## The drain, for every watermark -/

theorem State.emit_Log (s : State) (e : EVENT) : (s.emit e).Log = s.Log ++ [e] := rfl

theorem State.emit_Freed (s : State) (e : EVENT) : (s.emit e).Freed = s.Freed := rfl

theorem PvImportAddTreeNode_Log_Freed (s : State) (Entry : PPV_IMPORT_NODE) :
    (PvImportAddTreeNode s Entry).Log = s.Log ∧ (PvImportAddTreeNode s Entry).Freed = s.Freed := by
  unfold PvImportAddTreeNode
  simp only []
  split_ifs <;> exact ⟨rfl, rfl⟩

theorem PvImportAddTreeNode_foldl_Log_Freed (l : List PPV_IMPORT_NODE) (s : State) :
    (l.foldl PvImportAddTreeNode s).Log = s.Log ∧
    (l.foldl PvImportAddTreeNode s).Freed = s.Freed := by
  induction l generalizing s with
  | nil => exact ⟨rfl, rfl⟩
  | cons a l ih =>
    rw [List.foldl_cons]
    obtain ⟨h1, h2⟩ := ih (PvImportAddTreeNode s a)
    obtain ⟨h3, h4⟩ := PvImportAddTreeNode_Log_Freed s a
    exact ⟨h1.trans h3, h2.trans h4⟩

/-- Function `PvImportAddTreeNode` reads the heap and the context only. -/
theorem PvImportAddTreeNode_congr (s1 s : State) (Entry : PPV_IMPORT_NODE)
    (hMemory : s1.Memory = s.Memory) (hContext : s1.Context = s.Context) :
    (PvImportAddTreeNode s1 Entry).Memory = (PvImportAddTreeNode s Entry).Memory ∧
    (PvImportAddTreeNode s1 Entry).Context = (PvImportAddTreeNode s Entry).Context := by
  cases s1
  cases s
  simp only at hMemory hContext
  subst hMemory
  subst hContext
  simp only [PvImportAddTreeNode, State.write]
  split_ifs <;> exact ⟨rfl, rfl⟩

theorem PvImportAddTreeNode_foldl_congr (l : List PPV_IMPORT_NODE) (s1 s : State)
    (hMemory : s1.Memory = s.Memory) (hContext : s1.Context = s.Context) :
    (l.foldl PvImportAddTreeNode s1).Memory = (l.foldl PvImportAddTreeNode s).Memory ∧
    (l.foldl PvImportAddTreeNode s1).Context = (l.foldl PvImportAddTreeNode s).Context := by
  induction l generalizing s1 s with
  | nil => exact ⟨hMemory, hContext⟩
  | cons a l ih =>
    rw [List.foldl_cons, List.foldl_cons]
    exact ih _ _ (PvImportAddTreeNode_congr s1 s a hMemory hContext).1
      (PvImportAddTreeNode_congr s1 s a hMemory hContext).2

/-- The loop of the drain started at or past the end of the buffer does nothing. -/
theorem PvAddPendingImportNodes_loop_past (fuel : Nat) (s : State) (i : Nat)
    (needsFullUpdate : Bool) (hi : s.Context.SearchResults.length ≤ i) :
    PvAddPendingImportNodes.loop (fuel + 1) s i needsFullUpdate = some (s, i, needsFullUpdate) := by
  unfold PvAddPendingImportNodes.loop
  rw [if_neg (by omega)]

/-- One drain, for every state: it returns; the buffered items from the watermark on are added
in buffer order; the watermark ends at the length of the buffer, or stays where it was when it
lay past it; the tree is told that its nodes were restructured exactly when the watermark lay
before the end of the buffer. -/
theorem PvAddPendingImportNodes_spec (s : State) :
    ∃ s', PvAddPendingImportNodes s = some s' ∧
      s'.Memory = ((s.Context.SearchResults.drop s.Context.SearchResultsAddIndex).foldl
          PvImportAddTreeNode s).Memory ∧
      s'.Context =
        { ((s.Context.SearchResults.drop s.Context.SearchResultsAddIndex).foldl
            PvImportAddTreeNode s).Context with
          SearchResultsAddIndex :=
            max s.Context.SearchResultsAddIndex s.Context.SearchResults.length } ∧
      s'.Log = s.Log ++ [EVENT.TreeNew_SetRedraw false]
        ++ (if s.Context.SearchResultsAddIndex < s.Context.SearchResults.length
            then [EVENT.TreeNew_NodesStructured] else [])
        ++ [EVENT.TreeNew_SetRedraw true] ∧
      s'.Freed = s.Freed := by
  have hm := PvImportAddTreeNode_foldl_congr
    (s.Context.SearchResults.drop s.Context.SearchResultsAddIndex)
    (s.emit (EVENT.TreeNew_SetRedraw false)) s rfl rfl
  by_cases hd : s.Context.SearchResultsAddIndex ≤ s.Context.SearchResults.length
  · unfold PvAddPendingImportNodes
    simp only [State.emit_Context]
    rw [PvAddPendingImportNodes_loop_eq _ (s.emit (EVENT.TreeNew_SetRedraw false))
      s.Context.SearchResultsAddIndex false hd (by rw [State.emit_Context]; omega)]
    simp only [State.emit_Context, Bool.false_or]
    have hlog := (PvImportAddTreeNode_foldl_Log_Freed
      (s.Context.SearchResults.drop s.Context.SearchResultsAddIndex)
      (s.emit (EVENT.TreeNew_SetRedraw false)))
    by_cases hlt : s.Context.SearchResultsAddIndex < s.Context.SearchResults.length
    · refine ⟨_, rfl, ?_, ?_, ?_, ?_⟩
      · simp only [hlt, decide_True, if_true, State.emit_Memory]; exact hm.1
      · simp only [hlt, decide_True, if_true, State.emit_Context, hm.2, max_eq_right hd]
      · simp only [hlt, decide_True, if_true, State.emit_Log, hlog.1]
      · simp only [hlt, decide_True, if_true, State.emit_Freed, hlog.2]
    · refine ⟨_, rfl, ?_, ?_, ?_, ?_⟩
      · simp only [hlt, decide_False, Bool.false_eq_true, if_false, State.emit_Memory]; exact hm.1
      · simp only [hlt, decide_False, Bool.false_eq_true, if_false, State.emit_Context, hm.2,
          max_eq_right hd]
      · simp only [hlt, decide_False, Bool.false_eq_true, if_false, State.emit_Log, hlog.1,
          List.append_nil]
      · simp only [hlt, decide_False, Bool.false_eq_true, if_false, State.emit_Freed, hlog.2]
  · have hgt : s.Context.SearchResults.length ≤ s.Context.SearchResultsAddIndex := by omega
    have hnlt : ¬ s.Context.SearchResultsAddIndex < s.Context.SearchResults.length := by omega
    unfold PvAddPendingImportNodes
    simp only [State.emit_Context]
    rw [PvAddPendingImportNodes_loop_past _ (s.emit (EVENT.TreeNew_SetRedraw false)) _ _
      (by rw [State.emit_Context]; exact hgt)]
    rw [List.drop_eq_nil_of_le hgt]
    simp only [Bool.false_eq_true, if_false, List.foldl_nil, hnlt, List.append_nil]
    refine ⟨_, rfl, rfl, ?_, rfl, rfl⟩
    simp only [State.emit_Context, max_eq_left hgt]


/-- C11. Draining is idempotent: for every state both of two drains in a row return, and the
second leaves the context (store, buffer and watermark), the heap and the released addresses
exactly as the first left them. After the appending of the records A, B, C (addresses 1, 2, 3)
and two drains the node list and the hash index hold each of them once. -/
theorem PvAddPendingImportNodes_idempotent :
    (∀ s : State, ∃ s1 s2,
      PvAddPendingImportNodes s = some s1 ∧ PvAddPendingImportNodes s1 = some s2 ∧
      s2.Context = s1.Context ∧ s2.Memory = s1.Memory ∧ s2.Freed = s1.Freed) ∧
    ((PvAddPendingImportNodes threeAppendedState).bind PvAddPendingImportNodes).map
        (fun s => (s.Context.NodeList, s.Context.NodeHashtable, s.Context.SearchResultsAddIndex))
      = some ([1, 2, 3], [1, 2, 3], 3) ∧
    (PvAddPendingImportNodes threeAppendedState).map
        (fun s => (s.Context.NodeList, s.Context.NodeHashtable, s.Context.SearchResultsAddIndex))
      = some ([1, 2, 3], [1, 2, 3], 3) := by
  refine ⟨?_, by decide, by decide⟩
  intro s
  obtain ⟨s1, h1, -, hctx1, -, -⟩ := PvAddPendingImportNodes_spec s
  obtain ⟨s2, h2, hmem2, hctx2, -, hfreed2⟩ := PvAddPendingImportNodes_spec s1
  have hbuf : s1.Context.SearchResults = s.Context.SearchResults := by
    rw [hctx1, PvImportAddTreeNode_foldl_Context_rest]
  have hidx : s1.Context.SearchResultsAddIndex
      = max s.Context.SearchResultsAddIndex s.Context.SearchResults.length := by
    rw [hctx1]
  have hpast : s1.Context.SearchResults.length ≤ s1.Context.SearchResultsAddIndex := by
    rw [hbuf, hidx]; exact le_max_right _ _
  rw [List.drop_eq_nil_of_le hpast, List.foldl_nil] at hmem2 hctx2
  refine ⟨s1, s2, h1, h2, ?_, hmem2, hfreed2⟩
  rw [hctx2, max_eq_left hpast]

/-! ## The population pipeline -/

theorem samePayload_refl (a : PV_IMPORT_NODE) : samePayload a a :=
  ⟨rfl, rfl, rfl, rfl, rfl, rfl, rfl, rfl⟩

theorem samePayload_trans {a b c : PV_IMPORT_NODE} (h1 : samePayload a b)
    (h2 : samePayload b c) : samePayload a c := by
  obtain ⟨a1, a2, a3, a4, a5, a6, a7, a8⟩ := h1
  obtain ⟨b1, b2, b3, b4, b5, b6, b7, b8⟩ := h2
  exact ⟨a1.trans b1, a2.trans b2, a3.trans b3, a4.trans b4, a5.trans b5, a6.trans b6,
    a7.trans b7, a8.trans b8⟩

/-- Function `PvImportAddTreeNode` writes the tree-new header and the text cache only: the
record of every node stays. -/
theorem PvImportAddTreeNode_samePayload (s : State) (Entry p : PPV_IMPORT_NODE) :
    samePayload ((PvImportAddTreeNode s Entry).Memory p) (s.Memory p) := by
  unfold PvImportAddTreeNode
  simp only []
  split_ifs <;> by_cases hp : p = Entry <;>
    simp [State.write_Memory, hp, samePayload]

theorem PvImportAddTreeNode_foldl_samePayload (l : List PPV_IMPORT_NODE) (s : State)
    (p : PPV_IMPORT_NODE) :
    samePayload ((l.foldl PvImportAddTreeNode s).Memory p) (s.Memory p) := by
  induction l generalizing s with
  | nil => exact samePayload_refl _
  | cons a l ih =>
    rw [List.foldl_cons]
    exact samePayload_trans (ih (PvImportAddTreeNode s a)) (PvImportAddTreeNode_samePayload s a p)

/-- The keys of the buffered nodes are those of the appended records. -/
theorem PipelineInvariant_keys (s : State) (appended : List (PPV_IMPORT_NODE × PV_IMPORT_NODE))
    (h : PipelineInvariant s appended) :
    s.Context.SearchResults.map s.key = appended.map (fun a => a.2.UniqueId) := by
  rw [h.1, List.map_map]
  apply List.map_congr_left
  intro a ha
  exact (h.2.2.2.2 a ha).1

/-- One drain keeps the invariant of the pipeline and moves the watermark to the end of the
buffer, when the keys of the appended records are pairwise distinct. -/
theorem PipelineInvariant_drain (s : State) (appended : List (PPV_IMPORT_NODE × PV_IMPORT_NODE))
    (h : PipelineInvariant s appended)
    (hKeys : (appended.map (fun a => a.2.UniqueId)).Nodup) :
    ∃ s', PvAddPendingImportNodes s = some s' ∧ PipelineInvariant s' appended ∧
      s'.Context.SearchResultsAddIndex = s'.Context.SearchResults.length ∧
      s.Context.SearchResultsAddIndex ≤ s'.Context.SearchResultsAddIndex ∧
      s'.Context.UpdateTimerHandle = s.Context.UpdateTimerHandle := by
  obtain ⟨s', hs', hmem, hctx, -, -⟩ := PvAddPendingImportNodes_spec s
  obtain ⟨hbuf, hd, hlist, htable, hpay⟩ := h
  have hrest := PvImportAddTreeNode_foldl_Context_rest
    (s.Context.SearchResults.drop s.Context.SearchResultsAddIndex) s
  have hdistinct : ((s.Context.NodeHashtable
      ++ s.Context.SearchResults.drop s.Context.SearchResultsAddIndex).map s.key).Nodup := by
    rw [htable, List.take_append_drop, PipelineInvariant_keys s appended ⟨hbuf, hd, hlist, htable, hpay⟩]
    exact hKeys
  have hfold := PvImportAddTreeNode_foldl_distinct
    (s.Context.SearchResults.drop s.Context.SearchResultsAddIndex) s hdistinct
  have hbuf' : s'.Context.SearchResults = s.Context.SearchResults := by
    rw [hctx, hrest]
  have hidx' : s'.Context.SearchResultsAddIndex = s.Context.SearchResults.length := by
    rw [hctx]; exact max_eq_right hd
  have hlist' : s'.Context.NodeList = s.Context.SearchResults := by
    rw [hctx]
    show (List.foldl PvImportAddTreeNode s _).Context.NodeList = _
    rw [hfold.2, hlist, List.take_append_drop]
  have htable' : s'.Context.NodeHashtable = s.Context.SearchResults := by
    rw [hctx]
    show (List.foldl PvImportAddTreeNode s _).Context.NodeHashtable = _
    rw [hfold.1, htable, List.take_append_drop]
  have hhandle : s'.Context.UpdateTimerHandle = s.Context.UpdateTimerHandle := by
    rw [hctx, hrest]
  refine ⟨s', hs', ⟨?_, ?_, ?_, ?_, ?_⟩, ?_, ?_, hhandle⟩
  · rw [hbuf', hbuf]
  · rw [hbuf', hidx']
  · rw [hlist', hbuf', hidx', List.take_length]
  · rw [htable', hbuf', hidx', List.take_length]
  · intro a ha
    rw [hmem]
    exact samePayload_trans (PvImportAddTreeNode_foldl_samePayload _ s a.1) (hpay a ha)
  · rw [hbuf', hidx']
  · rw [hidx']; exact hd

/-- The appending of a node at a new address keeps the invariant of the pipeline. -/
theorem PipelineInvariant_append (s : State) (appended : List (PPV_IMPORT_NODE × PV_IMPORT_NODE))
    (importNode : PPV_IMPORT_NODE) (node : PV_IMPORT_NODE)
    (h : PipelineInvariant s appended)
    (hNew : importNode ∉ appended.map Prod.fst) :
    PipelineInvariant (PvpProcessImports.append (s.write importNode node) importNode)
      (appended ++ [(importNode, node)]) := by
  obtain ⟨hbuf, hd, hlist, htable, hpay⟩ := h
  unfold PipelineInvariant PvpProcessImports.append PhAddItemList
  simp only [State.write_Context]
  refine ⟨?_, ?_, ?_, ?_, ?_⟩
  · rw [hbuf]; simp
  · rw [List.length_append]; omega
  · rw [List.take_append_of_le_length hd]; exact hlist
  · rw [List.take_append_of_le_length hd]; exact htable
  · intro a ha
    rw [List.mem_append, List.mem_singleton] at ha
    rcases ha with ha | ha
    · have hne : a.1 ≠ importNode := fun heq =>
        hNew (heq ▸ List.mem_map_of_mem Prod.fst ha)
      show samePayload ((s.write importNode node).Memory a.1) a.2
      rw [State.write_Memory, if_neg hne]
      exact hpay a ha
    · subst ha
      show samePayload ((s.write importNode node).Memory importNode) node
      rw [State.write_Memory, if_pos rfl]
      exact samePayload_refl _

/-- Every step of the pipeline returns, keeps the invariant and does not move the watermark
back. -/
theorem PipelineInvariant_step (s : State) (appended : List (PPV_IMPORT_NODE × PV_IMPORT_NODE))
    (step : PIPELINE_STEP) (h : PipelineInvariant s appended)
    (hAddr : ((appended ++ appendedNodes [step]).map Prod.fst).Nodup)
    (hKeys : ((appended ++ appendedNodes [step]).map (fun a => a.2.UniqueId)).Nodup) :
    ∃ s', pipelineStep s step = some s' ∧
      PipelineInvariant s' (appended ++ appendedNodes [step]) ∧
      s.Context.SearchResultsAddIndex ≤ s'.Context.SearchResultsAddIndex := by
  cases step with
  | WorkerAppend importNode node =>
    refine ⟨_, rfl, ?_, le_refl _⟩
    apply PipelineInvariant_append s appended importNode node h
    simp only [appendedNodes, List.map_append, List.map_cons, List.map_nil] at hAddr
    rw [List.nodup_append] at hAddr
    intro hmem
    exact hAddr.2.2 hmem (List.mem_singleton_self _)
  | TimerDrain =>
    simp only [appendedNodes, List.append_nil] at hKeys ⊢
    unfold pipelineStep PvImportTreeUpdateCallback
    cases hh : s.Context.UpdateTimerHandle with
    | none => exact ⟨s, rfl, h, le_refl _⟩
    | some timer =>
      obtain ⟨s', hs', hinv, -, hle, -⟩ := PipelineInvariant_drain s appended h hKeys
      simp only [hs']
      exact ⟨_, rfl, hinv, hle⟩

theorem appendedNodes_cons (step : PIPELINE_STEP) (steps : List PIPELINE_STEP) :
    appendedNodes (step :: steps) = appendedNodes [step] ++ appendedNodes steps := by
  cases step <;> simp [appendedNodes]

/-- Every sequence of steps returns and keeps the invariant of the pipeline. -/
theorem PipelineInvariant_run (steps : List PIPELINE_STEP) (s : State)
    (appended : List (PPV_IMPORT_NODE × PV_IMPORT_NODE)) (h : PipelineInvariant s appended)
    (hAddr : ((appended ++ appendedNodes steps).map Prod.fst).Nodup)
    (hKeys : ((appended ++ appendedNodes steps).map (fun a => a.2.UniqueId)).Nodup) :
    ∃ s', pipelineRun s steps = some s' ∧
      PipelineInvariant s' (appended ++ appendedNodes steps) ∧
      s.Context.SearchResultsAddIndex ≤ s'.Context.SearchResultsAddIndex := by
  induction steps generalizing s appended with
  | nil =>
    simp only [appendedNodes, List.append_nil]
    exact ⟨s, rfl, h, le_refl _⟩
  | cons step steps ih =>
    rw [appendedNodes_cons, ← List.append_assoc] at hAddr hKeys ⊢
    have hAddr1 : ((appended ++ appendedNodes [step]).map Prod.fst).Nodup := by
      rw [List.map_append] at hAddr
      exact (List.nodup_append.1 hAddr).1
    have hKeys1 : ((appended ++ appendedNodes [step]).map (fun a => a.2.UniqueId)).Nodup := by
      rw [List.map_append] at hKeys
      exact (List.nodup_append.1 hKeys).1
    obtain ⟨s1, hs1, hinv1, hle1⟩ := PipelineInvariant_step s appended step h hAddr1 hKeys1
    obtain ⟨s2, hs2, hinv2, hle2⟩ := ih s1 _ hinv1 hAddr hKeys
    refine ⟨s2, ?_, hinv2, le_trans hle1 hle2⟩
    simp only [pipelineRun, hs1, hs2]

theorem PipelineInvariant_of_empty (s : State) (h : PipelineEmpty s) : PipelineInvariant s [] := by
  obtain ⟨h1, h2, h3, h4⟩ := h
  refine ⟨by rw [h1]; rfl, by rw [h2]; exact Nat.zero_le _, ?_, ?_, ?_⟩
  · rw [h4, h1, List.take_nil]
  · rw [h3, h1, List.take_nil]
  · intro a ha; cases ha

theorem PipelineInvariant_deleteTimer (s : State)
    (appended : List (PPV_IMPORT_NODE × PV_IMPORT_NODE)) (h : PipelineInvariant s appended) :
    PipelineInvariant (PvpPeImportsDlgProc.deleteTimer s) appended := by
  unfold PvpPeImportsDlgProc.deleteTimer
  cases s.Context.UpdateTimerHandle with
  | none => exact h
  | some timer => exact h


/-- C12. No loss: from an empty pipeline and store, every interleaving of atomic worker appends
and timer drains returns, and the final drain of the completion handler leaves in the node list
and in the hash index exactly the appended nodes, each once and in the order of appending,
each still carrying its record; their number is the number of appended records. The appended
nodes lie at pairwise distinct addresses and carry pairwise distinct keys. -/
theorem pipeline_no_loss (s0 : State) (steps : List PIPELINE_STEP)
    (hEmpty : PipelineEmpty s0)
    (hAddr : ((appendedNodes steps).map Prod.fst).Nodup)
    (hKeys : ((appendedNodes steps).map (fun a => a.2.UniqueId)).Nodup) :
    ∃ s1 s2, pipelineRun s0 steps = some s1 ∧
      PvpPeImportsDlgProc.WM_PV_SEARCH_FINISHED s1 = some s2 ∧
      s2.Context.NodeList = (appendedNodes steps).map Prod.fst ∧
      s2.Context.NodeHashtable = (appendedNodes steps).map Prod.fst ∧
      s2.Context.NodeList.Nodup ∧
      s2.Context.NodeList.length = (appendedNodes steps).length ∧
      (∀ a ∈ appendedNodes steps, samePayload (s2.Memory a.1) a.2) := by
  obtain ⟨s1, hs1, hinv1, -⟩ := PipelineInvariant_run steps s0 []
    (PipelineInvariant_of_empty s0 hEmpty) (by simpa using hAddr) (by simpa using hKeys)
  rw [List.nil_append] at hinv1
  obtain ⟨s2, hs2, hinv2, hfull, -, -⟩ := PipelineInvariant_drain _ _
    (PipelineInvariant_deleteTimer s1 _ hinv1) hKeys
  obtain ⟨hbuf, -, hlist, htable, hpay⟩ := hinv2
  have hlist2 : s2.Context.NodeList = (appendedNodes steps).map Prod.fst := by
    rw [hlist, hfull, List.take_length, hbuf]
  refine ⟨s1, s2.emit (EVENT.TreeNew_SetEmptyText EmptyImportsText), hs1, ?_, hlist2, ?_, ?_, ?_,
    hpay⟩
  · unfold PvpPeImportsDlgProc.WM_PV_SEARCH_FINISHED
    rw [hs2]
  · show s2.Context.NodeHashtable = _
    rw [htable, hfull, List.take_length, hbuf]
  · show s2.Context.NodeList.Nodup
    rw [hlist2]; exact hAddr
  · show s2.Context.NodeList.length = _
    rw [hlist2, List.length_map]

/-- C12 at a concrete interleaving: the four appended nodes are in the store after the final
drain. -/
theorem pipeline_no_loss_witness :
    (PipelineEmpty (exampleState aliasMemory exampleContext) ∧
      ((appendedNodes exampleInterleaving).map Prod.fst).Nodup ∧
      ((appendedNodes exampleInterleaving).map (fun a => a.2.UniqueId)).Nodup) ∧
    ∃ s1 s2, pipelineRun (exampleState aliasMemory exampleContext) exampleInterleaving = some s1 ∧
      PvpPeImportsDlgProc.WM_PV_SEARCH_FINISHED s1 = some s2 ∧
      s2.Context.NodeList = [10, 20, 30, 40] :=
  ⟨⟨by decide, by decide, by decide⟩,
   (pipeline_no_loss (exampleState aliasMemory exampleContext) exampleInterleaving
      (by decide) (by decide) (by decide)).elim
     (fun s1 h1 => h1.elim (fun s2 h2 => ⟨s1, s2, h2.1, h2.2.1, h2.2.2.1.trans (by decide)⟩))⟩

/-- A drain sends TreeNew_NodesStructured (once, between the two redraw messages) exactly when
at least one buffered node lay at or past the watermark and so was handed to
`PvImportAddTreeNode`. A drain that finds no node past the watermark sends no such signal and
leaves both indices as they were; a drain that changes the node list or the hash index sends
the signal. -/
theorem PvAddPendingImportNodes_signal_iff (s : State) :
    ∃ s' signals, PvAddPendingImportNodes s = some s' ∧
      s'.Log = s.Log ++ signals ∧
      (EVENT.TreeNew_NodesStructured ∈ signals ↔
        s.Context.SearchResultsAddIndex < s.Context.SearchResults.length) ∧
      signals.count EVENT.TreeNew_NodesStructured ≤ 1 ∧
      (¬ s.Context.SearchResultsAddIndex < s.Context.SearchResults.length →
        EVENT.TreeNew_NodesStructured ∉ signals ∧
        s'.Context.NodeList = s.Context.NodeList ∧
        s'.Context.NodeHashtable = s.Context.NodeHashtable) ∧
      ((s'.Context.NodeList ≠ s.Context.NodeList ∨
          s'.Context.NodeHashtable ≠ s.Context.NodeHashtable) →
        EVENT.TreeNew_NodesStructured ∈ signals) := by
  obtain ⟨s', hs', -, hctx, hlog, -⟩ := PvAddPendingImportNodes_spec s
  have hsame : ¬ s.Context.SearchResultsAddIndex < s.Context.SearchResults.length →
      s'.Context.NodeList = s.Context.NodeList ∧
      s'.Context.NodeHashtable = s.Context.NodeHashtable := by
    intro hnlt
    rw [hctx, List.drop_eq_nil_of_le (by omega)]
    exact ⟨rfl, rfl⟩
  by_cases hlt : s.Context.SearchResultsAddIndex < s.Context.SearchResults.length
  · refine ⟨s', [EVENT.TreeNew_SetRedraw false, EVENT.TreeNew_NodesStructured,
      EVENT.TreeNew_SetRedraw true], hs', ?_, ?_, by decide, fun h => absurd hlt h, ?_⟩
    · rw [hlog, if_pos hlt]; simp
    · exact ⟨fun _ => hlt, fun _ => by decide⟩
    · intro _; decide
  · refine ⟨s', [EVENT.TreeNew_SetRedraw false, EVENT.TreeNew_SetRedraw true], hs', ?_, ?_,
      by decide, fun _ => ⟨by decide, hsame hlt⟩, ?_⟩
    · rw [hlog, if_neg hlt]; simp
    · exact ⟨fun h => absurd h (by decide), fun h => absurd h hlt⟩
    · rintro (h | h)
      · exact absurd (hsame hlt).1 h
      · exact absurd (hsame hlt).2 h

/-- C14. The watermark invariant: from an empty buffer with the watermark 0 (more generally,
from a state whose watermark is at most the length of its buffer), every sequence of worker
appends and timer drains returns and ends in a state whose watermark is at most the length of
the buffer; and in every state every step returns and leaves the watermark where it was or
further on. -/
theorem watermark_invariant (s0 : State) (steps : List PIPELINE_STEP)
    (hStart : s0.Context.SearchResultsAddIndex ≤ s0.Context.SearchResults.length) :
    (∃ s, pipelineRun s0 steps = some s ∧
      s.Context.SearchResultsAddIndex ≤ s.Context.SearchResults.length) ∧
    (∀ (s : State) (step : PIPELINE_STEP), ∃ s', pipelineStep s step = some s' ∧
      s.Context.SearchResultsAddIndex ≤ s'.Context.SearchResultsAddIndex) := by
  have hstep : ∀ (s : State) (step : PIPELINE_STEP), ∃ s', pipelineStep s step = some s' ∧
      s.Context.SearchResultsAddIndex ≤ s'.Context.SearchResultsAddIndex ∧
      (s.Context.SearchResultsAddIndex ≤ s.Context.SearchResults.length →
        s'.Context.SearchResultsAddIndex ≤ s'.Context.SearchResults.length) := by
    intro s step
    cases step with
    | WorkerAppend importNode node =>
      refine ⟨_, rfl, le_refl _, ?_⟩
      intro h
      show s.Context.SearchResultsAddIndex ≤ (s.Context.SearchResults ++ [importNode]).length
      rw [List.length_append]; omega
    | TimerDrain =>
      unfold pipelineStep PvImportTreeUpdateCallback
      cases hh : s.Context.UpdateTimerHandle with
      | none => exact ⟨s, rfl, le_refl _, fun h => h⟩
      | some timer =>
        obtain ⟨s', hs', -, hctx, -, -⟩ := PvAddPendingImportNodes_spec s
        have hbuf : s'.Context.SearchResults = s.Context.SearchResults := by
          rw [hctx, PvImportAddTreeNode_foldl_Context_rest]
        have hidx : s'.Context.SearchResultsAddIndex
            = max s.Context.SearchResultsAddIndex s.Context.SearchResults.length := by
          rw [hctx]
        simp only [hs']
        refine ⟨_, rfl, ?_, ?_⟩
        · show _ ≤ s'.Context.SearchResultsAddIndex
          rw [hidx]; exact le_max_left _ _
        · intro h
          show s'.Context.SearchResultsAddIndex ≤ s'.Context.SearchResults.length
          rw [hidx, hbuf, max_eq_right h]
  refine ⟨?_, fun s step => (hstep s step).elim (fun s' h => ⟨s', h.1, h.2.1⟩)⟩
  have hrun : ∀ (steps : List PIPELINE_STEP) (s : State),
      s.Context.SearchResultsAddIndex ≤ s.Context.SearchResults.length →
      ∃ s', pipelineRun s steps = some s' ∧
        s'.Context.SearchResultsAddIndex ≤ s'.Context.SearchResults.length := by
    intro steps
    induction steps with
    | nil => intro s h; exact ⟨s, rfl, h⟩
    | cons step steps ih =>
      intro s h
      obtain ⟨s1, hs1, -, hkeep⟩ := hstep s step
      obtain ⟨s2, hs2, hle⟩ := ih s1 (hkeep h)
      refine ⟨s2, ?_, hle⟩
      simp only [pipelineRun, hs1, hs2]
  exact hrun steps s0 hStart

/-- C14 at the concrete interleaving: the run ends with the watermark 3 and four buffered
nodes. -/
theorem watermark_invariant_witness :
    ((exampleState aliasMemory exampleContext).Context.SearchResults = [] ∧
      (exampleState aliasMemory exampleContext).Context.SearchResultsAddIndex = 0 ∧
      (exampleState aliasMemory exampleContext).Context.SearchResultsAddIndex
        ≤ (exampleState aliasMemory exampleContext).Context.SearchResults.length) ∧
    (pipelineRun (exampleState aliasMemory exampleContext) exampleInterleaving).map
        (fun s => (s.Context.SearchResultsAddIndex, s.Context.SearchResults.length))
      = some (3, 4) ∧
    ∃ s, pipelineRun (exampleState aliasMemory exampleContext) exampleInterleaving = some s ∧
      s.Context.SearchResultsAddIndex ≤ s.Context.SearchResults.length :=
  ⟨⟨rfl, rfl, by decide⟩, by decide,
   (watermark_invariant (exampleState aliasMemory exampleContext) exampleInterleaving
      (by decide)).1⟩

/-! ## Insertion order and display order -/

/-- C15, as stated, fails: over an empty store sorted by the first column in ascending order,
the nodes with the keys 2 and 1 are added in this order (both adds succeed) and the children
are asked for; afterwards NodeList holds them in the order 1, 2, not in the order 2, 1 in
which they were added. -/
theorem NodeList_insertion_order_counterexample :
    addedNodes [STORE_REQUEST.Add 2, STORE_REQUEST.Add 1, STORE_REQUEST.GetChildren] = [2, 1] ∧
    (storeRun (exampleState aliasMemory exampleContext)
      [STORE_REQUEST.Add 2, STORE_REQUEST.Add 1]).Context.NodeList = [2, 1] ∧
    (storeRun (exampleState aliasMemory exampleContext)
      [STORE_REQUEST.Add 2, STORE_REQUEST.Add 1, STORE_REQUEST.GetChildren]).Context.NodeList
      = [1, 2] := by
  decide

theorem storeRequest_key (s : State) (request : STORE_REQUEST) :
    (storeRequest s request).key = s.key := by
  cases request with
  | Add Entry => exact PvImportAddTreeNode_key s Entry
  | GetChildren =>
    funext p
    simp only [storeRequest, State.key, TreeNewGetChildren_Memory]

theorem addedNodes_cons (request : STORE_REQUEST) (requests : List STORE_REQUEST) :
    addedNodes (request :: requests) = addedNodes [request] ++ addedNodes requests := by
  cases request <;> simp [addedNodes]

/-- The requests keep both indices rearrangements of the nodes added so far, when the keys of
the added nodes are pairwise distinct; and without a get-children request the node list is
extended at its end only. -/
theorem storeRun_indices (requests : List STORE_REQUEST) (s : State)
    (added : List PPV_IMPORT_NODE)
    (hTable : s.Context.NodeHashtable.Perm added) (hList : s.Context.NodeList.Perm added)
    (hKeys : ((added ++ addedNodes requests).map s.key).Nodup) :
    (storeRun s requests).Context.NodeHashtable.Perm (added ++ addedNodes requests) ∧
    (storeRun s requests).Context.NodeList.Perm (added ++ addedNodes requests) ∧
    (STORE_REQUEST.GetChildren ∉ requests →
      (storeRun s requests).Context.NodeList = s.Context.NodeList ++ addedNodes requests) := by
  induction requests generalizing s added with
  | nil =>
    simp only [storeRun, List.foldl_nil, addedNodes, List.append_nil]
    exact ⟨hTable, hList, fun _ => trivial⟩
  | cons request requests ih =>
    rw [addedNodes_cons, ← List.append_assoc] at hKeys ⊢
    have hstep : (storeRequest s request).Context.NodeHashtable.Perm
          (added ++ addedNodes [request]) ∧
        (storeRequest s request).Context.NodeList.Perm (added ++ addedNodes [request]) ∧
        (request ≠ STORE_REQUEST.GetChildren →
          (storeRequest s request).Context.NodeList
            = s.Context.NodeList ++ addedNodes [request]) := by
      cases request with
      | Add Entry =>
        have hnot : ¬ s.Context.NodeHashtable.any (fun e => s.key e == s.key Entry) = true := by
          rw [List.any_eq_true]
          rintro ⟨e, he, hk⟩
          simp only [addedNodes, List.map_append, List.map_cons, List.map_nil] at hKeys
          have h1 := (List.nodup_append.1 hKeys).1
          have h2 := (List.nodup_append.1 h1).2.2
          exact h2 (List.mem_map_of_mem _ (hTable.mem_iff.1 he))
            (by rw [beq_iff_eq] at hk; rw [hk]; exact List.mem_singleton_self _)
        have hctx := PvImportAddTreeNode_Context s Entry
        rw [if_neg hnot] at hctx
        simp only [storeRequest, addedNodes, hctx]
        exact ⟨hTable.append_right _, hList.append_right _, fun _ => trivial⟩
      | GetChildren =>
        simp only [storeRequest, addedNodes, List.append_nil, TreeNewGetChildren_NodeHashtable]
        exact ⟨hTable, (TreeNewGetChildren_NodeList_perm s none).trans hList,
          fun h => absurd rfl h⟩
    have hKeys' : (((added ++ addedNodes [request]) ++ addedNodes requests).map
        (storeRequest s request).key).Nodup := by
      rw [storeRequest_key]; exact hKeys
    obtain ⟨i1, i2, i3⟩ := ih (storeRequest s request) (added ++ addedNodes [request])
      hstep.1 hstep.2.1 hKeys'
    refine ⟨i1, i2, ?_⟩
    intro hno
    have hreq : request ≠ STORE_REQUEST.GetChildren :=
      fun h => hno (h ▸ List.mem_cons_self _ _)
    have hrest : STORE_REQUEST.GetChildren ∉ requests :=
      fun h => hno (List.mem_cons_of_mem _ h)
    show (storeRun (storeRequest s request) requests).Context.NodeList = _
    rw [i3 hrest, hstep.2.2 hreq, List.append_assoc]

/-- C15, amended. Over an empty store and for adds of nodes with pairwise distinct keys (so
that every add succeeds), interleaved with get-children requests: NodeList and the hash index
hold exactly the added nodes, each once; NodeList is in insertion order as long as no
get-children request has been served; and a get-children request with a valid sort column
leaves NodeList in display order, sorted by the column comparison of the sort column. -/
theorem NodeList_insertion_order (s0 : State) (requests : List STORE_REQUEST)
    (hTable : s0.Context.NodeHashtable = []) (hList : s0.Context.NodeList = [])
    (hKeys : ((addedNodes requests).map (fun p => (s0.Memory p).UniqueId)).Nodup) :
    (storeRun s0 requests).Context.NodeList.Perm (addedNodes requests) ∧
    (storeRun s0 requests).Context.NodeHashtable.Perm (addedNodes requests) ∧
    (STORE_REQUEST.GetChildren ∉ requests →
      (storeRun s0 requests).Context.NodeList = addedNodes requests) ∧
    ((storeRun s0 requests).Context.TreeNewSortColumn < PV_IMPORT_TREE_COLUMN_ITEM_MAXIMUM →
      (storeRun s0 (requests ++ [STORE_REQUEST.GetChildren])).Context.NodeList.Pairwise
        (fun a b =>
          columnComparison (storeRun s0 requests).Context.TreeNewSortColumn
            (storeRun s0 requests).Context.TreeNewSortOrder
            (castToPointerWidth ((storeRun s0 requests).Memory a))
            (castToPointerWidth ((storeRun s0 requests).Memory b)) ≤ 0)) := by
  obtain ⟨h1, h2, h3⟩ := storeRun_indices requests s0 []
    (by rw [hTable]) (by rw [hList]) (by simpa using hKeys)
  rw [List.nil_append] at h1 h2
  refine ⟨h2, h1, ?_, ?_⟩
  · intro hno
    rw [h3 hno, hList, List.nil_append]
  · intro hColumn
    obtain ⟨children, -, hnode, -, hsorted⟩ :=
      TreeNewGetChildren_sorted (storeRun s0 requests) hColumn
    have hrun : storeRun s0 (requests ++ [STORE_REQUEST.GetChildren])
        = (PvImportTreeNewCallback.TreeNewGetChildren (storeRun s0 requests) none).1 := by
      simp only [storeRun, List.foldl_append, List.foldl_cons, List.foldl_nil, storeRequest]
    rw [hrun, hnode]
    exact hsorted

/-- C15 at concrete requests: add the keys 3 and 1, ask for the children, add the key 2. -/
theorem NodeList_insertion_order_witness :
    ((exampleState aliasMemory exampleContext).Context.NodeHashtable = [] ∧
      (exampleState aliasMemory exampleContext).Context.NodeList = [] ∧
      ((addedNodes [STORE_REQUEST.Add 3, STORE_REQUEST.Add 1, STORE_REQUEST.GetChildren,
          STORE_REQUEST.Add 2]).map (fun p => (aliasMemory p).UniqueId)).Nodup) ∧
    (storeRun (exampleState aliasMemory exampleContext)
      [STORE_REQUEST.Add 3, STORE_REQUEST.Add 1, STORE_REQUEST.GetChildren,
        STORE_REQUEST.Add 2]).Context.NodeList = [1, 3, 2] ∧
    (storeRun (exampleState aliasMemory exampleContext)
      [STORE_REQUEST.Add 3, STORE_REQUEST.Add 1, STORE_REQUEST.GetChildren,
        STORE_REQUEST.Add 2]).Context.NodeList.Perm [3, 1, 2] :=
  ⟨⟨rfl, rfl, by decide⟩, by decide,
   (NodeList_insertion_order (exampleState aliasMemory exampleContext)
      [STORE_REQUEST.Add 3, STORE_REQUEST.Add 1, STORE_REQUEST.GetChildren, STORE_REQUEST.Add 2]
      rfl rfl (by decide)).1⟩

/-! ## Visibility and selection -/

/-- C16, as stated, fails: in a store with the nodes 3, 4, 1, 2 of which only node 1 has its
visible flag set, the get-children query returns all four nodes, among them node 3, whose
visible flag is not set. -/
theorem TreeNewGetChildren_visible_counterexample :
    (PvImportTreeNewCallback.TreeNewGetChildren flagState none).2 = some [1, 2, 3, 4] ∧
    (flagState.Memory 3).Node.Visible = false ∧
    ((PvImportTreeNewCallback.TreeNewGetChildren flagState none).1.Memory 3).Node.Visible
      = false ∧
    ¬ (∀ children, (PvImportTreeNewCallback.TreeNewGetChildren flagState none).2 = some children →
        ∀ p ∈ children, (flagState.Memory p).Node.Visible = true) := by
  refine ⟨by decide, by decide, by decide, ?_⟩
  intro h
  have h3 := h [1, 2, 3, 4] (by decide) 3 (by decide)
  revert h3
  decide

/-- The children handed out for the root are the node list the query leaves. -/
theorem TreeNewGetChildren_children (s : State) :
    (PvImportTreeNewCallback.TreeNewGetChildren s none).2
      = some (PvImportTreeNewCallback.TreeNewGetChildren s none).1.Context.NodeList := by
  unfold PvImportTreeNewCallback.TreeNewGetChildren
  rfl

/-- C16, amended. For every store, sort column and direction, the get-children query for the
root returns an ordered sequence consisting of all the nodes of the store, whatever their
visible flags: the children are a rearrangement of NodeList, so every visible node of the
store is returned, and every returned node is a node of the store; no visible flag is read or
written, and for a valid sort column the sequence is sorted by the column comparison. -/
theorem TreeNewGetChildren_all_nodes (s : State) :
    ∃ children, (PvImportTreeNewCallback.TreeNewGetChildren s none).2 = some children ∧
      children.Perm s.Context.NodeList ∧
      (∀ p ∈ s.Context.NodeList, (s.Memory p).Node.Visible = true → p ∈ children) ∧
      (∀ p ∈ children, p ∈ s.Context.NodeList) ∧
      (PvImportTreeNewCallback.TreeNewGetChildren s none).1.Memory = s.Memory ∧
      (s.Context.TreeNewSortColumn < PV_IMPORT_TREE_COLUMN_ITEM_MAXIMUM →
        children.Pairwise (fun a b =>
          columnComparison s.Context.TreeNewSortColumn s.Context.TreeNewSortOrder
            (castToPointerWidth (s.Memory a)) (castToPointerWidth (s.Memory b)) ≤ 0)) := by
  have hperm := TreeNewGetChildren_NodeList_perm s none
  refine ⟨_, TreeNewGetChildren_children s, hperm, fun p hp _ => hperm.mem_iff.2 hp,
    fun p hp => hperm.mem_iff.1 hp, TreeNewGetChildren_Memory s none, ?_⟩
  intro hColumn
  obtain ⟨children, -, hnode, -, hsorted⟩ := TreeNewGetChildren_sorted s hColumn
  rw [hnode]
  exact hsorted

theorem PvGetSelectedImportNodes_loop_eq (Memory : PPV_IMPORT_NODE → PV_IMPORT_NODE)
    (items list : List PPV_IMPORT_NODE) :
    PvGetSelectedImportNodes.loop Memory items list
      = list ++ items.filter (fun p => (Memory p).Node.Selected) := by
  induction items generalizing list with
  | nil => simp [PvGetSelectedImportNodes.loop]
  | cons node rest ih =>
    unfold PvGetSelectedImportNodes.loop
    rw [ih]
    by_cases h : (Memory node).Node.Selected = true
    · simp [h, PhAddItemList]
    · simp [h]

theorem PvGetSelectedImportNode_loop_eq (Memory : PPV_IMPORT_NODE → PV_IMPORT_NODE)
    (items : List PPV_IMPORT_NODE) :
    PvGetSelectedImportNode.loop Memory items
      = items.find? (fun p => (Memory p).Node.Selected) := by
  induction items with
  | nil => rfl
  | cons node rest ih =>
    unfold PvGetSelectedImportNode.loop
    by_cases h : (Memory node).Node.Selected = true
    · simp [h]
    · simp [h, ih]

theorem find?_eq_head?_filter (p : PPV_IMPORT_NODE → Bool) (l : List PPV_IMPORT_NODE) :
    l.find? p = (l.filter p).head? := by
  induction l with
  | nil => rfl
  | cons a l ih =>
    by_cases h : p a = true
    · rw [List.find?_cons_of_pos _ h, List.filter_cons_of_pos h]; rfl
    · rw [List.find?_cons_of_neg _ h, List.filter_cons_of_neg h]; exact ih

/-- C17. Function `PvGetSelectedImportNodes` returns exactly the nodes of NodeList whose
selected flag is set, in NodeList order, and reports their number; `PvGetSelectedImportNode`
returns the first node of NodeList whose selected flag is set, or none when there is no such
node; both leave the whole state (store, sort column and direction, filter text, heap) as it
was. In the store with the nodes 3, 4, 1, 2 of which 2 and 4 are selected the queries return
4, 2 (two nodes) and 4. -/
theorem PvGetSelectedImportNodes_spec :
    (∀ s : State,
      (PvGetSelectedImportNodes s).2.1
        = s.Context.NodeList.filter (fun p => (s.Memory p).Node.Selected) ∧
      (PvGetSelectedImportNodes s).2.2
        = (s.Context.NodeList.filter (fun p => (s.Memory p).Node.Selected)).length ∧
      (PvGetSelectedImportNodes s).2.2
        = s.Context.NodeList.countP (fun p => (s.Memory p).Node.Selected) ∧
      (PvGetSelectedImportNode s).2
        = s.Context.NodeList.find? (fun p => (s.Memory p).Node.Selected) ∧
      (PvGetSelectedImportNode s).2
        = (s.Context.NodeList.filter (fun p => (s.Memory p).Node.Selected)).head? ∧
      (PvGetSelectedImportNodes s).1 = s ∧
      (PvGetSelectedImportNode s).1 = s) ∧
    (PvGetSelectedImportNodes flagState).2 = ([4, 2], 2) ∧
    (PvGetSelectedImportNode flagState).2 = some 4 ∧
    (PvGetSelectedImportNode threeNodeState).2 = none := by
  refine ⟨?_, by decide, by decide, by decide⟩
  intro s
  have hlist : (PvGetSelectedImportNodes s).2.1
      = s.Context.NodeList.filter (fun p => (s.Memory p).Node.Selected) := by
    unfold PvGetSelectedImportNodes
    simp only [PvGetSelectedImportNodes_loop_eq, List.nil_append]
  have hcount : (PvGetSelectedImportNodes s).2.2 = (PvGetSelectedImportNodes s).2.1.length := rfl
  have hfirst : (PvGetSelectedImportNode s).2
      = s.Context.NodeList.find? (fun p => (s.Memory p).Node.Selected) :=
    PvGetSelectedImportNode_loop_eq s.Memory s.Context.NodeList
  refine ⟨hlist, by rw [hcount, hlist], by rw [hcount, hlist, List.countP_eq_length_filter],
    hfirst, ?_, rfl, rfl⟩
  rw [hfirst]
  exact find?_eq_head?_filter _ _

/-! ## Cancellation -/

theorem PvDeleteImportTree_Context (s : State) : (PvDeleteImportTree s).Context = s.Context :=
  (PvDestroyImportNode_foldl s.Context.NodeList s).2.1

theorem deleteTimer_UpdateTimerHandle (s : State) :
    (PvpPeImportsDlgProc.deleteTimer s).Context.UpdateTimerHandle = none := by
  unfold PvpPeImportsDlgProc.deleteTimer
  cases h : s.Context.UpdateTimerHandle with
  | none => exact h
  | some timer => rfl

/-- C18. Once the timer handle is empty, the timer callback `PvImportTreeUpdateCallback`
returns at once: the state it leaves is the state it found, so that the store, the buffer and
the watermark are not written and no timer is rearmed (nothing is logged). The handler of
WM_DESTROY and the completion handler both leave the handle empty, so the callback does nothing
after either of them. -/
theorem PvImportTreeUpdateCallback_canceled (s : State)
    (hCanceled : s.Context.UpdateTimerHandle = none) :
    PvImportTreeUpdateCallback s = some s ∧
    (∀ s0 : State,
      (PvpPeImportsDlgProc.WM_DESTROY s0).Context.UpdateTimerHandle = none ∧
      PvImportTreeUpdateCallback (PvpPeImportsDlgProc.WM_DESTROY s0)
        = some (PvpPeImportsDlgProc.WM_DESTROY s0) ∧
      ∃ s1, PvpPeImportsDlgProc.WM_PV_SEARCH_FINISHED s0 = some s1 ∧
        s1.Context.UpdateTimerHandle = none ∧
        PvImportTreeUpdateCallback s1 = some s1) := by
  have hcb : ∀ t : State, t.Context.UpdateTimerHandle = none →
      PvImportTreeUpdateCallback t = some t := by
    intro t ht
    unfold PvImportTreeUpdateCallback
    rw [ht]
  have hdestroy : ∀ t : State,
      (PvpPeImportsDlgProc.WM_DESTROY t).Context.UpdateTimerHandle = none := by
    intro t
    unfold PvpPeImportsDlgProc.WM_DESTROY
    rw [PvDeleteImportTree_Context, deleteTimer_UpdateTimerHandle]
  refine ⟨hcb s hCanceled, ?_⟩
  intro s0
  refine ⟨hdestroy s0, hcb _ (hdestroy s0), ?_⟩
  obtain ⟨s1, hs1, -, hctx, -, -⟩ :=
    PvAddPendingImportNodes_spec (PvpPeImportsDlgProc.deleteTimer s0)
  have hhandle : s1.Context.UpdateTimerHandle = none := by
    rw [hctx, PvImportAddTreeNode_foldl_Context_rest]
    exact deleteTimer_UpdateTimerHandle s0
  refine ⟨s1.emit (EVENT.TreeNew_SetEmptyText EmptyImportsText), ?_, hhandle, hcb _ hhandle⟩
  unfold PvpPeImportsDlgProc.WM_PV_SEARCH_FINISHED
  rw [hs1]

/-- C18 at a concrete state: a running pipeline with unmigrated nodes in the buffer is torn
down; a timer callback that comes afterwards leaves the context and the log as they are, while
the same callback before the teardown drains the buffer and rearms the timer. -/
theorem PvImportTreeUpdateCallback_canceled_witness :
    (PvpPeImportsDlgProc.WM_DESTROY runningState).Context.UpdateTimerHandle = none ∧
    PvImportTreeUpdateCallback (PvpPeImportsDlgProc.WM_DESTROY runningState)
      = some (PvpPeImportsDlgProc.WM_DESTROY runningState) ∧
    (PvImportTreeUpdateCallback (PvpPeImportsDlgProc.WM_DESTROY runningState)).map
        (fun s => (s.Context.NodeList, s.Context.SearchResultsAddIndex, s.Log))
      = some ([1], 1, [EVENT.RtlDeleteTimer 1]) ∧
    (PvImportTreeUpdateCallback runningState).map
        (fun s => (s.Context.NodeList, s.Context.SearchResultsAddIndex, s.Log))
      = some ([1, 2, 3], 3,
          [EVENT.TreeNew_SetRedraw false, EVENT.TreeNew_NodesStructured,
           EVENT.TreeNew_SetRedraw true, EVENT.RtlUpdateTimer 1 1000]) :=
  ⟨by decide,
   (PvImportTreeUpdateCallback_canceled (PvpPeImportsDlgProc.WM_DESTROY runningState)
      (by decide)).1,
   by decide, by decide⟩

/-! ## A filter text of delimiters only -/

/-- A text that consists of delimiters only has empty terms only. -/
theorem filterTerms_of_delimiters (filterText : PH_STRINGREF)
    (hDelimiters : ∀ c ∈ filterText, c = '|') :
    ∀ term ∈ filterTerms filterText, term = [] := by
  unfold filterTerms List.splitOn
  induction filterText with
  | nil =>
    intro term hterm
    rw [List.splitOnP_nil] at hterm
    exact List.mem_singleton.1 hterm
  | cons c rest ih =>
    intro term hterm
    have hc : c = '|' := hDelimiters c (List.mem_cons_self _ _)
    rw [List.splitOnP_cons, if_pos (by rw [hc]; rfl)] at hterm
    rcases List.mem_cons.1 hterm with h | h
    · exact h
    · exact ih (fun d hd => hDelimiters d (List.mem_cons_of_mem _ hd)) term h

/-- C20. When the filter text is not empty and consists of '|' delimiters only, the function
`PvImportWordMatchStringRef` returns false for every text and `PvImportTreeFilterCallback`
returns false for every node: every record is invisible. -/
theorem PvImportTreeFilterCallback_delimiters_only (context : PV_IMPORT_CONTEXT)
    (filterText : PH_STRINGREF)
    (hText : context.SearchboxText = some filterText)
    (hNonEmpty : filterText ≠ [])
    (hDelimiters : ∀ c ∈ filterText, c = '|') :
    (∀ Text : PH_STRINGREF, PvImportWordMatchStringRef context Text = false) ∧
    (∀ node : PV_IMPORT_NODE, PvImportTreeFilterCallback node context = false) := by
  have hget : PhGetStringRef context.SearchboxText = filterText := by
    rw [hText]; rfl
  have hword : ∀ Text : PH_STRINGREF, PvImportWordMatchStringRef context Text = false := by
    intro Text
    rw [← Bool.not_eq_true, PvImportWordMatchStringRef_iff, hget]
    rintro ⟨term, hterm, hne, -⟩
    exact hne (filterTerms_of_delimiters filterText hDelimiters term hterm)
  refine ⟨hword, ?_⟩
  intro node
  rw [← Bool.not_eq_true, PvImportTreeFilterCallback_columns, hget]
  rintro (h | ⟨column, -, hmatch⟩)
  · exact hNonEmpty h
  · rw [hword column] at hmatch
    exact absurd hmatch (by decide)

/-- C20 at a concrete filter text: under "||" a node named "alpha" is not matched and not
shown. -/
theorem PvImportTreeFilterCallback_delimiters_only_witness :
    ((searchContext "||").SearchboxText = some "||".toList ∧ "||".toList ≠ [] ∧
      ∀ c ∈ "||".toList, c = '|') ∧
    PvImportWordMatchStringRef (searchContext "||") "alpha".toList = false ∧
    PvImportTreeFilterCallback (exampleNode 10 (some "alpha".toList)) (searchContext "||")
      = false :=
  ⟨⟨rfl, by decide, by decide⟩,
   (PvImportTreeFilterCallback_delimiters_only (searchContext "||") "||".toList rfl
      (by decide) (by decide)).1 "alpha".toList,
   (PvImportTreeFilterCallback_delimiters_only (searchContext "||") "||".toList rfl
      (by decide) (by decide)).2 (exampleNode 10 (some "alpha".toList))⟩

/-! ## Termination of the term-splitting loop -/

/-- The counting loop returns what the loop returns, for every fuel. -/
theorem PvImportWordMatchStringRef_loopCount_fst (Text : PH_STRINGREF) (fuel : Nat)
    (remainingPart : PH_STRINGREF) :
    (PvImportWordMatchStringRef.loopCount Text fuel remainingPart).map Prod.fst
      = PvImportWordMatchStringRef.loop Text fuel remainingPart := by
  induction fuel generalizing remainingPart with
  | zero => rfl
  | succ fuel ih =>
    unfold PvImportWordMatchStringRef.loopCount PvImportWordMatchStringRef.loop
    by_cases hrem : remainingPart.length ≠ 0
    · rw [if_pos hrem, if_pos hrem]
      simp only []
      split_ifs
      · rfl
      · rw [← ih]
        cases PvImportWordMatchStringRef.loopCount Text fuel
            (PhSplitStringRefAtChar remainingPart '|').2.2 with
        | none => rfl
        | some r => rfl
    · rw [if_neg hrem, if_neg hrem]
      rfl

/-- With more fuel than the remaining part has characters the counting loop ends, after at most
as many iterations as the remaining part has characters. -/
theorem PvImportWordMatchStringRef_loopCount_bound (Text : PH_STRINGREF) (fuel : Nat)
    (remainingPart : PH_STRINGREF) (hfuel : remainingPart.length < fuel) :
    ∃ result iterations,
      PvImportWordMatchStringRef.loopCount Text fuel remainingPart = some (result, iterations) ∧
      iterations ≤ remainingPart.length := by
  induction fuel generalizing remainingPart with
  | zero => omega
  | succ fuel ih =>
    unfold PvImportWordMatchStringRef.loopCount
    by_cases hrem : remainingPart.length ≠ 0
    · have hne : remainingPart ≠ [] := fun h => hrem (by rw [h]; rfl)
      have hshort := PhSplitStringRefAtChar_length remainingPart '|' hne
      rw [if_pos hrem]
      simp only []
      split_ifs
      · exact ⟨true, 1, rfl, by omega⟩
      · obtain ⟨result, iterations, hrun, hle⟩ :=
          ih (PhSplitStringRefAtChar remainingPart '|').2.2 (by omega)
        rw [hrun]
        exact ⟨result, iterations + 1, rfl, by omega⟩
    · rw [if_neg hrem]
      exact ⟨false, 0, rfl, Nat.zero_le _⟩

theorem PhSplitStringRefAtChar_not_found (Input : PH_STRINGREF) (Separator : Char)
    (h : (PhSplitStringRefAtChar Input Separator).1 = false) :
    (PhSplitStringRefAtChar Input Separator).2.2 = [] ∧
    (PhSplitStringRefAtChar Input Separator).2.1 = Input := by
  have happ := List.takeWhile_append_dropWhile (fun c => c != Separator) Input
  unfold PhSplitStringRefAtChar at h ⊢
  simp only [] at h ⊢
  cases hd : Input.dropWhile (fun c => c != Separator) with
  | nil =>
    rw [hd, List.append_nil] at happ
    exact ⟨rfl, happ⟩
  | cons x second =>
    rw [hd] at h
    simp at h

/-- C22. The term-splitting loop of `PvImportWordMatchStringRef` terminates for every filter
text and every text: run with one test of the loop condition per character of the filter text
plus one, it returns a result after at most as many iterations as the filter text has
characters, and `PvImportWordMatchStringRef` returns that result. Each iteration strictly
shortens the remaining part of the filter text, which becomes empty when no further '|' is
found. With the filter text "foo|bar" and the text "xbar" the loop makes two iterations. -/
theorem PvImportWordMatchStringRef_terminates :
    (∀ (Context : PV_IMPORT_CONTEXT) (Text : PH_STRINGREF), ∃ result iterations,
      PvImportWordMatchStringRef.loopCount Text
          ((PhGetStringRef Context.SearchboxText).length + 1)
          (PhGetStringRef Context.SearchboxText) = some (result, iterations) ∧
      PvImportWordMatchStringRef.loop Text
          ((PhGetStringRef Context.SearchboxText).length + 1)
          (PhGetStringRef Context.SearchboxText) = some result ∧
      PvImportWordMatchStringRef Context Text = result ∧
      iterations ≤ (PhGetStringRef Context.SearchboxText).length) ∧
    (∀ remainingPart : PH_STRINGREF, remainingPart.length ≠ 0 →
      (PhSplitStringRefAtChar remainingPart '|').2.2.length < remainingPart.length) ∧
    (∀ remainingPart : PH_STRINGREF, (PhSplitStringRefAtChar remainingPart '|').1 = false →
      (PhSplitStringRefAtChar remainingPart '|').2.2 = []) ∧
    (∀ (Text remainingPart : PH_STRINGREF) (fuel : Nat), remainingPart.length < fuel →
      PvImportWordMatchStringRef.loop Text fuel remainingPart
        = PvImportWordMatchStringRef.loop Text (remainingPart.length + 1) remainingPart) ∧
    PvImportWordMatchStringRef.loopCount "xbar".toList ("foo|bar".toList.length + 1)
      "foo|bar".toList = some (true, 2) ∧
    PvImportWordMatchStringRef.loopCount "qux".toList ("a|b|c".toList.length + 1)
      "a|b|c".toList = some (false, 3) := by
  refine ⟨?_, ?_, ?_, ?_, by decide, by decide⟩
  · intro Context Text
    obtain ⟨result, iterations, hrun, hle⟩ := PvImportWordMatchStringRef_loopCount_bound Text
      ((PhGetStringRef Context.SearchboxText).length + 1) (PhGetStringRef Context.SearchboxText)
      (Nat.lt_succ_self _)
    have hloop : PvImportWordMatchStringRef.loop Text
        ((PhGetStringRef Context.SearchboxText).length + 1)
        (PhGetStringRef Context.SearchboxText) = some result := by
      rw [← PvImportWordMatchStringRef_loopCount_fst, hrun]
      rfl
    refine ⟨result, iterations, hrun, hloop, ?_, hle⟩
    unfold PvImportWordMatchStringRef
    simp only [hloop]
  · intro remainingPart hlen
    exact PhSplitStringRefAtChar_length remainingPart '|' (fun h => hlen (by rw [h]; rfl))
  · intro remainingPart hfound
    exact (PhSplitStringRefAtChar_not_found remainingPart '|' hfound).1
  · intro Text remainingPart fuel hfuel
    rw [PvImportWordMatchStringRef_loop_eq Text fuel remainingPart hfuel,
      PvImportWordMatchStringRef_loop_eq Text _ remainingPart (Nat.lt_succ_self _)]

/-- C22 at a concrete filter text: the remaining part "a|b" is not empty and is shortened to
"b" by one iteration; the remaining part "b" holds no further delimiter and is shortened to the
empty text. -/
theorem PvImportWordMatchStringRef_terminates_witness :
    ("a|b".toList.length ≠ 0 ∧ (PhSplitStringRefAtChar "b".toList '|').1 = false) ∧
    (PhSplitStringRefAtChar "a|b".toList '|').2.2 = "b".toList ∧
    (PhSplitStringRefAtChar "a|b".toList '|').2.2.length < "a|b".toList.length ∧
    (PhSplitStringRefAtChar "b".toList '|').2.2 = [] :=
  ⟨⟨by decide, by decide⟩, by decide,
   PvImportWordMatchStringRef_terminates.2.1 "a|b".toList (by decide),
   PvImportWordMatchStringRef_terminates.2.2.1 "b".toList (by decide)⟩

/-! ## The keys the worker assigns -/

theorem incrementCount_lt (Count : Nat) : incrementCount Count < 2 ^ 32 :=
  Nat.mod_lt _ (by decide)

theorem range_map_shift (Count n : Nat) :
    (List.range (n + 1)).map (fun k => (Count + k + 1) % 2 ^ 32)
      = incrementCount Count
        :: (List.range n).map (fun k => (incrementCount Count + k + 1) % 2 ^ 32) := by
  rw [List.range_succ_eq_map, List.map_cons, List.map_map]
  congr 1
  apply List.map_congr_left
  intro k _
  simp only [Function.comp, incrementCount]
  omega

/-- The inner loop numbers the nodes it creates with the successive values of the counter. -/
theorem PvpProcessImports_entries_ids (source : SOURCE_ENUMERATION) (DelayImports : Bool)
    (importDll : PH_MAPPED_IMAGE_IMPORT_DLL)
    (entries : List (Option PH_MAPPED_IMAGE_IMPORT_ENTRY)) (j Count : Nat)
    (hCount : Count < 2 ^ 32) :
    (PvpProcessImports.entries source DelayImports importDll entries j Count).1.map
        (fun n => n.UniqueId)
      = (List.range
          (PvpProcessImports.entries source DelayImports importDll entries j Count).1.length).map
          (fun k => (Count + k + 1) % 2 ^ 32) ∧
    (PvpProcessImports.entries source DelayImports importDll entries j Count).2
      = (Count
          + (PvpProcessImports.entries source DelayImports importDll entries j Count).1.length)
        % 2 ^ 32 := by
  induction entries generalizing j Count with
  | nil =>
    simp only [PvpProcessImports.entries, List.map_nil, List.length_nil, List.range_zero,
      Nat.add_zero, true_and]
    exact (Nat.mod_eq_of_lt hCount).symm
  | cons entry rest ih =>
    cases entry with
    | none =>
      simp only [PvpProcessImports.entries]
      exact ih (j + 1) Count hCount
    | some importEntry =>
      simp only [PvpProcessImports.entries, List.map_cons, List.length_cons]
      obtain ⟨h1, h2⟩ := ih (j + 1) (incrementCount Count) (incrementCount_lt Count)
      refine ⟨?_, ?_⟩
      · rw [range_map_shift, ← h1]
        rfl
      · rw [h2]
        simp only [incrementCount]
        omega

theorem range_map_append (Count a b : Nat) :
    (List.range (a + b)).map (fun k => (Count + k + 1) % 2 ^ 32)
      = (List.range a).map (fun k => (Count + k + 1) % 2 ^ 32)
        ++ (List.range b).map (fun k => ((Count + a) % 2 ^ 32 + k + 1) % 2 ^ 32) := by
  rw [List.range_add, List.map_append, List.map_map]
  congr 1
  apply List.map_congr_left
  intro k _
  simp only [Function.comp]
  omega

/-- The outer loop numbers the nodes it creates with the successive values of the counter,
across the DLLs. -/
theorem PvpProcessImports_dlls_ids (source : SOURCE_ENUMERATION) (DelayImports : Bool)
    (dlls : List (Option PH_MAPPED_IMAGE_IMPORT_DLL)) (Count : Nat) (hCount : Count < 2 ^ 32) :
    (PvpProcessImports.dlls source DelayImports dlls Count).1.map (fun n => n.UniqueId)
      = (List.range (PvpProcessImports.dlls source DelayImports dlls Count).1.length).map
          (fun k => (Count + k + 1) % 2 ^ 32) ∧
    (PvpProcessImports.dlls source DelayImports dlls Count).2
      = (Count + (PvpProcessImports.dlls source DelayImports dlls Count).1.length) % 2 ^ 32 := by
  induction dlls generalizing Count with
  | nil =>
    simp only [PvpProcessImports.dlls, List.map_nil, List.length_nil, List.range_zero,
      Nat.add_zero, true_and]
    exact (Nat.mod_eq_of_lt hCount).symm
  | cons dll rest ih =>
    cases dll with
    | none =>
      simp only [PvpProcessImports.dlls]
      exact ih Count hCount
    | some importDll =>
      simp only [PvpProcessImports.dlls, List.map_append, List.length_append]
      obtain ⟨e1, e2⟩ := PvpProcessImports_entries_ids source DelayImports importDll
        importDll.Entries 0 Count hCount
      have hCount2 : (PvpProcessImports.entries source DelayImports importDll
          importDll.Entries 0 Count).2 < 2 ^ 32 := by
        rw [e2]; exact Nat.mod_lt _ (by decide)
      obtain ⟨d1, d2⟩ := ih _ hCount2
      refine ⟨?_, ?_⟩
      · rw [range_map_append, e1, d1, e2]
      · rw [d2, e2]
        omega

/-- One pass of the worker: `PvpProcessImports` when the query for the imports succeeded,
nothing otherwise. -/
theorem PvpProcessImports_pass_ids (source : SOURCE_ENUMERATION)
    (imports : Option PH_MAPPED_IMAGE_IMPORTS) (DelayImports : Bool) (Count : Nat)
    (hCount : Count < 2 ^ 32) (pass : List PV_IMPORT_NODE × Nat)
    (hpass : pass = match imports with
      | some imports => PvpProcessImports source imports DelayImports Count
      | none => ([], Count)) :
    pass.1.map (fun n => n.UniqueId)
      = (List.range pass.1.length).map (fun k => (Count + k + 1) % 2 ^ 32) ∧
    pass.2 = (Count + pass.1.length) % 2 ^ 32 := by
  subst hpass
  cases imports with
  | none =>
    simp only [List.map_nil, List.length_nil, List.range_zero, Nat.add_zero, true_and]
    exact (Nat.mod_eq_of_lt hCount).symm
  | some imports => exact PvpProcessImports_dlls_ids source DelayImports imports.Dlls Count hCount

/-- The worker numbers the nodes it appends 1, 2, 3, ... in the 32-bit counter, through both
passes. -/
theorem PvpPeImportsEnumerateThread_ids (source : SOURCE_ENUMERATION) :
    (PvpPeImportsEnumerateThread source).map (fun n => n.UniqueId)
      = (List.range (PvpPeImportsEnumerateThread source).length).map
          (fun k => (k + 1) % 2 ^ 32) := by
  have hthread : ∀ normal delay : List PV_IMPORT_NODE × Nat,
      normal = (match source.Imports with
        | some imports => PvpProcessImports source imports false 0
        | none => ([], 0)) →
      delay = (match source.DelayImports with
        | some imports => PvpProcessImports source imports true normal.2
        | none => ([], normal.2)) →
      PvpPeImportsEnumerateThread source = normal.1 ++ delay.1 := by
    intro normal delay h1 h2
    subst h1
    subst h2
    rfl
  obtain ⟨normal, hnormal⟩ : ∃ normal, normal = (match source.Imports with
      | some imports => PvpProcessImports source imports false 0
      | none => ([], 0)) := ⟨_, rfl⟩
  obtain ⟨delay, hdelay⟩ : ∃ delay, delay = (match source.DelayImports with
      | some imports => PvpProcessImports source imports true normal.2
      | none => ([], normal.2)) := ⟨_, rfl⟩
  rw [hthread normal delay hnormal hdelay]
  obtain ⟨n1, n2⟩ := PvpProcessImports_pass_ids source source.Imports false 0 (by decide)
    normal hnormal
  have hCount2 : normal.2 < 2 ^ 32 := by
    rw [n2]; exact Nat.mod_lt _ (by decide)
  obtain ⟨m1, m2⟩ := PvpProcessImports_pass_ids source source.DelayImports true normal.2
    hCount2 delay hdelay
  have happ := range_map_append 0 normal.1.length delay.1.length
  simp only [Nat.zero_add] at happ n1 n2
  rw [List.map_append, List.length_append, happ, n1, m1, n2]

/-- The completion handler, run in a state that matches the appended nodes, leaves exactly
these nodes in both indices, when their keys are pairwise distinct. -/
theorem PipelineInvariant_finished (s : State)
    (appended : List (PPV_IMPORT_NODE × PV_IMPORT_NODE)) (h : PipelineInvariant s appended)
    (hKeys : (appended.map (fun a => a.2.UniqueId)).Nodup) :
    ∃ s2, PvpPeImportsDlgProc.WM_PV_SEARCH_FINISHED s = some s2 ∧
      s2.Context.NodeList = appended.map Prod.fst ∧
      s2.Context.NodeHashtable = appended.map Prod.fst := by
  obtain ⟨s2, hs2, hinv2, hfull, -, -⟩ := PipelineInvariant_drain _ _
    (PipelineInvariant_deleteTimer s _ h) hKeys
  obtain ⟨hbuf, -, hlist, htable, -⟩ := hinv2
  refine ⟨s2.emit (EVENT.TreeNew_SetEmptyText EmptyImportsText), ?_, ?_, ?_⟩
  · unfold PvpPeImportsDlgProc.WM_PV_SEARCH_FINISHED
    rw [hs2]
  · show s2.Context.NodeList = _
    rw [hlist, hfull, List.take_length, hbuf]
  · show s2.Context.NodeHashtable = _
    rw [htable, hfull, List.take_length, hbuf]

theorem range_map_succ_eq_rangeFrom (n : Nat) (hn : n < 2 ^ 32) :
    (List.range n).map (fun k => (k + 1) % 2 ^ 32) = List.range' 1 n := by
  rw [List.range'_eq_map_range]
  apply List.map_congr_left
  intro k hk
  rw [List.mem_range] at hk
  have : k + 1 < 2 ^ 32 := by omega
  rw [Nat.mod_eq_of_lt this]
  omega

/-- C21. For every outcome of the source enumeration the worker gives the k-th node it appends
(counting from 0) the UniqueId k + 1 as held by the 32-bit counter, and each pass numbers its
nodes from the counter value it is handed, so that the delay-import pass goes on where the
normal-import pass stopped. Hence, when fewer than 2^32 nodes are appended, their UniqueIds are
1, 2, ..., N in discovery order, strictly increasing and pairwise distinct, and none of them is
rejected when drained: for every interleaving of the appends (at pairwise distinct addresses)
with timer drains, the final drain leaves all N nodes in the node list and in the hash
index. -/
theorem PvpPeImportsEnumerateThread_UniqueIds (source : SOURCE_ENUMERATION) :
    (∀ (k : Nat) (hk : k < (PvpPeImportsEnumerateThread source).length),
      ((PvpPeImportsEnumerateThread source)[k]).UniqueId = (k + 1) % 2 ^ 32) ∧
    (∀ (Imports : PH_MAPPED_IMAGE_IMPORTS) (DelayImports : Bool) (Count : Nat),
      Count < 2 ^ 32 →
      (PvpProcessImports source Imports DelayImports Count).1.map (fun n => n.UniqueId)
        = (List.range (PvpProcessImports source Imports DelayImports Count).1.length).map
            (fun k => (Count + k + 1) % 2 ^ 32) ∧
      (PvpProcessImports source Imports DelayImports Count).2
        = (Count + (PvpProcessImports source Imports DelayImports Count).1.length) % 2 ^ 32) ∧
    ((PvpPeImportsEnumerateThread source).length < 2 ^ 32 →
      (PvpPeImportsEnumerateThread source).map (fun n => n.UniqueId)
        = List.range' 1 (PvpPeImportsEnumerateThread source).length ∧
      ((PvpPeImportsEnumerateThread source).map (fun n => n.UniqueId)).Pairwise (· < ·) ∧
      ((PvpPeImportsEnumerateThread source).map (fun n => n.UniqueId)).Nodup ∧
      ∀ (s0 : State) (addresses : List PPV_IMPORT_NODE) (steps : List PIPELINE_STEP),
        PipelineEmpty s0 → addresses.Nodup →
        addresses.length = (PvpPeImportsEnumerateThread source).length →
        appendedNodes steps = workerAppends addresses (PvpPeImportsEnumerateThread source) →
        ∃ s1 s2, pipelineRun s0 steps = some s1 ∧
          PvpPeImportsDlgProc.WM_PV_SEARCH_FINISHED s1 = some s2 ∧
          s2.Context.NodeList = addresses ∧ s2.Context.NodeHashtable = addresses ∧
          s2.Context.NodeList.length = (PvpPeImportsEnumerateThread source).length) := by
  have hids := PvpPeImportsEnumerateThread_ids source
  refine ⟨?_, ?_, ?_⟩
  · intro k hk
    have h1 := List.getElem_of_eq hids (by rw [List.length_map]; exact hk)
    rw [List.getElem_map, List.getElem_map, List.getElem_range] at h1
    exact h1
  · intro Imports DelayImports Count hCount
    exact PvpProcessImports_dlls_ids source DelayImports Imports.Dlls Count hCount
  · intro hN
    have hrange : (PvpPeImportsEnumerateThread source).map (fun n => n.UniqueId)
        = List.range' 1 (PvpPeImportsEnumerateThread source).length := by
      rw [hids, range_map_succ_eq_rangeFrom _ hN]
    have hnodup : ((PvpPeImportsEnumerateThread source).map (fun n => n.UniqueId)).Nodup := by
      rw [hrange]; exact List.nodup_range' _ _
    refine ⟨hrange, ?_, hnodup, ?_⟩
    · rw [hrange]; exact List.pairwise_lt_range' _ _
    · intro s0 addresses steps hEmpty hAddr hLength hSteps
      have hfst : (appendedNodes steps).map Prod.fst = addresses := by
        rw [hSteps]
        exact List.map_fst_zip _ _ (le_of_eq hLength)
      have hsnd : (appendedNodes steps).map Prod.snd = PvpPeImportsEnumerateThread source := by
        rw [hSteps]
        exact List.map_snd_zip _ _ (le_of_eq hLength.symm)
      have hkeys : ((appendedNodes steps).map (fun a => a.2.UniqueId)).Nodup := by
        have : (appendedNodes steps).map (fun a => a.2.UniqueId)
            = ((appendedNodes steps).map Prod.snd).map (fun n => n.UniqueId) := by
          rw [List.map_map]; rfl
        rw [this, hsnd]
        exact hnodup
      obtain ⟨s1, hs1, hinv1, -⟩ := PipelineInvariant_run steps s0 []
        (PipelineInvariant_of_empty s0 hEmpty) (by rw [List.nil_append, hfst]; exact hAddr)
        (by rw [List.nil_append]; exact hkeys)
      rw [List.nil_append] at hinv1
      obtain ⟨s2, hs2, hlist, htable⟩ := PipelineInvariant_finished s1 _ hinv1 hkeys
      refine ⟨s1, s2, hs1, hs2, by rw [hlist, hfst], by rw [htable, hfst], ?_⟩
      rw [hlist, hfst, hLength]

/-- C21 at the example source: four nodes are appended (two entries of the first DLL, one of
the second, one delay import; the failing queries are passed over), with the UniqueIds
1, 2, 3, 4, and all four are in the store after the final drain. -/
theorem PvpPeImportsEnumerateThread_UniqueIds_witness :
    ((PvpPeImportsEnumerateThread exampleSource).length < 2 ^ 32 ∧
      PipelineEmpty (exampleState aliasMemory exampleContext) ∧
      [10, 20, 30, 40].Nodup ∧
      [10, 20, 30, 40].length = (PvpPeImportsEnumerateThread exampleSource).length ∧
      appendedNodes exampleWorkerRun
        = workerAppends [10, 20, 30, 40] (PvpPeImportsEnumerateThread exampleSource)) ∧
    (PvpPeImportsEnumerateThread exampleSource).map (fun n => n.UniqueId) = [1, 2, 3, 4] ∧
    ((PvpPeImportsEnumerateThread exampleSource).map (fun n => n.UniqueId)).Nodup ∧
    ∃ s1 s2, pipelineRun (exampleState aliasMemory exampleContext) exampleWorkerRun = some s1 ∧
      PvpPeImportsDlgProc.WM_PV_SEARCH_FINISHED s1 = some s2 ∧
      s2.Context.NodeList = [10, 20, 30, 40] :=
  ⟨⟨by decide, by decide, by decide, by decide, by decide⟩,
   by decide,
   ((PvpPeImportsEnumerateThread_UniqueIds exampleSource).2.2 (by decide)).2.2.1,
   (((PvpPeImportsEnumerateThread_UniqueIds exampleSource).2.2 (by decide)).2.2.2
      (exampleState aliasMemory exampleContext) [10, 20, 30, 40] exampleWorkerRun
      (by decide) (by decide) (by decide) (by decide)).elim
     (fun s1 h1 => h1.elim (fun s2 h2 => ⟨s1, s2, h2.1, h2.2.1, h2.2.2.1⟩))⟩

/-! ## The states the pipeline reaches -/

theorem TreeNewGetChildren_SearchResults (s : State) (n : Option PPV_IMPORT_NODE) :
    (PvImportTreeNewCallback.TreeNewGetChildren s n).1.Context.SearchResults
      = s.Context.SearchResults ∧
    (PvImportTreeNewCallback.TreeNewGetChildren s n).1.Context.SearchResultsAddIndex
      = s.Context.SearchResultsAddIndex := by
  unfold PvImportTreeNewCallback.TreeNewGetChildren
  cases n with
  | some _ => exact ⟨rfl, rfl⟩
  | none => simp only []; split <;> exact ⟨rfl, rfl⟩

theorem PipelineConsistent_of_empty (s : State) (h : PipelineEmpty s) : PipelineConsistent s := by
  obtain ⟨h1, h2, h3, h4⟩ := h
  unfold PipelineConsistent
  rw [h1, h2, h3, h4]
  exact ⟨le_refl _, List.nodup_nil, List.Perm.refl _, List.Perm.refl _⟩

/-- The appending of a node at a new address, with a key that no buffered node carries, keeps
the buffer and the store together. -/
theorem PipelineConsistent_append (s : State) (importNode : PPV_IMPORT_NODE)
    (node : PV_IMPORT_NODE) (h : PipelineConsistent s)
    (hAddress : importNode ∉ s.Context.SearchResults)
    (hKey : node.UniqueId ∉ s.Context.SearchResults.map s.key) :
    PipelineConsistent (PvpProcessImports.append (s.write importNode node) importNode) := by
  obtain ⟨hd, hkeys, htable, hlist⟩ := h
  have hmap : s.Context.SearchResults.map
      (PvpProcessImports.append (s.write importNode node) importNode).key
      = s.Context.SearchResults.map s.key := by
    apply List.map_congr_left
    intro a ha
    have hne : a ≠ importNode := fun heq => hAddress (heq ▸ ha)
    show ((s.write importNode node).Memory a).UniqueId = (s.Memory a).UniqueId
    rw [State.write_Memory, if_neg hne]
  have hnew : (PvpProcessImports.append (s.write importNode node) importNode).key importNode
      = node.UniqueId := by
    show ((s.write importNode node).Memory importNode).UniqueId = node.UniqueId
    rw [State.write_Memory, if_pos rfl]
  have htake : (s.Context.SearchResults ++ [importNode]).take s.Context.SearchResultsAddIndex
      = s.Context.SearchResults.take s.Context.SearchResultsAddIndex :=
    List.take_append_of_le_length hd
  refine ⟨?_, ?_, ?_, ?_⟩
  · show s.Context.SearchResultsAddIndex ≤ (s.Context.SearchResults ++ [importNode]).length
    rw [List.length_append]; omega
  · show ((s.Context.SearchResults ++ [importNode]).map _).Nodup
    rw [List.map_append, hmap, List.map_cons, List.map_nil, hnew, List.nodup_append]
    refine ⟨hkeys, List.nodup_singleton _, ?_⟩
    intro k hk hk2
    rw [List.mem_singleton] at hk2
    exact hKey (hk2 ▸ hk)
  · show s.Context.NodeHashtable.Perm
      ((s.Context.SearchResults ++ [importNode]).take s.Context.SearchResultsAddIndex)
    rw [htake]; exact htable
  · show s.Context.NodeList.Perm
      ((s.Context.SearchResults ++ [importNode]).take s.Context.SearchResultsAddIndex)
    rw [htake]; exact hlist

/-- In a consistent pipeline the keys of the entries of the hash index and of the buffered
nodes from the watermark on are pairwise distinct. -/
theorem PipelineConsistent_distinct (s : State) (h : PipelineConsistent s) :
    ((s.Context.NodeHashtable
        ++ s.Context.SearchResults.drop s.Context.SearchResultsAddIndex).map s.key).Nodup := by
  obtain ⟨-, hkeys, htable, -⟩ := h
  have hperm : (s.Context.NodeHashtable
      ++ s.Context.SearchResults.drop s.Context.SearchResultsAddIndex).Perm
      s.Context.SearchResults := by
    have := List.Perm.append_right
      (s.Context.SearchResults.drop s.Context.SearchResultsAddIndex) htable
    rwa [List.take_append_drop] at this
  exact (hperm.map s.key).nodup_iff.2 hkeys

/-- One drain in a consistent pipeline: it returns, appends the buffered nodes from the
watermark on to both indices, in buffer order, leaves the buffer and the records of all nodes
as they were, moves the watermark to the end of the buffer, and sends TreeNew_NodesStructured
exactly when the watermark lay before the end of the buffer; the pipeline stays consistent. -/
theorem PipelineConsistent_drain (s : State) (h : PipelineConsistent s) :
    ∃ s', PvAddPendingImportNodes s = some s' ∧
      s'.Context.NodeList = s.Context.NodeList
        ++ s.Context.SearchResults.drop s.Context.SearchResultsAddIndex ∧
      s'.Context.NodeHashtable = s.Context.NodeHashtable
        ++ s.Context.SearchResults.drop s.Context.SearchResultsAddIndex ∧
      s'.Context.SearchResults = s.Context.SearchResults ∧
      s'.Context.SearchResultsAddIndex = s.Context.SearchResults.length ∧
      (∀ p, samePayload (s'.Memory p) (s.Memory p)) ∧
      s'.Log = s.Log ++ [EVENT.TreeNew_SetRedraw false]
        ++ (if s.Context.SearchResultsAddIndex < s.Context.SearchResults.length
            then [EVENT.TreeNew_NodesStructured] else [])
        ++ [EVENT.TreeNew_SetRedraw true] ∧
      PipelineConsistent s' := by
  obtain ⟨s', hs', hmem, hctx, hlog, -⟩ := PvAddPendingImportNodes_spec s
  have hdistinct := PipelineConsistent_distinct s h
  obtain ⟨hd, hkeys, htable, hlist⟩ := h
  have hrest := PvImportAddTreeNode_foldl_Context_rest
    (s.Context.SearchResults.drop s.Context.SearchResultsAddIndex) s
  have hfold := PvImportAddTreeNode_foldl_distinct
    (s.Context.SearchResults.drop s.Context.SearchResultsAddIndex) s hdistinct
  have hbuf' : s'.Context.SearchResults = s.Context.SearchResults := by
    rw [hctx, hrest]
  have hidx' : s'.Context.SearchResultsAddIndex = s.Context.SearchResults.length := by
    rw [hctx]; exact max_eq_right hd
  have hlist' : s'.Context.NodeList = s.Context.NodeList
      ++ s.Context.SearchResults.drop s.Context.SearchResultsAddIndex := by
    rw [hctx]; exact hfold.2
  have htable' : s'.Context.NodeHashtable = s.Context.NodeHashtable
      ++ s.Context.SearchResults.drop s.Context.SearchResultsAddIndex := by
    rw [hctx]; exact hfold.1
  have hkey' : s'.key = s.key := by
    funext p
    show (s'.Memory p).UniqueId = (s.Memory p).UniqueId
    rw [hmem]
    exact congrFun (PvImportAddTreeNode_foldl_key _ s) p
  refine ⟨s', hs', hlist', htable', hbuf', hidx', ?_, hlog, ?_, ?_, ?_, ?_⟩
  · intro p
    rw [hmem]
    exact PvImportAddTreeNode_foldl_samePayload _ s p
  · rw [hbuf', hidx']
  · rw [hbuf', hkey']; exact hkeys
  · rw [htable', hbuf', hidx', List.take_length]
    have := List.Perm.append_right
      (s.Context.SearchResults.drop s.Context.SearchResultsAddIndex) htable
    rwa [List.take_append_drop] at this
  · rw [hlist', hbuf', hidx', List.take_length]
    have := List.Perm.append_right
      (s.Context.SearchResults.drop s.Context.SearchResultsAddIndex) hlist
    rwa [List.take_append_drop] at this

theorem PipelineConsistent_timer (s s' : State) (h : PipelineConsistent s)
    (hs : PvImportTreeUpdateCallback s = some s') : PipelineConsistent s' := by
  unfold PvImportTreeUpdateCallback at hs
  cases hh : s.Context.UpdateTimerHandle with
  | none =>
    rw [hh] at hs
    cases hs
    exact h
  | some timer =>
    obtain ⟨s1, hs1, -, -, -, -, -, -, hcons⟩ := PipelineConsistent_drain s h
    rw [hh] at hs
    simp only [hs1] at hs
    cases hs
    exact hcons

theorem PipelineConsistent_deleteTimer (s : State) (h : PipelineConsistent s) :
    PipelineConsistent (PvpPeImportsDlgProc.deleteTimer s) := by
  unfold PvpPeImportsDlgProc.deleteTimer
  cases s.Context.UpdateTimerHandle with
  | none => exact h
  | some timer => exact h

theorem PipelineConsistent_finished (s s' : State) (h : PipelineConsistent s)
    (hs : PvpPeImportsDlgProc.WM_PV_SEARCH_FINISHED s = some s') : PipelineConsistent s' := by
  unfold PvpPeImportsDlgProc.WM_PV_SEARCH_FINISHED at hs
  obtain ⟨s1, hs1, -, -, -, -, -, -, hcons⟩ :=
    PipelineConsistent_drain _ (PipelineConsistent_deleteTimer s h)
  simp only [hs1] at hs
  cases hs
  exact hcons

theorem PipelineConsistent_getChildren (s : State) (n : Option PPV_IMPORT_NODE)
    (h : PipelineConsistent s) :
    PipelineConsistent (PvImportTreeNewCallback.TreeNewGetChildren s n).1 := by
  obtain ⟨hd, hkeys, htable, hlist⟩ := h
  have hkey : (PvImportTreeNewCallback.TreeNewGetChildren s n).1.key = s.key := by
    funext p; simp only [State.key, TreeNewGetChildren_Memory]
  obtain ⟨hbuf, hidx⟩ := TreeNewGetChildren_SearchResults s n
  unfold PipelineConsistent
  rw [hkey, hbuf, hidx, TreeNewGetChildren_NodeHashtable]
  exact ⟨hd, hkeys, htable, (TreeNewGetChildren_NodeList_perm s n).trans hlist⟩

/-- In every state the pipeline reaches the buffer and the store fit together. -/
theorem PipelineReached_PipelineConsistent (s : State) (h : PipelineReached s) :
    PipelineConsistent s := by
  induction h with
  | empty s hEmpty => exact PipelineConsistent_of_empty s hEmpty
  | append s importNode node _ hAddress hKey ih =>
    exact PipelineConsistent_append s importNode node ih hAddress hKey
  | timer s s' _ hs ih => exact PipelineConsistent_timer s s' ih hs
  | getChildren s n _ ih => exact PipelineConsistent_getChildren s n ih
  | finished s s' _ hs ih => exact PipelineConsistent_finished s s' ih hs

/-- The runs of the pipeline, from a state it reaches: when the appended nodes lie at new,
pairwise distinct addresses and carry new, pairwise distinct keys, the run ends in a state the
pipeline reaches. -/
theorem PipelineReached_run (steps : List PIPELINE_STEP) (s : State)
    (appended : List (PPV_IMPORT_NODE × PV_IMPORT_NODE)) (hReached : PipelineReached s)
    (h : PipelineInvariant s appended)
    (hAddr : ((appended ++ appendedNodes steps).map Prod.fst).Nodup)
    (hKeys : ((appended ++ appendedNodes steps).map (fun a => a.2.UniqueId)).Nodup)
    (s' : State) (hRun : pipelineRun s steps = some s') : PipelineReached s' := by
  induction steps generalizing s appended with
  | nil =>
    simp only [pipelineRun] at hRun
    cases hRun
    exact hReached
  | cons step steps ih =>
    rw [appendedNodes_cons, ← List.append_assoc] at hAddr hKeys
    have hAddr1 : ((appended ++ appendedNodes [step]).map Prod.fst).Nodup := by
      rw [List.map_append] at hAddr
      exact (List.nodup_append.1 hAddr).1
    have hKeys1 : ((appended ++ appendedNodes [step]).map (fun a => a.2.UniqueId)).Nodup := by
      rw [List.map_append] at hKeys
      exact (List.nodup_append.1 hKeys).1
    obtain ⟨s1, hs1, hinv1, -⟩ := PipelineInvariant_step s appended step h hAddr1 hKeys1
    simp only [pipelineRun, hs1] at hRun
    refine ih s1 _ ?_ hinv1 hAddr hKeys hRun
    cases step with
    | WorkerAppend importNode node =>
      simp only [pipelineStep, Option.some.injEq] at hs1
      subst hs1
      simp only [appendedNodes, List.map_append, List.map_cons, List.map_nil] at hAddr1 hKeys1
      refine PipelineReached.append s importNode node hReached ?_ ?_
      · rw [h.1]
        intro hmem
        exact (List.nodup_append.1 hAddr1).2.2 hmem (List.mem_singleton_self _)
      · rw [PipelineInvariant_keys s appended h]
        intro hmem
        exact (List.nodup_append.1 hKeys1).2.2 hmem (List.mem_singleton_self _)
    | TimerDrain => exact PipelineReached.timer s s1 hReached hs1

/-- The runs of the worker and the timer lead to states the pipeline reaches: from an empty
pipeline and store, however the appends of the first nodes the worker creates (fewer than 2^32
in all, at pairwise distinct addresses) are interleaved with timer drains. -/
theorem PipelineReached_worker (source : SOURCE_ENUMERATION) (s0 s : State)
    (addresses : List PPV_IMPORT_NODE) (steps : List PIPELINE_STEP)
    (hN : (PvpPeImportsEnumerateThread source).length < 2 ^ 32)
    (hEmpty : PipelineEmpty s0) (hAddr : addresses.Nodup)
    (hLength : addresses.length = (PvpPeImportsEnumerateThread source).length)
    (hSteps : appendedNodes steps <+: workerAppends addresses (PvpPeImportsEnumerateThread source))
    (hRun : pipelineRun s0 steps = some s) : PipelineReached s := by
  have hids : ((PvpPeImportsEnumerateThread source).map (fun n => n.UniqueId)).Nodup := by
    rw [PvpPeImportsEnumerateThread_ids, range_map_succ_eq_rangeFrom _ hN]
    exact List.nodup_range' _ _
  have hfst : (workerAppends addresses (PvpPeImportsEnumerateThread source)).map Prod.fst
      = addresses := List.map_fst_zip _ _ (le_of_eq hLength)
  have hsnd : (workerAppends addresses (PvpPeImportsEnumerateThread source)).map Prod.snd
      = PvpPeImportsEnumerateThread source := List.map_snd_zip _ _ (le_of_eq hLength.symm)
  have hkeysAll : ((workerAppends addresses (PvpPeImportsEnumerateThread source)).map
      (fun a => a.2.UniqueId)).Nodup := by
    have : (workerAppends addresses (PvpPeImportsEnumerateThread source)).map
        (fun a => a.2.UniqueId)
        = ((workerAppends addresses (PvpPeImportsEnumerateThread source)).map Prod.snd).map
            (fun n => n.UniqueId) := by
      rw [List.map_map]; rfl
    rw [this, hsnd]
    exact hids
  refine PipelineReached_run steps s0 [] (PipelineReached.empty s0 hEmpty)
    (PipelineInvariant_of_empty s0 hEmpty) ?_ ?_ s hRun
  · rw [List.nil_append]
    have hAll : ((workerAppends addresses (PvpPeImportsEnumerateThread source)).map
        Prod.fst).Nodup := by
      rw [hfst]; exact hAddr
    exact hAll.sublist ((hSteps.sublist).map Prod.fst)
  · rw [List.nil_append]
    exact hkeysAll.sublist ((hSteps.sublist).map _)

/-! ## The drain in the states the pipeline reaches -/

/-- The drain relies on the buffered nodes carrying pairwise distinct keys, as they do in every
state the pipeline reaches. In the state `pipelineState [100, 101] 0`, which the pipeline does
not reach (the two buffered nodes share the key 7), one drain leaves the node list [100]: the
node 101 is passed over. -/
theorem PvAddPendingImportNodes_shared_key :
    ¬ PipelineReached (pipelineState [100, 101] 0) ∧
    (PvAddPendingImportNodes (pipelineState [100, 101] 0)).map (fun s' => s'.Context.NodeList)
      = some [100] :=
  ⟨fun h => absurd (PipelineReached_PipelineConsistent _ h).2.1 (by decide), by decide⟩

/-- The signal of the drain tells of a migration because no buffered node is rejected in a
state the pipeline reaches. In the state `rejectedBufferState`, which the pipeline does not
reach (the two buffered nodes share the key 7), the one node past the watermark is rejected by
`PvImportAddTreeNode`, and the drain sends TreeNew_NodesStructured with both indices left as
they were. -/
theorem PvAddPendingImportNodes_signal_shared_key :
    ¬ PipelineReached rejectedBufferState ∧
    rejectedBufferState.Context.NodeList = [100] ∧
    rejectedBufferState.Context.NodeHashtable = [100] ∧
    rejectedBufferState.Log = [] ∧
    (PvAddPendingImportNodes rejectedBufferState).map
        (fun s => (s.Context.NodeList, s.Context.NodeHashtable, s.Log))
      = some ([100], [100],
          [EVENT.TreeNew_SetRedraw false, EVENT.TreeNew_NodesStructured,
           EVENT.TreeNew_SetRedraw true]) :=
  ⟨fun h => absurd (PipelineReached_PipelineConsistent _ h).2.1 (by decide),
   by decide, by decide, by decide, by decide⟩

/-! ## Removal in the states the pipeline reaches -/

/-- The removal relies on the nodes of the program carrying pairwise distinct keys. In the
state `rejectedBufferState`, which the pipeline does not reach (the buffered nodes 100 and 101
share the key 7), removing the node 101, which is not in the store, takes the node 100 out of
the hash index and leaves it in the node list. -/
theorem PvRemoveImportNode_shared_key :
    ¬ PipelineReached rejectedBufferState ∧
    101 ∉ rejectedBufferState.Context.NodeList ∧
    (rejectedBufferState.Memory 101).UniqueId = (rejectedBufferState.Memory 100).UniqueId ∧
    (PvRemoveImportNode rejectedBufferState 101).Context.NodeHashtable = [] ∧
    (PvRemoveImportNode rejectedBufferState 101).Context.NodeList = [100] :=
  ⟨fun h => absurd (PipelineReached_PipelineConsistent _ h).2.1 (by decide),
   by decide, by decide, by decide, by decide⟩

end PeView
